import Mathlib

/-!
Verification development for the Eco-Route navigation sources.

Shallow embedding conventions, shared by the whole file:
* C doubles are modelled as exact rationals (ℚ).  All quantities the claims
  are about (edge weights, costs, traffic factors, times) are produced by
  field operations, so the embedding is exact on rational inputs.
* The `1e18` infinity sentinel of the C sources is modelled as `Option ℚ`
  with `none` standing for "still infinite / unreachable"; the sources only
  compare against `INF/2`, never produce real costs of that magnitude.
* The haversine edge-weight function (transcendental, irrelevant to every
  claim) is abstracted into an explicit parameter `hv : Nat → Nat → ℚ`; the
  program instantiates both the stored edge weights and the re-computed
  candidate costs with the same function, which the theorems record as the
  hypothesis that every stored record weight equals `hv` of its endpoints.
* File I/O (fscanf parses) is abstracted to the parsed values: a cache file
  becomes the optional leading timestamp plus the list of rows the read loop
  would successfully parse.
-/

namespace EcoRoute

/-- One directed adjacency record of the array-based adjacency list of
adb[1].h (one slot of the parallel arrays to[]/w[]/nxt[]). -/
structure Rec where
  src : Nat
  dst : Nat
  wt : ℚ
deriving DecidableEq, Repr

/-- The graph globals of adb[1].h: V plus the edge arrays. The records are
kept in insertion order; E is the length of the list.  head[]/nxt[] are not
stored separately: the linked traversal order they realise (most recent
first) is recovered by `adjOf` below. -/
structure Graph where
  V : Nat
  recs : List Rec
deriving DecidableEq

/-- `add_edge` of adb[1].h: rejects out-of-range endpoints and self loops,
otherwise pushes one record per direction.  (The C also aborts the process
when E+2 would exceed MAXE; in that case no graph is produced at all, so the
capacity guard is not part of the value-level model.) -/
def add_edge (g : Graph) (u v : Nat) (ww : ℚ) : Graph :=
  if u < g.V ∧ v < g.V ∧ u ≠ v then
    { g with recs := g.recs ++ [⟨u, v, ww⟩, ⟨v, u, ww⟩] }
  else g

/-- Adjacency traversal order of `for(e=head[u]; e!=-1; e=nxt[e])`: the
records with source u, most recently inserted first. -/
def adjOf (g : Graph) (u : Nat) : List (Nat × ℚ) :=
  ((g.recs.filter (fun r => r.src == u)).reverse).map (fun r => (r.dst, r.wt))

/-- Pointwise update of a state array. -/
def upd {α : Type} (f : Nat → α) (x : Nat) (a : α) : Nat → α :=
  fun y => if y = x then a else f y

/-- The distv[] / used[] / parent[] globals of the shortest-path module,
as total maps (`none` = INF resp. parent -1). -/
structure DState where
  dist : Nat → Option ℚ
  used : Nat → Bool
  parent : Nat → Option Nat

/-- The skip-edge guard of dijkstra_skip_edge:
`(u==skip_u && v==skip_v) || (u==skip_v && v==skip_u)`.
`none` models skip_u = skip_v = -1 (no real node ever equals -1). -/
def skipMatch (skip : Option (Nat × Nat)) (u v : Nat) : Bool :=
  match skip with
  | none => false
  | some (a, b) => (u == a && v == b) || (u == b && v == a)

/-- One relaxation `alt=distv[u]+w[e]; if(alt<distv[v]) ...` for the
adjacency entry vw of u, including the skip-edge guard.  (The dist u = none
branch is unreachable: minQ only ever selects nodes with finite distance.) -/
def relaxStep (skip : Option (Nat × Nat)) (u : Nat) (st : DState) (vw : Nat × ℚ) : DState :=
  if skipMatch skip u vw.1 then st
  else
    match st.dist u with
    | none => st
    | some du =>
      let alt := du + vw.2
      let improve : Bool :=
        match st.dist vw.1 with
        | none => true
        | some dv => decide (alt < dv)
      if improve then
        { dist := upd st.dist vw.1 (some alt)
          used := st.used
          parent := upd st.parent vw.1 (some u) }
      else st

/-- Relax every edge out of u, in traversal order. -/
def relaxAll (g : Graph) (skip : Option (Nat × Nat)) (u : Nat) (st : DState) : DState :=
  (adjOf g u).foldl (relaxStep skip u) st

/-- The linear minimum scan `minQ`: first unvisited index of strictly
smallest finite distance, scanning i = 0..V-1 with a strict improvement
test (`distv[i]<best`, best initialised to INF). -/
def minQList (st : DState) (l : List Nat) : Option (Nat × ℚ) :=
  l.foldl
    (fun acc i =>
      if st.used i then acc
      else
        match st.dist i with
        | none => acc
        | some d =>
          match acc with
          | none => some (i, d)
          | some (bi, best) => if d < best then some (i, d) else some (bi, best))
    none

def minQ (V : Nat) (st : DState) : Option Nat :=
  (minQList st (List.range V)).map (fun p => p.1)

/-- The main `for(;;)` loop shared by ecodijkstra and dijkstra_skip_edge:
select the minimum unvisited node, stop when none is left, mark it used,
stop when it is the target, otherwise relax its outgoing edges.  Fuel
replaces the unbounded C loop; every non-terminating iteration marks a
previously unused node, so V fuel reproduces the C behaviour exactly. -/
def dloop (g : Graph) (skip : Option (Nat × Nat)) (t : Nat) : Nat → DState → DState
  | 0, st => st
  | fuel + 1, st =>
    match minQ g.V st with
    | none => st
    | some u =>
      let stm : DState := { st with used := upd st.used u true }
      if u = t then stm
      else dloop g skip t fuel (relaxAll g skip u stm)

/-- Initial state: distv[s]=0, everything else INF / unused / parent -1. -/
def dinit (s : Nat) : DState :=
  { dist := fun i => if i = s then some 0 else none
    used := fun _ => false
    parent := fun _ => none }

/-- dijkstra_skip_edge of adb[1].h (the skip pair is the pure image of the
skip_u/skip_v globals that the caller sets before the call). -/
def dijkstra_skip_edge (g : Graph) (skip : Option (Nat × Nat)) (s t : Nat) : DState :=
  dloop g skip t g.V (dinit s)

/-- ecodijkstra of adb[1].h: identical loop without any skip guard. -/
def ecodijkstra (g : Graph) (s t : Nat) : DState :=
  dijkstra_skip_edge g none s t

/-- The parent walk `for(v=t; v!=-1; v=parent[v]) tmp[k++]=v;` collecting
t, parent t, ... (fuel bounds the walk; the invariants below show V fuel
is always enough). -/
def chainAux (parent : Nat → Option Nat) : Nat → Nat → List Nat
  | 0, v => [v]
  | fuel + 1, v =>
    match parent v with
    | none => [v]
    | some u => v :: chainAux parent fuel u

/-- build_path of adb[1].h: empty when the target kept an infinite
distance, otherwise the reversed parent walk. -/
def build_path (g : Graph) (st : DState) (t : Nat) : Option (List Nat) :=
  match st.dist t with
  | none => none
  | some _ => some ((chainAux st.parent g.V t).reverse)

/-- The Path container of adb[1].h. -/
structure Path where
  nodes : List Nat
  cost : ℚ
deriving DecidableEq, Repr

/-- equal_paths of adb[1].h: same length and same node at every index,
i.e. equality of the node lists. -/
def equal_paths (a b : Path) : Bool :=
  a.nodes == b.nodes

/-- Cumulative haversine cost along a node list, the sum
`Σ hv(nodes[j-1], nodes[j])` that yen_k2_paths re-computes for candidates. -/
def hvCost (hv : Nat → Nat → ℚ) : List Nat → ℚ
  | [] => 0
  | [_] => 0
  | a :: b :: rest => hv a b + hvCost hv (b :: rest)

/-- The body of one iteration i of the spur loop of yen_k2_paths:
set the skip edge to (best[i], best[i+1]), rerun Dijkstra from best[i],
and if the target is reached build the candidate as the best-path prefix
up to i concatenated with the spur path (minus its repeated head), with
the cost re-computed from hv along prefix and spur. -/
def spurCandidate (g : Graph) (hv : Nat → Nat → ℚ) (t : Nat) (best : List Nat) (i : Nat) :
    Option Path :=
  let su := best.getD i 0
  let sv := best.getD (i + 1) 0
  let dst := dijkstra_skip_edge g (some (su, sv)) su t
  match dst.dist t with
  | none => none
  | some _ =>
    let spur := (chainAux dst.parent g.V t).reverse
    let pref := best.take (i + 1)
    some ⟨pref ++ spur.drop 1, hvCost hv pref + hvCost hv spur⟩

/-- The candidate-accumulation loop of yen_k2_paths: iterate i over the
consecutive edges of the best path, skip unreachable spurs, drop exact
node-sequence duplicates, and cap the candidate array at 64 entries. -/
def yenAccum (g : Graph) (hv : Nat → Nat → ℚ) (t : Nat) (best : List Nat)
    (A : List Path) (i : Nat) : List Path :=
  match spurCandidate g hv t best i with
  | none => A
  | some cand =>
    if (A.any (fun p => equal_paths p cand)) = false ∧ A.length < 64 then
      A ++ [cand]
    else A

def yenLoop (g : Graph) (hv : Nat → Nat → ℚ) (t : Nat) (best : List Nat) (m : Nat) :
    List Path :=
  (List.range m).foldl (yenAccum g hv t best) []

/-- The final min-cost scan `for(i=1;i<Ac;i++) if(A[i].cost<A[besti].cost)`:
index of the first entry of minimal cost. -/
def bestIdx (A : List Path) : Nat :=
  (List.range A.length).foldl
    (fun besti i =>
      if (A.getD i ⟨[], 0⟩).cost < (A.getD besti ⟨[], 0⟩).cost then i else besti)
    0

/-- yen_k2_paths of adb[1].h: the best Dijkstra path, plus (when any spur
candidate survives) the minimum-cost candidate as the single alternate. -/
def yen_k2_paths (g : Graph) (hv : Nat → Nat → ℚ) (s t : Nat) : List Path :=
  let st0 := ecodijkstra g s t
  match st0.dist t with
  | none => []
  | some best =>
    let p0 : Path := ⟨(chainAux st0.parent g.V t).reverse, best⟩
    let A := yenLoop g hv t p0.nodes (p0.nodes.length - 1)
    if A.length = 0 then [p0] else [p0, A.getD (bestIdx A) ⟨[], 0⟩]

/-- The mutable globals that yen_k2_paths and the dijkstra variants share:
the graph arrays plus the skip_u/skip_v exclusion state (-1 = cleared). -/
structure GlobState where
  graph : Graph
  skip_u : Int
  skip_v : Int

/-- The spur loop of yen_k2_paths with the global state threaded through:
each iteration first assigns skip_u/skip_v, then runs dijkstra_skip_edge
(which reads but never writes the graph arrays), then accumulates the
candidate exactly as `yenAccum`. -/
def yenAccumSt (hv : Nat → Nat → ℚ) (t : Nat) (best : List Nat)
    (acc : List Path × GlobState) (i : Nat) : List Path × GlobState :=
  let su := best.getD i 0
  let sv := best.getD (i + 1) 0
  let gs1 : GlobState := { acc.2 with skip_u := (su : Int), skip_v := (sv : Int) }
  (yenAccum gs1.graph hv t best acc.1 i, gs1)

/-- yen_k2_paths as a transformer of the shared globals: run the spur loop
with the exclusion state threaded, then execute the
`skip_u = skip_v = -1` reset of line 282 before returning.  When the
initial Dijkstra finds no route the C returns before ever touching
skip_u/skip_v, so the incoming state is returned unchanged. -/
def yen_k2_run (gs : GlobState) (hv : Nat → Nat → ℚ) (s t : Nat) :
    List Path × GlobState :=
  let g := gs.graph
  let st0 := ecodijkstra g s t
  match st0.dist t with
  | none => ([], gs)
  | some best =>
    let p0 : Path := ⟨(chainAux st0.parent g.V t).reverse, best⟩
    let res := (List.range (p0.nodes.length - 1)).foldl (yenAccumSt hv t p0.nodes) ([], gs)
    let A := res.1
    let gsR : GlobState := { res.2 with skip_u := -1, skip_v := -1 }
    if A.length = 0 then ([p0], gsR) else ([p0, A.getD (bestIdx A) ⟨[], 0⟩], gsR)

/-- Failure modes of the distance / alt-route pipeline of ecopath. -/
inductive RouteError where
  | invalidRequest
  | noRoute
deriving DecidableEq, Repr

/-- The routing portion of ecopath after both places are resolved:
`if (s == t) die(...)` terminates with an error, otherwise yen_k2_paths
runs and found==0 is reported as the no-route outcome. -/
def ecopath_route (g : Graph) (hv : Nat → Nat → ℚ) (s t : Nat) :
    Except RouteError (List Path) :=
  if s = t then Except.error RouteError.invalidRequest
  else
    let found := yen_k2_paths g hv s t
    if found.length = 0 then Except.error RouteError.noRoute
    else Except.ok found

/-- Average-speed constants of adb[1].h used for the ETA estimates. -/
def CAR_KMH : ℚ := 40
def BIKE_KMH : ℚ := 15
def WALK_KMH : ℚ := 5

/-- compute_time_min of adb[1].h. -/
def compute_time_min (distance_km speed_kmh : ℚ) : ℚ :=
  if speed_kmh ≤ 0 then 0 else (distance_km / speed_kmh) * 60

/-- The INF sentinel that build_knn_fixed stores at the self slot before
the partial selection sort. -/
def INFq : ℚ := 10 ^ 18

/-- The inner scan `for(j=i+1;j<V;j++) if(dists[j]<dists[mi]) mi=j;`:
index of the first strictly smallest entry at positions i..len-1. -/
def minIdxFrom (l : List (ℚ × Nat)) (i : Nat) : Nat :=
  (List.range' (i + 1) (l.length - i - 1)).foldl
    (fun mi j => if (l.getD j (0, 0)).1 < (l.getD mi (0, 0)).1 then j else mi)
    i

/-- The synchronized swap of dists[] and idx[] at positions i and j. -/
def swapL (l : List (ℚ × Nat)) (i j : Nat) : List (ℚ × Nat) :=
  let a := l.getD i (0, 0)
  let b := l.getD j (0, 0)
  (l.set i b).set j a

/-- The partial selection sort of build_knn_fixed: the first k positions
receive the k smallest entries. -/
def selectK (k : Nat) (l : List (ℚ × Nat)) : List (ℚ × Nat) :=
  (List.range k).foldl (fun l2 i => swapL l2 i (minIdxFrom l2 i)) l

/-- build_knn_fixed of adb[1].h over an abstract distance function distf
(the haversine of the loaded coordinates): clamp k, and for every node u
select its k nearest other nodes by partial selection sort and add an
undirected edge to each. -/
def build_knn_fixed (distf : Nat → Nat → ℚ) (V k0 : Nat) : Graph :=
  let k1 := if k0 < 1 then 1 else k0
  let k := if V - 1 < k1 then V - 1 else k1
  (List.range V).foldl
    (fun g u =>
      let l0 := (List.range V).map (fun v => (if u = v then INFq else distf u v, v))
      let l := selectK k l0
      (List.range k).foldl
        (fun g2 i =>
          let v := (l.getD i (0, 0)).2
          if v ≠ u then add_edge g2 u v (distf u v) else g2)
        g)
    { V := V, recs := [] }

/-- Number of adjacency records of g for the ordered pair (x, y): how many
slots of the to[]/w[] arrays represent the directed edge x -> y. -/
def cnt (g : Graph) (x y : Nat) : Nat :=
  (g.recs.filter (fun r => r.src == x && r.dst == y)).length

/-- The clamped neighbour count of build_knn_fixed:
`if (k<1) k=1; if (V-1<k) k=V-1;`. -/
def kclamp (V k0 : Nat) : Nat :=
  if V - 1 < (if k0 < 1 then 1 else k0) then V - 1 else (if k0 < 1 then 1 else k0)

/-- One step of the edge-adding loop of build_knn_fixed: add the undirected
edge u -- p.2 unless the selected index is u itself. -/
def knnStep (distf : Nat → Nat → ℚ) (u : Nat) (g2 : Graph) (p : ℚ × Nat) : Graph :=
  if p.2 ≠ u then add_edge g2 u p.2 (distf u p.2) else g2

/-- The body of build_knn_fixed for one source node u, phrased over the
list of selected entries instead of position lookups. -/
def knnOuter (distf : Nat → Nat → ℚ) (V k : Nat) (g : Graph) (u : Nat) : Graph :=
  ((selectK k ((List.range V).map
      (fun v => (if u = v then INFq else distf u v, v)))).take k).foldl
    (knnStep distf u) g

/-- Position of the first occurrence of v (length when absent): the settle
order bookkeeping of the verified Dijkstra development. -/
def ordIdx : List Nat → Nat → Nat
  | [], _ => 0
  | a :: l, v => if a = v then 0 else ordIdx l v + 1

/-- A usable directed step during relaxation: some adjacency record realises
it and the skip guard does not fire. -/
def edgeOk (g : Graph) (skip : Option (Nat × Nat)) (a b : Nat) : Prop :=
  (∃ r ∈ g.recs, r.src = a ∧ r.dst = b) ∧ skipMatch skip a b = false

/-- The loop invariant of the verified development of
ecodijkstra/dijkstra_skip_edge: ord is the list of settled nodes in settle
order.  All distances carry their final parent-chain meaning. -/
structure DInv (g : Graph) (skip : Option (Nat × Nat)) (hv : Nat → Nat → ℚ)
    (s : Nat) (st : DState) (ord : List Nat) : Prop where
  nodup : ord.Nodup
  mem_lt : ∀ u ∈ ord, u < g.V
  used_iff : ∀ v, st.used v = true ↔ v ∈ ord
  s_mem : ord = [] ∨ s ∈ ord
  empty_init : ord = [] → st = dinit s
  dist_s : st.dist s = some 0
  dist_lt : ∀ v d, st.dist v = some d → v < g.V
  nonneg : ∀ v d, st.dist v = some d → 0 ≤ d
  frontier : ∀ x ∈ ord, ∀ dx, st.dist x = some dx → ∀ y dy, st.used y = false →
    st.dist y = some dy → dx ≤ dy
  settled_fin : ∀ x ∈ ord, ∃ dx, st.dist x = some dx
  relaxed : ∀ x ∈ ord, ∀ vw ∈ adjOf g x, skipMatch skip x vw.1 = false →
    ∀ dx, st.dist x = some dx → ∃ dv, st.dist vw.1 = some dv ∧ dv ≤ dx + vw.2
  parent_spec : ∀ v u, st.parent v = some u → u ∈ ord ∧
    (∃ r ∈ g.recs, r.src = u ∧ r.dst = v) ∧ skipMatch skip u v = false ∧
    ∃ du, st.dist u = some du ∧ st.dist v = some (du + hv u v)
  parent_ord : ∀ v u, st.parent v = some u → v ∈ ord → ordIdx ord u < ordIdx ord v
  no_parent : ∀ v d, st.dist v = some d → st.parent v = none → v = s

/-- The candidate array after the first k spur iterations of yen_k2_paths. -/
def yenA (g : Graph) (hv : Nat → Nat → ℚ) (t : Nat) (best : List Nat) (k : Nat) :
    List Path :=
  (List.range k).foldl (yenAccum g hv t best) []

end EcoRoute

namespace Carbon

/-- One slot of the flattened n×n adjacency matrix of carbon.c. -/
@[ext]
structure CEdge where
  v : Int
  distance_km : ℚ
  traffic_factor : ℚ
  co2_cost : ℚ
deriving DecidableEq, Repr

/-- The dense graph of carbon.c.  `edges i j` models edges[i*n + j]; pairs
outside the n×n allocation do not exist in C and are modelled as an inert
slot that no operation reads or writes. -/
structure CGraph where
  n : Nat
  edges : Nat → Nat → CEdge

/-- build_complete_graph over an abstract pairwise distance function
(the haversine of the loaded city coordinates). -/
def build_complete_graph (distf : Nat → Nat → ℚ) (n : Nat) : CGraph :=
  { n := n
    edges := fun i j =>
      if i < n ∧ j < n then
        if i = j then ⟨-1, 0, 1, 0⟩ else ⟨(j : Int), distf i j, 1, 0⟩
      else ⟨-1, 0, 0, 0⟩ }

/-- Default emission factor (g/km). -/
def DEFAULT_CO2_GKM : ℚ := 120

/-- The `for(i<n*n) traffic_factor=1.0` reset loop of load_traffic_cache. -/
def resetFactors (g : CGraph) : CGraph :=
  { g with
    edges := fun i j =>
      if i < g.n ∧ j < g.n then { g.edges i j with traffic_factor := 1 }
      else g.edges i j }

/-- One parsed `u v fac` row of the cache file: applied symmetrically to
(u,v) and (v,u) when both indices are in range, otherwise ignored. -/
def applyRow (g : CGraph) (row : Int × Int × ℚ) : CGraph :=
  if 0 ≤ row.1 ∧ row.1 < (g.n : Int) ∧ 0 ≤ row.2.1 ∧ row.2.1 < (g.n : Int) then
    let un := row.1.toNat
    let vn := row.2.1.toNat
    { g with
      edges := fun i j =>
        if (i = un ∧ j = vn) ∨ (i = vn ∧ j = un) then
          { g.edges i j with traffic_factor := row.2.2 }
        else g.edges i j }
  else g

/-- load_traffic_cache of carbon.c over the parsed file content: when no
leading timestamp parses (or the file is missing) the function returns 0
without touching the graph; otherwise every in-matrix traffic factor is
reset to 1.0 and the parsed rows are applied in order. -/
def load_traffic_cache (g : CGraph) (ts : Option Int) (rows : List (Int × Int × ℚ)) :
    Bool × CGraph :=
  match ts with
  | none => (false, g)
  | some _ => (true, rows.foldl applyRow (resetFactors g))

/-- is_cache_fresh of carbon.c over the parsed leading timestamp
(none = missing file or no parsable timestamp): fresh iff the age
now - ts is non-negative and at most ttl_minutes * 60 seconds. -/
def is_cache_fresh (ts : Option Int) (now : Int) (ttl_minutes : Int) : Bool :=
  match ts with
  | none => false
  | some t =>
    let age := now - t
    if age < 0 then false
    else if age ≤ ttl_minutes * 60 then true
    else false

/-- The model/co2 lookup of shortp: a blank model falls back to the name
"Default", then the first case-insensitively matching cars.txt row wins,
otherwise the 120 g/km default stands.  (A missing cars.txt is the empty
table.) -/
def lookup_car_co2 (table : List (String × ℚ)) (input : String) : ℚ :=
  let m := if input = "" then "Default" else input
  match table.find? (fun e => e.1.toLower == m.toLower) with
  | some e => e.2
  | none => DEFAULT_CO2_GKM

/-- apply_co2_weights of carbon.c: for every matrix slot with a valid
neighbour (e->v >= 0) the emission cost is distance * factor * car_co2,
invalid slots get cost 0. -/
def apply_co2_weights (g : CGraph) (car_co2_g_per_km : ℚ) : CGraph :=
  { g with
    edges := fun i j =>
      if i < g.n ∧ j < g.n then
        let e := g.edges i j
        if 0 ≤ e.v then { e with co2_cost := e.distance_km * e.traffic_factor * car_co2_g_per_km }
        else { e with co2_cost := 0 }
      else g.edges i j }

/-- The DijkNode state of the CO2 Dijkstra. -/
structure CDState where
  dist : Nat → Option ℚ
  prev : Nat → Option Nat
  visited : Nat → Bool

/-- The linear minimum scan of the CO2 Dijkstra (same strict-improvement
scan as minQ of adb[1].h). -/
def cminQ (n : Nat) (st : CDState) : Option Nat :=
  ((List.range n).foldl
    (fun acc i =>
      if st.visited i then acc
      else
        match st.dist i with
        | none => acc
        | some d =>
          match acc with
          | none => some (i, d)
          | some (bi, best) => if d < best then some (i, d) else some (bi, best))
    none).map (fun p => p.1)

/-- Relax all slots out of u: `for(v=0;v<n;v++)` with the
`e->v >= 0 && !nodes[v].visited` guard, weight co2_cost. -/
def crelax (g : CGraph) (u : Nat) (st : CDState) : CDState :=
  (List.range g.n).foldl
    (fun st2 v =>
      let e := g.edges u v
      if 0 ≤ e.v ∧ st2.visited v = false then
        match st2.dist u with
        | none => st2
        | some du =>
          let alt := du + e.co2_cost
          let improve : Bool :=
            match st2.dist v with
            | none => true
            | some dv => decide (alt < dv)
          if improve then
            { st2 with dist := EcoRoute.upd st2.dist v (some alt)
                       prev := EcoRoute.upd st2.prev v (some u) }
          else st2
      else st2)
    st

/-- The `for(;;)` loop of the CO2 Dijkstra.  Note the order of the two
break tests: reaching dst breaks BEFORE the node is marked visited, so a
src == dst request terminates on the very first iteration. -/
def cdloop (g : CGraph) (dst : Nat) : Nat → CDState → CDState
  | 0, st => st
  | fuel + 1, st =>
    match cminQ g.n st with
    | none => st
    | some u =>
      if u = dst then st
      else cdloop g dst fuel (crelax g u { st with visited := EcoRoute.upd st.visited u true })

/-- The backwards walk `while (cur != -1 && k < 1024)` of the CO2
Dijkstra, collecting at most 1024 nodes. -/
def cchain (prev : Nat → Option Nat) : Nat → Nat → List Nat
  | 0, _ => []
  | fuel + 1, cur =>
    cur :: (match prev cur with
            | none => []
            | some p => cchain prev fuel p)

/-- Initial state of the CO2 Dijkstra. -/
def cinit (src : Nat) : CDState :=
  { dist := fun i => if i = src then some 0 else none
    prev := fun _ => none
    visited := fun _ => false }

/-- The reconstruction after the loop: 0 (none) when dst kept an infinite
distance, otherwise the reversed backwards walk and the final cost. -/
def creconstruct (dst : Nat) (stF : CDState) : Option (List Nat × ℚ) :=
  match stF.dist dst with
  | none => none
  | some c => some ((cchain stF.prev 1024 dst).reverse, c)

/-- dijkstra of carbon.c. -/
def dijkstra (g : CGraph) (src dst : Nat) : Option (List Nat × ℚ) :=
  creconstruct dst (cdloop g dst g.n (cinit src))

/-- Mode speed constants of carbon.c. -/
def CAR_FREEFLOW_KMPH : ℚ := 50
def BIKE_KMPH : ℚ := 15
def WALK_KMPH : ℚ := 5

/-- The per-segment time accumulation of shortp (carbon.c lines 724-742):
for every consecutive pair of the path, the car speed is the free-flow
speed divided by the traffic factor of that edge, clamped below at
5 km/h, while bike and walk use the fixed constants.  (At a traffic
factor of exactly 0 the C computes an infinite speed and a 0-minute
segment; every theorem below assumes a nonzero factor.) -/
def seg_step (g : CGraph) (acc : ℚ × ℚ × ℚ) (uv : Nat × Nat) : ℚ × ℚ × ℚ :=
  let e := g.edges uv.1 uv.2
  let d := e.distance_km
  let factor := e.traffic_factor
  let car_speed0 := CAR_FREEFLOW_KMPH / factor
  let car_speed := if car_speed0 < 5 then 5 else car_speed0
  (acc.1 + (d / car_speed) * 60,
   acc.2.1 + (d / BIKE_KMPH) * 60,
   acc.2.2 + (d / WALK_KMPH) * 60)

def seg_times (g : CGraph) (path : List Nat) : ℚ × ℚ × ℚ :=
  (path.zip path.tail).foldl (seg_step g) (0, 0, 0)

/-- A 2D point of the RDP simplifier. -/
structure Pt where
  lat : ℚ
  lon : ℚ
deriving DecidableEq, Repr

/-- seg_point_dist2 of carbon.c: squared distance from c to segment ab,
with the degenerate-chord fallback to the plain squared distance. -/
def seg_point_dist2 (a b c : Pt) : ℚ :=
  let vx := b.lon - a.lon
  let vy := b.lat - a.lat
  let wx := c.lon - a.lon
  let wy := c.lat - a.lat
  let vv := vx * vx + vy * vy
  if vv = 0 then
    let dx := c.lon - a.lon
    let dy := c.lat - a.lat
    dx * dx + dy * dy
  else
    let t0 := (vx * wx + vy * wy) / vv
    let t := if t0 < 0 then 0 else if t0 > 1 then 1 else t0
    let px := a.lon + t * vx
    let py := a.lat + t * vy
    let dx := c.lon - px
    let dy := c.lat - py
    dx * dx + dy * dy

/-- The inner scan of one span (i,j): the maximum squared chord distance
over the interior points, with bestd2 initialised to -1 and the strict
improvement test keeping the first maximiser (none = no interior point). -/
def bestInterior (pts : List Pt) (i j : Nat) : ℚ × Option Nat :=
  (List.range' (i + 1) (j - i - 1)).foldl
    (fun acc k =>
      let d2 := seg_point_dist2 (pts.getD i ⟨0, 0⟩) (pts.getD j ⟨0, 0⟩) (pts.getD k ⟨0, 0⟩)
      if d2 > acc.1 then (d2, some k) else acc)
    (-1, none)

theorem bestInterior_some_range (pts : List Pt) (i j : Nat) (k : Nat)
    (h : (bestInterior pts i j).2 = some k) : i < k ∧ k < j := by
  have main : ∀ (l : List Nat) (acc : ℚ × Option Nat),
      (∀ x, acc.2 = some x → i < x ∧ x < j) →
      (∀ x ∈ l, i < x ∧ x < j) →
      ∀ x, (l.foldl (fun acc k =>
        let d2 := seg_point_dist2 (pts.getD i ⟨0, 0⟩) (pts.getD j ⟨0, 0⟩) (pts.getD k ⟨0, 0⟩)
        if d2 > acc.1 then (d2, some k) else acc) acc).2 = some x → i < x ∧ x < j := by
    intro l
    induction l with
    | nil => intro acc hacc _ x hx; exact hacc x hx
    | cons a as ih =>
      intro acc hacc hmem x hx
      simp only [List.foldl_cons] at hx
      refine ih _ ?_ (fun y hy => hmem y (List.mem_cons_of_mem _ hy)) x hx
      intro y hy
      by_cases hc : seg_point_dist2 (pts.getD i ⟨0, 0⟩) (pts.getD j ⟨0, 0⟩) (pts.getD a ⟨0, 0⟩) > acc.1
      · simp only [hc, if_pos] at hy
        simp only [Option.some.injEq] at hy
        subst hy
        exact hmem a (List.mem_cons_self a as)
      · simp only [hc, if_neg, if_false] at hy
        exact hacc y hy
  refine main _ _ (by simp) ?_ k h
  intro x hx
  have := List.mem_range'_1.mp hx
  omega

/-- The RDP keep set for the span (i,j), as computed by the iterative
stack loop of rdp_simplify.  The decision of each span (best interior
point, comparison with eps^2) depends only on its endpoints, so the
processing order of the explicit stack is irrelevant and the loop computes
exactly this recursive union: keep the maximiser and recurse on both
half-spans whenever the maximum exceeds eps^2.  The fuel argument bounds
the recursion depth; every recursive call strictly shrinks the span, so
any fuel exceeding j - i reproduces the C loop exactly (rdp_simplify below
passes the input length). -/
def rdpSpan (pts : List Pt) (eps : ℚ) : Nat → Nat → Nat → Finset Nat
  | 0, _, _ => ∅
  | fuel + 1, i, j =>
    match (bestInterior pts i j).2 with
    | none => ∅
    | some k =>
      if (bestInterior pts i j).1 > eps * eps then
        {k} ∪ rdpSpan pts eps fuel i k ∪ rdpSpan pts eps fuel k j
      else ∅

/-- rdp_simplify of carbon.c: keep[0] and keep[n-1] are set up front, the
span loop adds the interior keeps, and the output lists the kept points in
input order, truncated at out_max. -/
def rdp_simplify (pts : List Pt) (eps : ℚ) (out_max : Nat) : List Pt :=
  let n := pts.length
  if n = 0 ∨ out_max = 0 then []
  else if n = 1 then [pts.getD 0 ⟨0, 0⟩]
  else
    let keep := rdpSpan pts eps n 0 (n - 1) ∪ {0, n - 1}
    (((List.range n).filter (fun i => decide (i ∈ keep))).take out_max).map
      (fun i => pts.getD i ⟨0, 0⟩)

/-- Fold behaviour of the linear minimum scan over the initial CO2 state:
starting from nothing-or-the-source accumulator, scanning any index list
yields the source entry exactly when the source occurs in the list. -/
theorem cminQ_init_scan (s : Nat) (l : List Nat) :
    ∀ (acc : Option (Nat × ℚ)), acc = none ∨ acc = some (s, 0) →
      (l.foldl
        (fun acc i =>
          match (if i = s then some (0 : ℚ) else none) with
          | none => acc
          | some d =>
            match acc with
            | none => some (i, d)
            | some (bi, best) => if d < best then some (i, d) else some (bi, best))
        acc) = (if s ∈ l then some (s, 0) else acc) := by
  induction l with
  | nil => intro acc _; simp
  | cons a as ih =>
    intro acc hacc
    simp only [List.foldl_cons]
    by_cases has : a = s
    · subst has
      rcases hacc with h | h <;> subst h
      · rw [show (match (if a = a then some (0 : ℚ) else none) with
          | none => (none : Option (Nat × ℚ))
          | some d =>
            match (none : Option (Nat × ℚ)) with
            | none => some (a, d)
            | some (bi, best) => if d < best then some (a, d) else some (bi, best)) = some (a, 0) by simp]
        rw [ih _ (Or.inr rfl)]
        simp [List.mem_cons]
      · rw [show (match (if a = a then some (0 : ℚ) else none) with
          | none => some (a, (0:ℚ))
          | some d =>
            match some (a, (0:ℚ)) with
            | none => some (a, d)
            | some (bi, best) => if d < best then some (a, d) else some (bi, best)) = some (a, 0) by simp]
        rw [ih _ (Or.inr rfl)]
        simp [List.mem_cons]
    · rcases hacc with h | h <;> subst h
      · rw [show (match (if a = s then some (0 : ℚ) else none) with
            | none => (none : Option (Nat × ℚ))
            | some d =>
              match (none : Option (Nat × ℚ)) with
              | none => some (a, d)
              | some (bi, best) => if d < best then some (a, d) else some (bi, best)) = none by simp [has]]
        rw [ih _ (Or.inl rfl)]
        simp [List.mem_cons, Ne.symm has]
      · rw [show (match (if a = s then some (0 : ℚ) else none) with
            | none => some (s, (0:ℚ))
            | some d =>
              match some (s, (0:ℚ)) with
              | none => some (a, d)
              | some (bi, best) => if d < best then some (a, d) else some (bi, best)) = some (s, 0) by simp [has]]
        rw [ih _ (Or.inr rfl)]
        simp [List.mem_cons, Ne.symm has]

/-- The first linear scan of the CO2 Dijkstra from the initial state finds
the source (the only node with a finite distance). -/
theorem cminQ_init (n s : Nat) (hs : s < n) :
    cminQ n (cinit s) = some s := by
  show ((List.range n).foldl
      (fun acc i =>
        match (if i = s then some (0 : ℚ) else none) with
        | none => acc
        | some d =>
          match acc with
          | none => some (i, d)
          | some (bi, best) => if d < best then some (i, d) else some (bi, best))
      none).map (fun p => p.1) = some s
  rw [cminQ_init_scan s (List.range n) none (Or.inl rfl)]
  simp [List.mem_range, hs]

/-- A source-equals-target CO2 request terminates on the very first loop
iteration, before the source is even marked visited, and reconstructs the
one-node path of cost 0. -/
theorem dijkstra_src_eq_dst (g : CGraph) (s : Nat) (hs : s < g.n) :
    Carbon.dijkstra g s s = some ([s], 0) := by
  obtain ⟨m, hm⟩ : ∃ m, g.n = m + 1 := ⟨g.n - 1, by omega⟩
  have hloop : cdloop g s g.n (cinit s) = cinit s := by
    conv_lhs => rw [hm]
    show cdloop g s (m + 1) (cinit s) = cinit s
    unfold cdloop
    have hq : cminQ g.n (cinit s) = some s := cminQ_init g.n s hs
    unfold cinit at hq ⊢
    rw [hq]
    simp
  unfold Carbon.dijkstra
  rw [hloop]
  have hc : cchain (fun _ => none) 1024 s = [s] := by
    show cchain (fun _ => none) (1023 + 1) s = [s]
    unfold cchain
    rfl
  unfold creconstruct cinit
  simp [hc]

end Carbon

/-! ## Claim C6: cache freshness -/

/-- C6 (confirmed): is_cache_fresh reports fresh exactly when a timestamp
parses and the age now - ts lies in [0, ttl*60] seconds — equivalently the
snapshot written at T is fresh exactly on [T, T + ttl*60] (nonempty only
for a non-negative ttl), a future timestamp is never fresh, and one second
after the ttl window the snapshot is stale. -/
theorem cache_freshness_iff :
    (∀ now ttl : Int, Carbon.is_cache_fresh none now ttl = false) ∧
    (∀ ts now ttl : Int,
      (Carbon.is_cache_fresh (some ts) now ttl = true) ↔
        (0 ≤ now - ts ∧ now - ts ≤ ttl * 60)) ∧
    (∀ T ttl : Int,
      Carbon.is_cache_fresh (some T) (T + ttl * 60) ttl = decide (0 ≤ ttl)) ∧
    (∀ T ttl : Int, Carbon.is_cache_fresh (some T) (T + ttl * 60 + 1) ttl = false) := by
  refine ⟨fun now ttl => rfl, ?_, ?_, ?_⟩
  · intro ts now ttl
    simp only [Carbon.is_cache_fresh]
    constructor
    · intro h
      by_cases h0 : now - ts < 0
      · simp [h0] at h
      · by_cases h1 : now - ts ≤ ttl * 60
        · omega
        · simp [h0, h1] at h
    · intro ⟨h0, h1⟩
      have h2 : ¬ now - ts < 0 := by omega
      simp [h2, h1]
  · intro T ttl
    simp only [Carbon.is_cache_fresh]
    have harith : T + ttl * 60 - T = ttl * 60 := by ring
    by_cases h : 0 ≤ ttl
    · have h1 : ¬ T + ttl * 60 - T < 0 := by omega
      have h2 : T + ttl * 60 - T ≤ ttl * 60 := by omega
      simp [h1, h2, h]
    · have hneg : ttl * 60 < 0 := by omega
      have h1 : T + ttl * 60 - T < 0 := by omega
      simp [h1, hneg, h]
  · intro T ttl
    simp only [Carbon.is_cache_fresh]
    by_cases h1 : T + ttl * 60 + 1 - T < 0
    · simp [h1]
    · have h2 : ¬ T + ttl * 60 + 1 - T ≤ ttl * 60 := by omega
      simp [h1, h2]

/-! ## Claim C3: source equals target -/

/-- C3 counterexample: in CO2 mode a source-equals-target request does NOT
fail — on a concrete two-city graph the CO2 Dijkstra succeeds and produces
the one-node path of cost 0 instead of an InvalidRequest error. -/
theorem co2_same_source_target_returns_path :
    Carbon.dijkstra (Carbon.build_complete_graph (fun _ _ => 10) 2) 0 0 =
      some ([0], 0) := by
  have h := Carbon.dijkstra_src_eq_dst (Carbon.build_complete_graph (fun _ _ => 10) 2) 0 (by decide)
  exact h

/-- C3 amended: only the distance / alt-route mode rejects a request whose
resolved source index equals the resolved target index (the C terminates
via die, modelled as the InvalidRequest error); the CO2 mode performs no
such check and its Dijkstra instead succeeds with the single-node path of
cost 0 for every in-range index. -/
theorem same_source_target_behaviour :
    (∀ (g : EcoRoute.Graph) (hv : Nat → Nat → ℚ) (s : Nat),
      EcoRoute.ecopath_route g hv s s =
        Except.error EcoRoute.RouteError.invalidRequest) ∧
    (∀ (g : Carbon.CGraph) (s : Nat), s < g.n →
      Carbon.dijkstra g s s = some ([s], 0)) := by
  constructor
  · intro g hv s
    simp [EcoRoute.ecopath_route]
  · intro g s hs
    exact Carbon.dijkstra_src_eq_dst g s hs

/-- Witness for C3 amended: both conjuncts evaluated at concrete inputs,
with the in-range hypothesis discharged. -/
theorem same_source_target_behaviour_witness :
    EcoRoute.ecopath_route ⟨2, []⟩ (fun _ _ => 1) 1 1 =
        Except.error EcoRoute.RouteError.invalidRequest ∧
    Carbon.dijkstra (Carbon.build_complete_graph (fun _ _ => 7) 3) 2 2 =
        some ([2], 0) :=
  ⟨same_source_target_behaviour.1 ⟨2, []⟩ (fun _ _ => 1) 1,
   same_source_target_behaviour.2 (Carbon.build_complete_graph (fun _ _ => 7) 3) 2 (by decide)⟩

/-! ## Claims C4, C5, C10: the dense CO2 graph pipeline -/

namespace Carbon

/-- The two-city example graph: complete graph with both distances 10 km
and a traffic factor of 2.0 installed on the undirected edge 0-1, matching
the worked example of the spec. -/
def exampleGraph2 : CGraph :=
  applyRow (build_complete_graph (fun _ _ => 10) 2) (0, 1, 2)

/-- Both node indices of a cache row lie inside the n×n matrix. -/
def rowInRange (n : Nat) (r : Int × Int × ℚ) : Bool :=
  decide (0 ≤ r.1) && decide (r.1 < (n : Int)) &&
  decide (0 ≤ r.2.1) && decide (r.2.1 < (n : Int))

/-- A cache row is in range and covers the unordered slot pair {i, j}. -/
def rowHits (n : Nat) (r : Int × Int × ℚ) (i j : Nat) : Bool :=
  rowInRange n r &&
    ((r.1.toNat == i && r.2.1.toNat == j) || (r.1.toNat == j && r.2.1.toNat == i))

theorem applyRow_n (g : CGraph) (r : Int × Int × ℚ) : (applyRow g r).n = g.n := by
  unfold applyRow
  split <;> rfl

theorem applyRow_fields (g : CGraph) (r : Int × Int × ℚ) (i j : Nat) :
    ((applyRow g r).edges i j).v = (g.edges i j).v ∧
    ((applyRow g r).edges i j).distance_km = (g.edges i j).distance_km ∧
    ((applyRow g r).edges i j).co2_cost = (g.edges i j).co2_cost := by
  unfold applyRow
  split
  · simp only
    split <;> simp
  · simp

theorem rowHits_true_iff (n : Nat) (r : Int × Int × ℚ) (i j : Nat) :
    rowHits n r i j = true ↔
      (0 ≤ r.1 ∧ r.1 < (n : Int) ∧ 0 ≤ r.2.1 ∧ r.2.1 < (n : Int)) ∧
      ((i = r.1.toNat ∧ j = r.2.1.toNat) ∨ (i = r.2.1.toNat ∧ j = r.1.toNat)) := by
  unfold rowHits rowInRange
  simp only [Bool.and_eq_true, Bool.or_eq_true, decide_eq_true_eq, beq_iff_eq]
  constructor
  · rintro ⟨⟨⟨⟨h1, h2⟩, h3⟩, h4⟩, (⟨h5, h6⟩ | ⟨h5, h6⟩)⟩
    · exact ⟨⟨h1, h2, h3, h4⟩, Or.inl ⟨h5.symm, h6.symm⟩⟩
    · exact ⟨⟨h1, h2, h3, h4⟩, Or.inr ⟨h6.symm, h5.symm⟩⟩
  · rintro ⟨⟨h1, h2, h3, h4⟩, (⟨h5, h6⟩ | ⟨h5, h6⟩)⟩
    · exact ⟨⟨⟨⟨h1, h2⟩, h3⟩, h4⟩, Or.inl ⟨h5.symm, h6.symm⟩⟩
    · exact ⟨⟨⟨⟨h1, h2⟩, h3⟩, h4⟩, Or.inr ⟨h6.symm, h5.symm⟩⟩

theorem applyRow_factor (g : CGraph) (r : Int × Int × ℚ) (i j : Nat) :
    ((applyRow g r).edges i j).traffic_factor =
      if rowHits g.n r i j then r.2.2 else (g.edges i j).traffic_factor := by
  by_cases hr : 0 ≤ r.1 ∧ r.1 < (g.n : Int) ∧ 0 ≤ r.2.1 ∧ r.2.1 < (g.n : Int)
  · unfold applyRow
    rw [if_pos hr]
    by_cases hij : (i = r.1.toNat ∧ j = r.2.1.toNat) ∨ (i = r.2.1.toNat ∧ j = r.1.toNat)
    · have hb : rowHits g.n r i j = true := (rowHits_true_iff g.n r i j).mpr ⟨hr, hij⟩
      rw [if_pos hb]
      show (if (i = r.1.toNat ∧ j = r.2.1.toNat) ∨ (i = r.2.1.toNat ∧ j = r.1.toNat)
            then { g.edges i j with traffic_factor := r.2.2 }
            else g.edges i j).traffic_factor = r.2.2
      rw [if_pos hij]
    · have hb : rowHits g.n r i j = false := by
        rw [Bool.eq_false_iff]
        exact fun hc => hij ((rowHits_true_iff g.n r i j).mp hc).2
      rw [hb, if_neg Bool.false_ne_true]
      show (if (i = r.1.toNat ∧ j = r.2.1.toNat) ∨ (i = r.2.1.toNat ∧ j = r.1.toNat)
            then { g.edges i j with traffic_factor := r.2.2 }
            else g.edges i j).traffic_factor = (g.edges i j).traffic_factor
      rw [if_neg hij]
  · unfold applyRow
    rw [if_neg hr]
    have hb : rowHits g.n r i j = false := by
      rw [Bool.eq_false_iff]
      exact fun hc => hr ((rowHits_true_iff g.n r i j).mp hc).1
    rw [hb, if_neg Bool.false_ne_true]

theorem applyRow_out_of_range (g : CGraph) (r : Int × Int × ℚ)
    (h : rowInRange g.n r = false) : applyRow g r = g := by
  unfold applyRow
  rw [if_neg]
  intro hc
  have : rowInRange g.n r = true := by
    unfold rowInRange
    simp [hc.1, hc.2.1, hc.2.2.1, hc.2.2.2]
  rw [h] at this
  exact Bool.false_ne_true this

theorem foldl_applyRow_n (rows : List (Int × Int × ℚ)) :
    ∀ g : CGraph, (rows.foldl applyRow g).n = g.n := by
  induction rows with
  | nil => intro g; rfl
  | cons r rest ih => intro g; rw [List.foldl_cons, ih, applyRow_n]

theorem foldl_applyRow_fields (rows : List (Int × Int × ℚ)) :
    ∀ (g : CGraph) (i j : Nat),
      (((rows.foldl applyRow g).edges i j).v = ((g.edges i j).v) ∧
       ((rows.foldl applyRow g).edges i j).distance_km = (g.edges i j).distance_km ∧
       ((rows.foldl applyRow g).edges i j).co2_cost = (g.edges i j).co2_cost) := by
  induction rows with
  | nil => intro g i j; exact ⟨rfl, rfl, rfl⟩
  | cons r rest ih =>
    intro g i j
    rw [List.foldl_cons]
    obtain ⟨h1, h2, h3⟩ := ih (applyRow g r) i j
    obtain ⟨h4, h5, h6⟩ := applyRow_fields g r i j
    exact ⟨h1.trans h4, h2.trans h5, h3.trans h6⟩

theorem foldl_applyRow_factor (rows : List (Int × Int × ℚ)) :
    ∀ (g : CGraph) (i j : Nat),
      ((rows.foldl applyRow g).edges i j).traffic_factor =
        (match rows.reverse.find? (fun r => rowHits g.n r i j) with
         | some r => r.2.2
         | none => (g.edges i j).traffic_factor) := by
  induction rows with
  | nil => intro g i j; rfl
  | cons r rest ih =>
    intro g i j
    rw [List.foldl_cons, List.reverse_cons, List.find?_append]
    have hn : (applyRow g r).n = g.n := applyRow_n g r
    have := ih (applyRow g r) i j
    rw [hn] at this
    rw [this]
    cases hfind : rest.reverse.find? (fun x => rowHits g.n x i j) with
    | some x => simp [Option.or]
    | none =>
      simp only [Option.or, applyRow_factor]
      by_cases hh : rowHits g.n r i j
      · simp [hh, List.find?]
      · simp only [Bool.not_eq_true] at hh
        simp [List.find?, hh]

end Carbon

/-- C10 counterexample: when the cache content has no parsable leading
timestamp, load_traffic_cache returns failure without resetting anything:
on a graph holding a traffic factor of 2.0 the factor stays 2.0, not 1.0,
refuting the unconditional reset-then-apply reading for every content. -/
theorem cache_load_no_timestamp_no_reset :
    Carbon.load_traffic_cache Carbon.exampleGraph2 none [] =
      (false, Carbon.exampleGraph2) ∧
    ((Carbon.load_traffic_cache Carbon.exampleGraph2 none []).2.edges 0 1).traffic_factor = 2 ∧
    (2 : ℚ) ≠ 1 :=
  ⟨rfl, by decide, by decide⟩

/-- C10 amended: only when the leading timestamp parses does
load_traffic_cache reset all in-matrix traffic factors to 1.0 and apply the
parsed rows; a missing or unparsable timestamp returns 0 and leaves the
graph untouched.  When it runs: every in-matrix factor equals the value of
the last in-range row covering the unordered slot pair (1.0 when no row
does); out-of-range rows are silently ignored; no field other than
traffic_factor and no slot outside the n×n matrix is modified. -/
theorem cache_load_characterisation :
    (∀ (g : Carbon.CGraph) (rows : List (Int × Int × ℚ)),
      Carbon.load_traffic_cache g none rows = (false, g)) ∧
    (∀ (g : Carbon.CGraph) (ts : Int) (rows : List (Int × Int × ℚ)),
      (Carbon.load_traffic_cache g (some ts) rows).1 = true) ∧
    (∀ (g : Carbon.CGraph) (ts : Int) (rows : List (Int × Int × ℚ)) (i j : Nat),
      (((Carbon.load_traffic_cache g (some ts) rows).2.edges i j).v = (g.edges i j).v ∧
       ((Carbon.load_traffic_cache g (some ts) rows).2.edges i j).distance_km =
         (g.edges i j).distance_km ∧
       ((Carbon.load_traffic_cache g (some ts) rows).2.edges i j).co2_cost =
         (g.edges i j).co2_cost)) ∧
    (∀ (g : Carbon.CGraph) (ts : Int) (rows : List (Int × Int × ℚ)) (i j : Nat),
      ¬(i < g.n ∧ j < g.n) →
      (Carbon.load_traffic_cache g (some ts) rows).2.edges i j = g.edges i j) ∧
    (∀ (g : Carbon.CGraph) (ts : Int) (rows : List (Int × Int × ℚ)),
      Carbon.load_traffic_cache g (some ts) rows =
        Carbon.load_traffic_cache g (some ts) (rows.filter (Carbon.rowInRange g.n))) ∧
    (∀ (g : Carbon.CGraph) (ts : Int) (rows : List (Int × Int × ℚ)) (i j : Nat),
      i < g.n → j < g.n →
      ((Carbon.load_traffic_cache g (some ts) rows).2.edges i j).traffic_factor =
        (match rows.reverse.find? (fun r => Carbon.rowHits g.n r i j) with
         | some r => r.2.2
         | none => 1)) := by
  have hreset_n : ∀ g : Carbon.CGraph, (Carbon.resetFactors g).n = g.n := fun g => rfl
  refine ⟨fun g rows => rfl, fun g ts rows => rfl, ?_, ?_, ?_, ?_⟩
  · intro g ts rows i j
    show (((rows.foldl Carbon.applyRow (Carbon.resetFactors g)).edges i j).v = _ ∧ _ ∧ _)
    obtain ⟨h1, h2, h3⟩ := Carbon.foldl_applyRow_fields rows (Carbon.resetFactors g) i j
    have hr : ∀ i j : Nat,
        ((Carbon.resetFactors g).edges i j).v = (g.edges i j).v ∧
        ((Carbon.resetFactors g).edges i j).distance_km = (g.edges i j).distance_km ∧
        ((Carbon.resetFactors g).edges i j).co2_cost = (g.edges i j).co2_cost := by
      intro i j
      unfold Carbon.resetFactors
      simp only
      split <;> simp
    exact ⟨h1.trans (hr i j).1, h2.trans (hr i j).2.1, h3.trans (hr i j).2.2⟩
  · intro g ts rows i j hij
    show (rows.foldl Carbon.applyRow (Carbon.resetFactors g)).edges i j = g.edges i j
    have hfields := Carbon.foldl_applyRow_fields rows (Carbon.resetFactors g) i j
    have hfac := Carbon.foldl_applyRow_factor rows (Carbon.resetFactors g) i j
    rw [hreset_n] at hfac
    have hfind : rows.reverse.find? (fun r => Carbon.rowHits g.n r i j) = none := by
      rw [List.find?_eq_none]
      intro r _ hr
      unfold Carbon.rowHits Carbon.rowInRange at hr
      simp only [Bool.and_eq_true, Bool.or_eq_true, decide_eq_true_eq, beq_iff_eq] at hr
      obtain ⟨⟨⟨⟨ha0, hu⟩, hc0⟩, hw⟩, habs⟩ := hr
      rcases habs with ⟨ha, hb⟩ | ⟨ha, hb⟩ <;> apply hij
      · exact ⟨by omega, by omega⟩
      · exact ⟨by omega, by omega⟩
    rw [hfind] at hfac
    have hrfac : ((Carbon.resetFactors g).edges i j).traffic_factor =
        (g.edges i j).traffic_factor := by
      unfold Carbon.resetFactors
      simp only
      rw [if_neg hij]
    have hre : (Carbon.resetFactors g).edges i j = g.edges i j := by
      unfold Carbon.resetFactors
      simp only
      rw [if_neg hij]
    obtain ⟨h1, h2, h3⟩ := hfields
    apply Carbon.CEdge.ext
    · exact h1.trans (congrArg Carbon.CEdge.v hre)
    · exact h2.trans (congrArg Carbon.CEdge.distance_km hre)
    · exact hfac.trans hrfac
    · exact h3.trans (congrArg Carbon.CEdge.co2_cost hre)
  · intro g ts rows
    show (true, rows.foldl Carbon.applyRow (Carbon.resetFactors g)) =
      (true, (rows.filter (Carbon.rowInRange g.n)).foldl Carbon.applyRow (Carbon.resetFactors g))
    have key : ∀ (rows : List (Int × Int × ℚ)) (g0 : Carbon.CGraph), g0.n = g.n →
        rows.foldl Carbon.applyRow g0 =
          (rows.filter (Carbon.rowInRange g.n)).foldl Carbon.applyRow g0 := by
      intro rows
      induction rows with
      | nil => intro g0 _; rfl
      | cons r rest ih =>
        intro g0 hg0
        rw [List.foldl_cons, List.filter_cons]
        by_cases hr : Carbon.rowInRange g.n r = true
        · rw [if_pos hr, List.foldl_cons]
          exact ih (Carbon.applyRow g0 r) ((Carbon.applyRow_n g0 r).trans hg0)
        · rw [if_neg hr]
          have : Carbon.applyRow g0 r = g0 := by
            apply Carbon.applyRow_out_of_range
            rw [hg0]
            exact Bool.not_eq_true _ ▸ (by simpa using hr)
          rw [this]
          exact ih g0 hg0
    rw [key rows (Carbon.resetFactors g) (hreset_n g)]
  · intro g ts rows i j hi hj
    show ((rows.foldl Carbon.applyRow (Carbon.resetFactors g)).edges i j).traffic_factor = _
    have hfac := Carbon.foldl_applyRow_factor rows (Carbon.resetFactors g) i j
    rw [hreset_n] at hfac
    rw [hfac]
    cases hfind : rows.reverse.find? (fun r => Carbon.rowHits g.n r i j) with
    | some x => rfl
    | none =>
      show ((Carbon.resetFactors g).edges i j).traffic_factor = 1
      unfold Carbon.resetFactors
      simp only
      rw [if_pos ⟨hi, hj⟩]

/-- Witness for C10 amended: the characterisation applied at a concrete
graph, timestamp and row list, discharging the in-range hypotheses: an
in-range row overrides the reset value and an out-of-range row is dropped. -/
theorem cache_load_characterisation_witness :
    ((Carbon.load_traffic_cache (Carbon.build_complete_graph (fun _ _ => 10) 2) (some 5)
        [(0, 1, 3), (7, 1, 9)]).2.edges 1 0).traffic_factor =
      (match [(0, 1, 3), (7, 1, 9)].reverse.find?
          (fun r => Carbon.rowHits 2 r 1 0) with
       | some r => r.2.2
       | none => 1) ∧
    ¬((2 : Nat) < 2 ∧ (0 : Nat) < 2) ∧
    (Carbon.load_traffic_cache (Carbon.build_complete_graph (fun _ _ => 10) 2) (some 5)
        [(0, 1, 3), (7, 1, 9)]).2.edges 2 0 =
      (Carbon.build_complete_graph (fun _ _ => 10) 2).edges 2 0 :=
  ⟨cache_load_characterisation.2.2.2.2.2
      (Carbon.build_complete_graph (fun _ _ => 10) 2) 5 [(0, 1, 3), (7, 1, 9)] 1 0
      (by decide) (by decide),
   by decide,
   cache_load_characterisation.2.2.2.1
      (Carbon.build_complete_graph (fun _ _ => 10) 2) 5 [(0, 1, 3), (7, 1, 9)] 2 0
      (by decide)⟩



/-! ## Claim C4: CO2 edge-cost formula and profile lookup -/

/-- The example slot 0-1 of the example graph: valid neighbour, 10 km,
traffic factor 2.0. -/
theorem exampleGraph2_edge01 : Carbon.exampleGraph2.edges 0 1 = ⟨1, 10, 2, 0⟩ := by
  simp [Carbon.exampleGraph2, Carbon.applyRow, Carbon.build_complete_graph]

/-- C4 counterexample: a blank vehicle profile is replaced by the name
"Default" and looked up in the profile table, so with a cars.txt row
"Default,150" the factor used is 150, not the documented 120 — on the
example edge (10 km, multiplier 2.0) the cost becomes 3000, not
10 * 2 * 120 = 2400. -/
theorem blank_profile_uses_default_row :
    Carbon.lookup_car_co2 [("Default", 150)] "" = 150 ∧
    (150 : ℚ) ≠ 120 ∧
    ((Carbon.apply_co2_weights Carbon.exampleGraph2
        (Carbon.lookup_car_co2 [("Default", 150)] "")).edges 0 1).co2_cost = 3000 ∧
    (3000 : ℚ) ≠ 10 * 2 * 120 := by
  have hlook : Carbon.lookup_car_co2 [("Default", 150)] "" = 150 := by
    simp [Carbon.lookup_car_co2, List.find?]
  refine ⟨hlook, by norm_num, ?_, by norm_num⟩
  rw [hlook]
  have he : Carbon.exampleGraph2.edges 0 1 = ⟨1, 10, 2, 0⟩ := by
    simp [Carbon.exampleGraph2, Carbon.applyRow, Carbon.build_complete_graph]
  have hn : Carbon.exampleGraph2.n = 2 := rfl
  simp [Carbon.apply_co2_weights, hn, he]
  norm_num

/-- C4 amended: after apply_co2_weights every matrix slot with a valid
neighbour carries co2_cost = distance_km * traffic_factor * car_co2, and
in the complete graph every off-diagonal in-range slot is such a slot with
distance distf i j; the factor is looked up by (case-insensitive) profile
name with 120 g/km used when the (blank-substituted) name is absent from
the table — a blank profile is first replaced by the name "Default", so it
yields 120 only when the table has no Default row. -/
theorem co2_edge_cost_formula :
    (∀ (g : Carbon.CGraph) (c : ℚ) (i j : Nat), i < g.n → j < g.n →
      0 ≤ (g.edges i j).v →
      ((Carbon.apply_co2_weights g c).edges i j).co2_cost =
        (g.edges i j).distance_km * (g.edges i j).traffic_factor * c) ∧
    (∀ (distf : Nat → Nat → ℚ) (n i j : Nat), i < n → j < n → i ≠ j →
      ((Carbon.build_complete_graph distf n).edges i j).v = (j : Int) ∧
      ((Carbon.build_complete_graph distf n).edges i j).distance_km = distf i j) ∧
    (∀ (table : List (String × ℚ)) (input : String),
      table.find?
          (fun e => e.1.toLower == (if input = "" then "Default" else input).toLower) = none →
      Carbon.lookup_car_co2 table input = 120) ∧
    (∀ table : List (String × ℚ),
      Carbon.lookup_car_co2 table "" = Carbon.lookup_car_co2 table "Default") := by
  refine ⟨?_, ?_, ?_, fun table => rfl⟩
  · intro g c i j hi hj hv
    show (if i < g.n ∧ j < g.n then
            if 0 ≤ (g.edges i j).v then
              { g.edges i j with
                co2_cost := (g.edges i j).distance_km * (g.edges i j).traffic_factor * c }
            else { g.edges i j with co2_cost := 0 }
          else g.edges i j).co2_cost =
        (g.edges i j).distance_km * (g.edges i j).traffic_factor * c
    rw [if_pos ⟨hi, hj⟩, if_pos hv]
  · intro distf n i j hi hj hne
    constructor
    · show (if i < n ∧ j < n then
              if i = j then (⟨-1, 0, 1, 0⟩ : Carbon.CEdge)
              else ⟨(j : Int), distf i j, 1, 0⟩
            else ⟨-1, 0, 0, 0⟩).v = (j : Int)
      rw [if_pos ⟨hi, hj⟩, if_neg hne]
    · show (if i < n ∧ j < n then
              if i = j then (⟨-1, 0, 1, 0⟩ : Carbon.CEdge)
              else ⟨(j : Int), distf i j, 1, 0⟩
            else ⟨-1, 0, 0, 0⟩).distance_km = distf i j
      rw [if_pos ⟨hi, hj⟩, if_neg hne]
  · intro table input hfind
    show (match table.find?
            (fun e => e.1.toLower == (if input = "" then "Default" else input).toLower) with
          | some e => e.2
          | none => Carbon.DEFAULT_CO2_GKM) = (120 : ℚ)
    rw [hfind]
    rfl

/-- Witness for C4 amended: the formula applied at the example graph
(10 km, multiplier 2.0) with factor 120 reproduces the documented
2400 g edge cost, and an unknown profile against an empty table gets 120. -/
theorem co2_edge_cost_formula_witness :
    ((Carbon.apply_co2_weights Carbon.exampleGraph2 120).edges 0 1).co2_cost =
      10 * 2 * 120 ∧
    Carbon.lookup_car_co2 [] "Petrol" = 120 := by
  constructor
  · have h := co2_edge_cost_formula.1 Carbon.exampleGraph2 120 0 1
      (by decide) (by decide) (by rw [exampleGraph2_edge01]; decide)
    rw [h, exampleGraph2_edge01]
  · exact co2_edge_cost_formula.2.2.1 [] "Petrol" rfl

/-! ## Claim C5: estimated travel times -/

/-- C5 counterexample: on the example edge (10 km, traffic factor 2.0) the
CO2-mode car time is 24 minutes, not (10/50)*60 = 12 — the car speed is
derived from the traffic factor, contradicting the fixed-speed claim. -/
theorem co2_car_time_uses_traffic_factor :
    Carbon.seg_times Carbon.exampleGraph2 [0, 1] = (24, 40, 120) ∧
    (24 : ℚ) ≠ 10 / 50 * 60 := by
  constructor
  · have he : Carbon.exampleGraph2.edges 0 1 = ⟨1, 10, 2, 0⟩ := by
      simp [Carbon.exampleGraph2, Carbon.applyRow, Carbon.build_complete_graph]
    simp [Carbon.seg_times, Carbon.seg_step, he, Carbon.CAR_FREEFLOW_KMPH,
      Carbon.BIKE_KMPH, Carbon.WALK_KMPH]
    norm_num
  · norm_num

/-- Left folds whose step adds a per-element triple to the accumulator can
be shifted out of the initial value. -/
theorem foldl_triple_shift {α : Type} (f : ℚ × ℚ × ℚ → α → ℚ × ℚ × ℚ)
    (hf : ∀ a e, f a e = a + f (0, 0, 0) e) :
    ∀ (l : List α) (a : ℚ × ℚ × ℚ), l.foldl f a = a + l.foldl f (0, 0, 0) := by
  intro l
  induction l with
  | nil =>
    intro a
    show a = a + ((0 : ℚ), (0 : ℚ), (0 : ℚ))
    rw [show ((0 : ℚ), (0 : ℚ), (0 : ℚ)) = (0 : ℚ × ℚ × ℚ) from rfl, add_zero]
  | cons e es ih =>
    intro a
    rw [List.foldl_cons, List.foldl_cons, ih (f a e), ih (f (0, 0, 0) e), hf a e, add_assoc]

/-- One CO2 segment adds its own contribution to the accumulator. -/
theorem seg_step_add (g : Carbon.CGraph) :
    ∀ (a : ℚ × ℚ × ℚ) (uv : Nat × Nat),
      Carbon.seg_step g a uv = a + Carbon.seg_step g (0, 0, 0) uv := by
  intro a uv
  unfold Carbon.seg_step
  rw [Prod.ext_iff, Prod.ext_iff]
  refine ⟨?_, ?_, ?_⟩ <;>
    · simp only [Prod.fst_add, Prod.snd_add]
      rw [zero_add]

/-- C5 amended: in the distance/alt-route mode all three times are
(distance / fixed-speed) * 60 with the constants 40/15/5; in CO2 mode bike
and walk use the fixed 15 and 5 km/h, but the car time of each segment
uses the speed 50/traffic_factor clamped below at 5 km/h, i.e.
(d * factor / 50) * 60 while the factor is at most 10 and (d / 5) * 60
beyond; segment times accumulate additively along the path. -/
theorem time_estimation_formulas :
    (∀ d : ℚ,
      EcoRoute.compute_time_min d EcoRoute.CAR_KMH = d / 40 * 60 ∧
      EcoRoute.compute_time_min d EcoRoute.BIKE_KMH = d / 15 * 60 ∧
      EcoRoute.compute_time_min d EcoRoute.WALK_KMH = d / 5 * 60) ∧
    (∀ (g : Carbon.CGraph) (u v : Nat),
      0 < (g.edges u v).traffic_factor → (g.edges u v).traffic_factor ≤ 10 →
      Carbon.seg_times g [u, v] =
        ((g.edges u v).distance_km * (g.edges u v).traffic_factor / 50 * 60,
         (g.edges u v).distance_km / 15 * 60,
         (g.edges u v).distance_km / 5 * 60)) ∧
    (∀ (g : Carbon.CGraph) (u v : Nat),
      10 < (g.edges u v).traffic_factor →
      Carbon.seg_times g [u, v] =
        ((g.edges u v).distance_km / 5 * 60,
         (g.edges u v).distance_km / 15 * 60,
         (g.edges u v).distance_km / 5 * 60)) ∧
    (∀ (g : Carbon.CGraph) (u v : Nat) (rest : List Nat),
      Carbon.seg_times g (u :: v :: rest) =
        Carbon.seg_times g [u, v] + Carbon.seg_times g (v :: rest)) := by
  have hsingle : ∀ (g : Carbon.CGraph) (u v : Nat),
      Carbon.seg_times g [u, v] =
        ((g.edges u v).distance_km /
            (if Carbon.CAR_FREEFLOW_KMPH / (g.edges u v).traffic_factor < 5 then 5
             else Carbon.CAR_FREEFLOW_KMPH / (g.edges u v).traffic_factor) * 60,
         (g.edges u v).distance_km / Carbon.BIKE_KMPH * 60,
         (g.edges u v).distance_km / Carbon.WALK_KMPH * 60) := by
    intro g u v
    show ((0 : ℚ) + (g.edges u v).distance_km /
            (if Carbon.CAR_FREEFLOW_KMPH / (g.edges u v).traffic_factor < 5 then 5
             else Carbon.CAR_FREEFLOW_KMPH / (g.edges u v).traffic_factor) * 60,
          (0 : ℚ) + (g.edges u v).distance_km / Carbon.BIKE_KMPH * 60,
          (0 : ℚ) + (g.edges u v).distance_km / Carbon.WALK_KMPH * 60) = _
    rw [zero_add, zero_add, zero_add]
  refine ⟨?_, ?_, ?_, ?_⟩
  · intro d
    refine ⟨?_, ?_, ?_⟩
    · show (if (40 : ℚ) ≤ 0 then 0 else d / 40 * 60) = d / 40 * 60
      rw [if_neg (by norm_num)]
    · show (if (15 : ℚ) ≤ 0 then 0 else d / 15 * 60) = d / 15 * 60
      rw [if_neg (by norm_num)]
    · show (if (5 : ℚ) ≤ 0 then 0 else d / 5 * 60) = d / 5 * 60
      rw [if_neg (by norm_num)]
  · intro g u v hpos hle
    rw [hsingle]
    have hno : ¬ Carbon.CAR_FREEFLOW_KMPH / (g.edges u v).traffic_factor < 5 := by
      show ¬ (50 : ℚ) / (g.edges u v).traffic_factor < 5
      rw [not_lt, le_div_iff hpos]
      linarith
    rw [if_neg hno]
    have hval : (g.edges u v).distance_km /
        (Carbon.CAR_FREEFLOW_KMPH / (g.edges u v).traffic_factor) =
        (g.edges u v).distance_km * (g.edges u v).traffic_factor / 50 := by
      show (g.edges u v).distance_km / ((50 : ℚ) / (g.edges u v).traffic_factor) = _
      rw [div_div_eq_mul_div]
    rw [hval]
    rfl
  · intro g u v hgt
    rw [hsingle]
    have hpos : (0 : ℚ) < (g.edges u v).traffic_factor := by linarith
    have hyes : Carbon.CAR_FREEFLOW_KMPH / (g.edges u v).traffic_factor < 5 := by
      show (50 : ℚ) / (g.edges u v).traffic_factor < 5
      rw [div_lt_iff hpos]
      linarith
    rw [if_pos hyes]
    rfl
  · intro g u v rest
    show (List.zip (u :: v :: rest) (v :: rest)).foldl (Carbon.seg_step g) (0, 0, 0) =
      Carbon.seg_times g [u, v] +
        (List.zip (v :: rest) rest).foldl (Carbon.seg_step g) (0, 0, 0)
    rw [List.zip_cons_cons, List.foldl_cons,
      foldl_triple_shift (Carbon.seg_step g) (seg_step_add g) _ (Carbon.seg_step g (0, 0, 0) (u, v))]
    congr 1

/-- Witness for C5 amended: the formulas applied at the example graph,
discharging the positivity and clamp hypotheses at factor 2.0. -/
theorem time_estimation_formulas_witness :
    Carbon.seg_times Carbon.exampleGraph2 [0, 1] =
      ((Carbon.exampleGraph2.edges 0 1).distance_km *
          (Carbon.exampleGraph2.edges 0 1).traffic_factor / 50 * 60,
       (Carbon.exampleGraph2.edges 0 1).distance_km / 15 * 60,
       (Carbon.exampleGraph2.edges 0 1).distance_km / 5 * 60) :=
  time_estimation_formulas.2.1 Carbon.exampleGraph2 0 1
    (by rw [exampleGraph2_edge01]; norm_num)
    (by rw [exampleGraph2_edge01]; norm_num)

/-! ## Claim C8: excluding an edge never mutates the graph -/

namespace EcoRoute

/-- The dijkstra_skip_edge call as the C makes it: read the graph and the
skip_u/skip_v globals, return the distance/parent tables and the (textually
unmodified — the function body contains no store to head/to/nxt/w/E or to
skip_u/skip_v) global state. -/
def dijkstra_skip_edge_run (gs : GlobState) (s t : Nat) : DState × GlobState :=
  (dijkstra_skip_edge gs.graph
      (if 0 ≤ gs.skip_u ∧ 0 ≤ gs.skip_v then some (gs.skip_u.toNat, gs.skip_v.toNat) else none)
      s t,
   gs)

theorem yenAccumSt_graph (hv : Nat → Nat → ℚ) (t : Nat) (best : List Nat)
    (acc : List Path × GlobState) (i : Nat) :
    (yenAccumSt hv t best acc i).2.graph = acc.2.graph := by
  unfold yenAccumSt yenAccum
  cases spurCandidate acc.2.graph hv t best i with
  | none => rfl
  | some cand => by_cases h : (acc.1.any (fun p => equal_paths p cand)) = false ∧ acc.1.length < 64 <;> simp [h]

theorem yenFold_graph (hv : Nat → Nat → ℚ) (t : Nat) (best : List Nat) :
    ∀ (l : List Nat) (init : List Path × GlobState),
      (l.foldl (yenAccumSt hv t best) init).2.graph = init.2.graph := by
  intro l
  induction l with
  | nil => intro init; rfl
  | cons i rest ih =>
    intro init
    rw [List.foldl_cons, ih, yenAccumSt_graph]

end EcoRoute

/-- C8 (confirmed): the exclude-one-edge Dijkstra variant returns the
graph state unchanged; and after yen_k2_paths returns (entered with the
cleared exclusion state it is always entered with) the graph arrays are
identical — same record count, same adjacency traversal for every node —
the exclusion state is reset to minus one in both fields, and a subsequent unrelated
shortest-path query on the returned state behaves exactly as before the
call. -/
theorem exclusion_request_scoped (gs : EcoRoute.GlobState) (hv : Nat → Nat → ℚ)
    (s t s2 t2 : Nat) (hu : gs.skip_u = -1) (hw : gs.skip_v = -1) :
    (∀ a b : Nat, (EcoRoute.dijkstra_skip_edge_run gs a b).2 = gs) ∧
    (EcoRoute.yen_k2_run gs hv s t).2.graph = gs.graph ∧
    (EcoRoute.yen_k2_run gs hv s t).2.skip_u = -1 ∧
    (EcoRoute.yen_k2_run gs hv s t).2.skip_v = -1 ∧
    (EcoRoute.yen_k2_run gs hv s t).2.graph.recs.length = gs.graph.recs.length ∧
    (∀ u : Nat, EcoRoute.adjOf (EcoRoute.yen_k2_run gs hv s t).2.graph u =
      EcoRoute.adjOf gs.graph u) ∧
    EcoRoute.ecodijkstra (EcoRoute.yen_k2_run gs hv s t).2.graph s2 t2 =
      EcoRoute.ecodijkstra gs.graph s2 t2 := by
  have hgraph : (EcoRoute.yen_k2_run gs hv s t).2.graph = gs.graph := by
    unfold EcoRoute.yen_k2_run
    cases hd : (EcoRoute.ecodijkstra gs.graph s t).dist t with
    | none => simp only [hd]
    | some best =>
      simp only [hd]
      have hfold := EcoRoute.yenFold_graph hv t
        ((EcoRoute.chainAux (EcoRoute.ecodijkstra gs.graph s t).parent gs.graph.V t).reverse)
      split <;> · show (EcoRoute.GlobState.mk _ _ _).graph = gs.graph
                  rw [hfold]
  have hskip : (EcoRoute.yen_k2_run gs hv s t).2.skip_u = -1 ∧
      (EcoRoute.yen_k2_run gs hv s t).2.skip_v = -1 := by
    unfold EcoRoute.yen_k2_run
    cases hd : (EcoRoute.ecodijkstra gs.graph s t).dist t with
    | none => simp only [hd]; exact ⟨hu, hw⟩
    | some best =>
      simp only [hd]
      refine ⟨?_, ?_⟩ <;> · split <;> rfl
  refine ⟨fun a b => rfl, hgraph, hskip.1, hskip.2, by rw [hgraph], fun u => by rw [hgraph],
    by rw [hgraph]⟩

/-- Witness for C8: the theorem applied at a concrete two-node state with
the cleared exclusion fields. -/
theorem exclusion_request_scoped_witness :
    (EcoRoute.yen_k2_run
        ⟨EcoRoute.add_edge ⟨2, []⟩ 0 1 3, -1, -1⟩ (fun _ _ => 3) 0 1).2.graph =
      EcoRoute.add_edge ⟨2, []⟩ 0 1 3 ∧
    (EcoRoute.yen_k2_run
        ⟨EcoRoute.add_edge ⟨2, []⟩ 0 1 3, -1, -1⟩ (fun _ _ => 3) 0 1).2.skip_u = -1 :=
  ⟨(exclusion_request_scoped ⟨EcoRoute.add_edge ⟨2, []⟩ 0 1 3, -1, -1⟩
      (fun _ _ => 3) 0 1 0 1 rfl rfl).2.1,
   (exclusion_request_scoped ⟨EcoRoute.add_edge ⟨2, []⟩ 0 1 3, -1, -1⟩
      (fun _ _ => 3) 0 1 0 1 rfl rfl).2.2.1⟩
namespace Carbon

/-- The scanned maximum only grows along the bestInterior fold. -/
theorem bestInterior_fold_mono (pts : List Pt) (i j : Nat) (l : List Nat) :
    ∀ acc : ℚ × Option Nat,
      acc.1 ≤ (l.foldl
        (fun acc k =>
          let d2 := seg_point_dist2 (pts.getD i ⟨0, 0⟩) (pts.getD j ⟨0, 0⟩) (pts.getD k ⟨0, 0⟩)
          if d2 > acc.1 then (d2, some k) else acc)
        acc).1 := by
  induction l with
  | nil => intro acc; exact le_refl _
  | cons a as ih =>
    intro acc
    rw [List.foldl_cons]
    refine le_trans ?_ (ih _)
    by_cases hc : seg_point_dist2 (pts.getD i ⟨0, 0⟩) (pts.getD j ⟨0, 0⟩) (pts.getD a ⟨0, 0⟩) > acc.1
    · simp only [hc, if_pos]
      exact le_of_lt hc
    · simp only [hc, if_neg, if_false]
      exact le_refl _

/-- The scanned maximum dominates every scanned squared distance. -/
theorem bestInterior_fold_ge (pts : List Pt) (i j : Nat) (l : List Nat) :
    ∀ (acc : ℚ × Option Nat) (m : Nat), m ∈ l →
      seg_point_dist2 (pts.getD i ⟨0, 0⟩) (pts.getD j ⟨0, 0⟩) (pts.getD m ⟨0, 0⟩) ≤
      (l.foldl
        (fun acc k =>
          let d2 := seg_point_dist2 (pts.getD i ⟨0, 0⟩) (pts.getD j ⟨0, 0⟩) (pts.getD k ⟨0, 0⟩)
          if d2 > acc.1 then (d2, some k) else acc)
        acc).1 := by
  induction l with
  | nil => intro acc m hm; cases hm
  | cons a as ih =>
    intro acc m hm
    rw [List.foldl_cons]
    rcases List.mem_cons.mp hm with hma | hma
    · subst hma
      refine le_trans ?_ (bestInterior_fold_mono pts i j as _)
      by_cases hc : seg_point_dist2 (pts.getD i ⟨0, 0⟩) (pts.getD j ⟨0, 0⟩) (pts.getD m ⟨0, 0⟩) > acc.1
      · simp only [hc, if_pos]
        exact le_refl _
      · simp only [hc, if_neg, if_false]
        exact le_of_not_lt hc
    · exact ih _ m hma

theorem bestInterior_ge (pts : List Pt) (i j m : Nat) (him : i < m) (hmj : m < j) :
    seg_point_dist2 (pts.getD i ⟨0, 0⟩) (pts.getD j ⟨0, 0⟩) (pts.getD m ⟨0, 0⟩) ≤
      (bestInterior pts i j).1 := by
  apply bestInterior_fold_ge
  rw [List.mem_range'_1]
  omega

/-- A fold result with no recorded index still carries the initial -1. -/
theorem bestInterior_fold_none (pts : List Pt) (i j : Nat) (l : List Nat) :
    ∀ acc : ℚ × Option Nat, (acc.2 = none → acc.1 = -1) →
      ((l.foldl
        (fun acc k =>
          let d2 := seg_point_dist2 (pts.getD i ⟨0, 0⟩) (pts.getD j ⟨0, 0⟩) (pts.getD k ⟨0, 0⟩)
          if d2 > acc.1 then (d2, some k) else acc)
        acc).2 = none →
      (l.foldl
        (fun acc k =>
          let d2 := seg_point_dist2 (pts.getD i ⟨0, 0⟩) (pts.getD j ⟨0, 0⟩) (pts.getD k ⟨0, 0⟩)
          if d2 > acc.1 then (d2, some k) else acc)
        acc).1 = -1) := by
  induction l with
  | nil => intro acc h; exact h
  | cons a as ih =>
    intro acc h
    rw [List.foldl_cons]
    apply ih
    by_cases hc : seg_point_dist2 (pts.getD i ⟨0, 0⟩) (pts.getD j ⟨0, 0⟩) (pts.getD a ⟨0, 0⟩) > acc.1
    · simp only [hc, if_pos]
      intro habs
      cases habs
    · simp only [hc, if_neg, if_false]
      exact h

theorem bestInterior_pos_some (pts : List Pt) (i j : Nat)
    (h : 0 < (bestInterior pts i j).1) : ∃ k, (bestInterior pts i j).2 = some k := by
  cases hk : (bestInterior pts i j).2 with
  | some k => exact ⟨k, rfl⟩
  | none =>
    exfalso
    have hfold := bestInterior_fold_none pts i j (List.range' (i + 1) (j - i - 1)) (-1, none)
      (fun _ => rfl)
    unfold bestInterior at h hk
    rw [hfold hk] at h
    norm_num at h

/-- With tolerance 0, a span all of whose interior points are strictly off
every chord keeps every interior index. -/
theorem rdpSpan_keeps_all (pts : List Pt)
    (hgen : ∀ i k j : Nat, i < k → k < j → j < pts.length →
      0 < seg_point_dist2 (pts.getD i ⟨0, 0⟩) (pts.getD j ⟨0, 0⟩) (pts.getD k ⟨0, 0⟩)) :
    ∀ (fuel i j : Nat), j - i < fuel → j < pts.length →
      ∀ m, i < m → m < j → m ∈ rdpSpan pts 0 fuel i j := by
  intro fuel
  induction fuel with
  | zero => intro i j hf; omega
  | succ fuel ih =>
    intro i j hf hj m him hmj
    have hpos : 0 < (bestInterior pts i j).1 :=
      lt_of_lt_of_le (hgen i m j him hmj hj) (bestInterior_ge pts i j m him hmj)
    obtain ⟨k, hk⟩ := bestInterior_pos_some pts i j hpos
    obtain ⟨hik, hkj⟩ := bestInterior_some_range pts i j k hk
    have hcond : (bestInterior pts i j).1 > (0 : ℚ) * 0 := by
      rw [mul_zero]
      exact hpos
    show m ∈ rdpSpan pts 0 (fuel + 1) i j
    unfold rdpSpan
    rw [hk]
    show m ∈ (if (bestInterior pts i j).1 > (0 : ℚ) * 0 then
        ({k} ∪ rdpSpan pts 0 fuel i k ∪ rdpSpan pts 0 fuel k j) else ∅)
    rw [if_pos hcond]
    rcases Nat.lt_trichotomy m k with hmk | hmk | hmk
    · have := ih i k (by omega) (by omega) m him hmk
      simp [Finset.mem_union, this]
    · subst hmk
      simp
    · have := ih k j (by omega) hj m hmk hmj
      simp [Finset.mem_union, this]

end Carbon

/-- C9 counterexample: with tolerance 0 an interior point lying exactly on
the chord is dropped: three collinear points simplify to just the two
endpoints, so the output is not the full input. -/
theorem rdp_zero_tolerance_drops_collinear :
    Carbon.rdp_simplify [⟨0, 0⟩, ⟨0, 1⟩, ⟨0, 2⟩] 0 3 = [⟨0, 0⟩, ⟨0, 2⟩] ∧
    ([⟨0, 0⟩, ⟨0, 2⟩] : List Carbon.Pt) ≠ [⟨0, 0⟩, ⟨0, 1⟩, ⟨0, 2⟩] := by
  constructor
  · have hbi : Carbon.bestInterior [⟨0, 0⟩, ⟨0, 1⟩, ⟨0, 2⟩] 0 2 = (0, some 1) := by
      norm_num [Carbon.bestInterior, List.range', Carbon.seg_point_dist2]
    have hspan : Carbon.rdpSpan [⟨0, 0⟩, ⟨0, 1⟩, ⟨0, 2⟩] 0 3 0 2 = ∅ := by
      show Carbon.rdpSpan [⟨0, 0⟩, ⟨0, 1⟩, ⟨0, 2⟩] 0 (2 + 1) 0 2 = ∅
      unfold Carbon.rdpSpan
      rw [hbi]
      norm_num
    unfold Carbon.rdp_simplify
    norm_num [hspan, List.range_succ, List.filter]
  · intro h
    have := congrArg List.length h
    simp at this

/-- C9 amended: with tolerance 0 the simplification returns the full input
whenever every point strictly off the chord condition holds — no input
point lies exactly on the segment between any two others that could bound
its span; a point exactly on its chord (squared deviation 0) is dropped
even at tolerance 0, as the counterexample shows. -/
theorem rdp_zero_tolerance_general_position (pts : List Carbon.Pt) (out_max : Nat)
    (hn : 0 < pts.length) (hout : pts.length ≤ out_max)
    (hgen : ∀ i k j : Nat, i < k → k < j → j < pts.length →
      0 < Carbon.seg_point_dist2 (pts.getD i ⟨0, 0⟩) (pts.getD j ⟨0, 0⟩) (pts.getD k ⟨0, 0⟩)) :
    Carbon.rdp_simplify pts 0 out_max = pts := by
  show (if pts.length = 0 ∨ out_max = 0 then []
    else if pts.length = 1 then [pts.getD 0 ⟨0, 0⟩]
    else (((List.range pts.length).filter
        (fun i => decide (i ∈
          (Carbon.rdpSpan pts 0 pts.length 0 (pts.length - 1) ∪
            {0, pts.length - 1})))).take out_max).map
      (fun i => pts.getD i ⟨0, 0⟩)) = pts
  rw [if_neg (by push_neg; constructor <;> omega)]
  by_cases h1 : pts.length = 1
  · rw [if_pos h1]
    cases pts with
    | nil => simp at h1
    | cons a rest =>
      have hrest : rest = [] := by
        rw [List.length_cons] at h1
        exact List.length_eq_zero.mp (by omega)
      subst hrest
      rfl
  · rw [if_neg h1]
    have hkeep : ∀ m, m < pts.length →
        m ∈ (Carbon.rdpSpan pts 0 pts.length 0 (pts.length - 1) ∪
          ({0, pts.length - 1} : Finset Nat)) := by
      intro m hm
      rw [Finset.mem_union, Finset.mem_insert, Finset.mem_singleton]
      by_cases hm0 : m = 0
      · exact Or.inr (Or.inl hm0)
      · by_cases hml : m = pts.length - 1
        · exact Or.inr (Or.inr hml)
        · refine Or.inl (Carbon.rdpSpan_keeps_all pts hgen pts.length 0 (pts.length - 1)
            (by omega) (by omega) m (by omega) (by omega))
    have hfilter : (List.range pts.length).filter
        (fun i => decide (i ∈
          (Carbon.rdpSpan pts 0 pts.length 0 (pts.length - 1) ∪
            {0, pts.length - 1}))) = List.range pts.length := by
      rw [List.filter_eq_self]
      intro a ha
      rw [decide_eq_true_eq]
      exact hkeep a (List.mem_range.mp ha)
    rw [hfilter, List.take_of_length_le (by rw [List.length_range]; exact hout)]
    apply List.ext_getElem
    · rw [List.length_map, List.length_range]
    · intro i hi1 hi2
      rw [List.getElem_map, List.getElem_range]
      exact pts.getD_eq_getElem ⟨0, 0⟩ hi2

/-- Witness for C9 amended: the theorem applied to a concrete three-point
polyline in general position, every hypothesis discharged; the full input
survives tolerance 0. -/
theorem rdp_zero_tolerance_general_position_witness :
    Carbon.rdp_simplify [⟨0, 0⟩, ⟨1, 1⟩, ⟨2, 0⟩] 0 3 = [⟨0, 0⟩, ⟨1, 1⟩, ⟨2, 0⟩] := by
  refine rdp_zero_tolerance_general_position [⟨0, 0⟩, ⟨1, 1⟩, ⟨2, 0⟩] 3
    (by norm_num) (by norm_num) ?_
  intro i k j hik hkj hj
  have hj3 : j < 3 := by simpa using hj
  have : i = 0 ∧ k = 1 ∧ j = 2 := by omega
  obtain ⟨rfl, rfl, rfl⟩ := this
  norm_num [Carbon.seg_point_dist2]

namespace EcoRoute

theorem swapL_length (l : List (ℚ × Nat)) (i j : Nat) :
    (swapL l i j).length = l.length := by
  unfold swapL
  simp

theorem minIdxFrom_lt (l : List (ℚ × Nat)) (i : Nat) (hi : i < l.length) :
    minIdxFrom l i < l.length := by
  unfold minIdxFrom
  have main : ∀ (cand : List Nat) (acc : Nat), acc < l.length →
      (∀ x ∈ cand, x < l.length) →
      (cand.foldl
        (fun mi j => if (l.getD j (0, 0)).1 < (l.getD mi (0, 0)).1 then j else mi) acc) <
        l.length := by
    intro cand
    induction cand with
    | nil => intro acc ha _; exact ha
    | cons a as ih =>
      intro acc ha hm
      rw [List.foldl_cons]
      refine ih _ ?_ (fun x hx => hm x (List.mem_cons_of_mem _ hx))
      by_cases hc : (l.getD a (0, 0)).1 < (l.getD acc (0, 0)).1
      · rw [if_pos hc]
        exact hm a (List.mem_cons_self a as)
      · rw [if_neg hc]
        exact ha
  refine main _ i hi ?_
  intro x hx
  have := List.mem_range'_1.mp hx
  omega

theorem swapL_perm (l : List (ℚ × Nat)) (i j : Nat) (hi : i < l.length)
    (hj : j < l.length) : (swapL l i j).Perm l := by
  rw [List.perm_iff_count]
  intro x
  show @List.count _ instBEqOfDecidableEq x
    ((l.set i (l.getD j (0, 0))).set j (l.getD i (0, 0))) =
    @List.count _ instBEqOfDecidableEq x l
  rw [@lawful_beq_subsingleton (ℚ × Nat) instBEqOfDecidableEq
    (inferInstance : BEq (ℚ × Nat)) instLawfulBEq inferInstance]
  have hgi : l.getD i (0, 0) = l[i] := List.getD_eq_getElem l (0, 0) hi
  have hgj : l.getD j (0, 0) = l[j] := List.getD_eq_getElem l (0, 0) hj
  have hlenj : j < (l.set i (l.getD j (0, 0))).length := by simpa using hj
  have hsetj : (l.set i (l.getD j (0, 0)))[j] = l[j] := by
    rw [List.getElem_set]
    by_cases hij : i = j
    · rw [if_pos hij]
      exact hgj
    · rw [if_neg hij]
  rw [List.count_set _ _ _ _ hlenj, List.count_set _ _ _ _ hi, hsetj, hgi, hgj]
  have hci : (if (l[i] == x) = true then 1 else 0) ≤ l.count x := by
    by_cases hx : l[i] = x
    · have hmem : x ∈ l := hx ▸ List.getElem_mem hi
      simpa [hx] using List.one_le_count_iff.mpr hmem
    · simp [hx]
  by_cases hxi : l[i] = x <;> by_cases hxj : l[j] = x
  · simp only [hxi, hxj, beq_self_eq_true, if_true] at hci ⊢
    omega
  · have hj0 : (l[j] == x) = false := beq_eq_false_iff_ne.mpr hxj
    simp only [hxi, hj0, beq_self_eq_true, if_true, if_false] at hci ⊢
    omega
  · have hi0 : (l[i] == x) = false := beq_eq_false_iff_ne.mpr hxi
    simp only [hxj, hi0, beq_self_eq_true, if_true, if_false] at hci ⊢
    omega
  · have hi0 : (l[i] == x) = false := beq_eq_false_iff_ne.mpr hxi
    have hj0 : (l[j] == x) = false := beq_eq_false_iff_ne.mpr hxj
    simp only [hi0, hj0, if_false] at hci ⊢
    omega

theorem selectK_perm (k : Nat) (l : List (ℚ × Nat)) (hk : k ≤ l.length) :
    (selectK k l).Perm l := by
  induction k with
  | zero => exact List.Perm.refl l
  | succ k ih =>
    have hperm : (selectK k l).Perm l := ih (by omega)
    have hlen : (selectK k l).length = l.length := hperm.length_eq
    have hstep : selectK (k + 1) l = swapL (selectK k l) k (minIdxFrom (selectK k l) k) := by
      unfold selectK
      rw [List.range_succ, List.foldl_append, List.foldl_cons, List.foldl_nil]
    rw [hstep]
    have hklt : k < (selectK k l).length := by omega
    exact (swapL_perm (selectK k l) k (minIdxFrom (selectK k l) k) hklt
      (minIdxFrom_lt _ k hklt)).trans hperm

theorem selectK_length (k : Nat) (l : List (ℚ × Nat)) :
    (selectK k l).length = l.length := by
  unfold selectK
  have main : ∀ (idxs : List Nat) (l2 : List (ℚ × Nat)),
      (idxs.foldl (fun l3 i => swapL l3 i (minIdxFrom l3 i)) l2).length = l2.length := by
    intro idxs
    induction idxs with
    | nil => intro l2; rfl
    | cons a as ih =>
      intro l2
      rw [List.foldl_cons, ih, swapL_length]
  exact main _ l

theorem kclamp_le (V k0 : Nat) : kclamp V k0 ≤ V := by
  unfold kclamp
  rcases Nat.lt_or_ge (V - 1) (if k0 < 1 then 1 else k0) with h | h
  · rw [if_pos h]
    omega
  · rw [if_neg (Nat.not_lt.mpr h)]
    omega

theorem selectK_snd_nodup (k : Nat) (l : List (ℚ × Nat)) (hk : k ≤ l.length)
    (hnd : (l.map Prod.snd).Nodup) : ((selectK k l).map Prod.snd).Nodup := by
  have hperm := (selectK_perm k l hk).map Prod.snd
  exact hperm.nodup_iff.mpr hnd

theorem knn_selected_snd_nodup (distf : Nat → Nat → ℚ) (V k u : Nat) (hk : k ≤ V) :
    (((selectK k ((List.range V).map
        (fun v => (if u = v then INFq else distf u v, v)))).take k).map Prod.snd).Nodup := by
  rw [List.map_take]
  refine List.Nodup.sublist (List.take_sublist _ _) ?_
  refine selectK_snd_nodup k _ ?_ ?_
  · rw [List.length_map, List.length_range]
    exact hk
  · rw [List.map_map]
    have hcomp : (Prod.snd ∘ fun v => ((if u = v then INFq else distf u v), v)) =
        (id : Nat → Nat) := rfl
    rw [hcomp, List.map_id]
    exact List.nodup_range V

theorem rangeFoldGetD (F : Graph → (ℚ × Nat) → Graph) :
    ∀ (k : Nat) (l : List (ℚ × Nat)) (g : Graph), k ≤ l.length →
      (List.range k).foldl (fun g2 i => F g2 (l.getD i (0, 0))) g =
        (l.take k).foldl F g := by
  intro k
  induction k with
  | zero => intro l g _; rfl
  | succ k ih =>
    intro l g hk
    have hkl : k < l.length := by omega
    rw [List.range_succ, List.foldl_append, List.foldl_cons, List.foldl_nil]
    rw [ih l g (by omega)]
    rw [List.take_succ, List.getElem?_eq_getElem hkl, Option.toList_some,
      List.foldl_append, List.foldl_cons, List.foldl_nil,
      List.getD_eq_getElem l (0, 0) hkl]

theorem build_knn_fixed_eq (distf : Nat → Nat → ℚ) (V k0 : Nat) :
    build_knn_fixed distf V k0 =
      (List.range V).foldl (knnOuter distf V (kclamp V k0)) { V := V, recs := [] } := by
  have hlen : ∀ u : Nat,
      kclamp V k0 ≤ (selectK (kclamp V k0)
        ((List.range V).map (fun v => (if u = v then INFq else distf u v, v)))).length := by
    intro u
    rw [selectK_length, List.length_map, List.length_range]
    exact kclamp_le V k0
  refine congrArg (fun F => (List.range V).foldl F ({ V := V, recs := [] } : Graph))
    (funext fun g => funext fun u => ?_)
  exact rangeFoldGetD (knnStep distf u) (kclamp V k0) _ g (hlen u)

theorem add_edge_V (g : Graph) (u v : Nat) (w : ℚ) : (add_edge g u v w).V = g.V := by
  unfold add_edge
  split <;> rfl

theorem add_edge_mem (g : Graph) (u v : Nat) (w : ℚ) (r : Rec)
    (hr : r ∈ (add_edge g u v w).recs) :
    r ∈ g.recs ∨ (r.src < g.V ∧ r.dst < g.V ∧ r.src ≠ r.dst) := by
  unfold add_edge at hr
  by_cases h : u < g.V ∧ v < g.V ∧ u ≠ v
  · rw [if_pos h] at hr
    have hr2 : r ∈ g.recs ++ [(⟨u, v, w⟩ : Rec), ⟨v, u, w⟩] := hr
    rcases List.mem_append.mp hr2 with hg | hnew
    · exact Or.inl hg
    · rcases List.mem_cons.mp hnew with h1 | h1
      · subst h1
        exact Or.inr ⟨h.1, h.2.1, h.2.2⟩
      · rcases List.mem_cons.mp h1 with h2 | h2
        · subst h2
          exact Or.inr ⟨h.2.1, h.1, Ne.symm h.2.2⟩
        · exact absurd h2 (List.not_mem_nil r)
  · rw [if_neg h] at hr
    exact Or.inl hr

theorem cnt_add_edge_le (g : Graph) (u v : Nat) (w : ℚ) (x y : Nat) :
    cnt (add_edge g u v w) x y ≤ cnt g x y + 1 := by
  unfold cnt add_edge
  by_cases h : u < g.V ∧ v < g.V ∧ u ≠ v
  · rw [if_pos h]
    show (List.filter (fun r => r.src == x && r.dst == y)
        (g.recs ++ [⟨u, v, w⟩, ⟨v, u, w⟩])).length ≤
      (List.filter (fun r => r.src == x && r.dst == y) g.recs).length + 1
    rw [List.filter_append, List.length_append]
    have hle : (List.filter (fun r => r.src == x && r.dst == y)
        ([⟨u, v, w⟩, ⟨v, u, w⟩] : List Rec)).length ≤ 1 := by
      by_cases p1 : (u == x && v == y) = true <;>
        by_cases p2 : (v == x && u == y) = true
      · rw [Bool.and_eq_true, beq_iff_eq, beq_iff_eq] at p1 p2
        exact absurd (p1.1.trans p2.1.symm) h.2.2
      all_goals simp [List.filter, p1, p2]
    omega
  · rw [if_neg h]
    exact Nat.le_succ _

theorem cnt_add_edge_eq (g : Graph) (u v : Nat) (w : ℚ) (x y : Nat)
    (h1 : ¬(u = x ∧ v = y)) (h2 : ¬(v = x ∧ u = y)) :
    cnt (add_edge g u v w) x y = cnt g x y := by
  have p1 : (u == x && v == y) = false := by
    rw [← Bool.not_eq_true, Bool.and_eq_true, beq_iff_eq, beq_iff_eq]
    exact h1
  have p2 : (v == x && u == y) = false := by
    rw [← Bool.not_eq_true, Bool.and_eq_true, beq_iff_eq, beq_iff_eq]
    exact h2
  unfold cnt add_edge
  by_cases h : u < g.V ∧ v < g.V ∧ u ≠ v
  · rw [if_pos h]
    show (List.filter (fun r => r.src == x && r.dst == y)
        (g.recs ++ [⟨u, v, w⟩, ⟨v, u, w⟩])).length =
      (List.filter (fun r => r.src == x && r.dst == y) g.recs).length
    rw [List.filter_append, List.length_append]
    simp [List.filter, p1, p2]
  · rw [if_neg h]

theorem foldl_graph_inv {α : Type} (P : Graph → Prop) (step : Graph → α → Graph)
    (hstep : ∀ g a, P g → P (step g a)) :
    ∀ (l : List α) (g : Graph), P g → P (l.foldl step g) := by
  intro l
  induction l with
  | nil => exact fun g hg => hg
  | cons a as ih => exact fun g hg => ih (step g a) (hstep g a hg)

theorem knn_inner_nomatch (distf : Nat → Nat → ℚ) (u x y : Nat) (vals : List (ℚ × Nat)) :
    ∀ g : Graph, (∀ p ∈ vals, ¬(u = x ∧ p.2 = y) ∧ ¬(p.2 = x ∧ u = y)) →
      cnt (vals.foldl (knnStep distf u) g) x y = cnt g x y := by
  induction vals with
  | nil => exact fun g _ => rfl
  | cons p ps ih =>
    intro g hall
    rw [List.foldl_cons]
    rw [ih (knnStep distf u g p) (fun q hq => hall q (List.mem_cons_of_mem p hq))]
    unfold knnStep
    split
    · exact cnt_add_edge_eq g u p.2 (distf u p.2) x y (hall p (List.mem_cons_self p ps)).1
        (hall p (List.mem_cons_self p ps)).2
    · rfl

theorem knn_inner_le (distf : Nat → Nat → ℚ) (u x y : Nat) (vals : List (ℚ × Nat)) :
    ∀ g : Graph, (vals.map Prod.snd).Nodup →
      cnt (vals.foldl (knnStep distf u) g) x y ≤ cnt g x y + 1 := by
  induction vals with
  | nil => exact fun g _ => Nat.le_succ _
  | cons p ps ih =>
    intro g hnd
    rw [List.map_cons, List.nodup_cons] at hnd
    rw [List.foldl_cons]
    by_cases hmatch : (u = x ∧ p.2 = y) ∨ (p.2 = x ∧ u = y)
    · have htail : ∀ q ∈ ps, ¬(u = x ∧ q.2 = y) ∧ ¬(q.2 = x ∧ u = y) := by
        intro q hq
        have hq2 : q.2 ∈ ps.map Prod.snd := List.mem_map_of_mem Prod.snd hq
        rcases hmatch with ⟨h1, h2⟩ | ⟨h1, h2⟩ <;>
          refine ⟨fun hc => ?_, fun hc => ?_⟩ <;>
          · obtain ⟨h3, h4⟩ := hc
            exact hnd.1 ((show q.2 = p.2 by omega) ▸ hq2)
      rw [knn_inner_nomatch distf u x y ps (knnStep distf u g p) htail]
      unfold knnStep
      split
      · exact cnt_add_edge_le g u p.2 (distf u p.2) x y
      · exact Nat.le_succ _
    · have hstep : cnt (knnStep distf u g p) x y = cnt g x y := by
        unfold knnStep
        split
        · exact cnt_add_edge_eq g u p.2 (distf u p.2) x y
            (fun hc => hmatch (Or.inl hc)) (fun hc => hmatch (Or.inr hc))
        · rfl
      have hrec := ih (knnStep distf u g p) hnd.2
      omega

theorem knn_outer_le (distf : Nat → Nat → ℚ) (V k x y : Nat) (hk : k ≤ V)
    (us : List Nat) :
    ∀ g : Graph, us.Nodup →
      cnt (us.foldl (knnOuter distf V k) g) x y ≤
        cnt g x y + ((if x ∈ us then 1 else 0) + (if y ∈ us then 1 else 0)) := by
  induction us with
  | nil =>
    intro g _
    simp
  | cons u us ih =>
    intro g hnd
    rw [List.foldl_cons]
    rw [List.nodup_cons] at hnd
    have hxle : (if x ∈ us then 1 else 0) ≤ (if x ∈ u :: us then (1 : Nat) else 0) := by
      by_cases hx : x ∈ us
      · rw [if_pos hx, if_pos (List.mem_cons_of_mem u hx)]
      · rw [if_neg hx]
        exact Nat.zero_le _
    have hyle : (if y ∈ us then 1 else 0) ≤ (if y ∈ u :: us then (1 : Nat) else 0) := by
      by_cases hy : y ∈ us
      · rw [if_pos hy, if_pos (List.mem_cons_of_mem u hy)]
      · rw [if_neg hy]
        exact Nat.zero_le _
    have hrec := ih (knnOuter distf V k g u) hnd.2
    by_cases hu : u = x ∨ u = y
    · have hstep : cnt (knnOuter distf V k g u) x y ≤ cnt g x y + 1 := by
        unfold knnOuter
        exact knn_inner_le distf u x y _ g (knn_selected_snd_nodup distf V k u hk)
      rcases hu with hux | huy
      · have hm1 : (if x ∈ u :: us then (1 : Nat) else 0) = 1 :=
          if_pos (List.mem_cons.mpr (Or.inl hux.symm))
        have hm0 : (if x ∈ us then (1 : Nat) else 0) = 0 :=
          if_neg (fun hx => hnd.1 (hux.symm ▸ hx))
        omega
      · have hm1 : (if y ∈ u :: us then (1 : Nat) else 0) = 1 :=
          if_pos (List.mem_cons.mpr (Or.inl huy.symm))
        have hm0 : (if y ∈ us then (1 : Nat) else 0) = 0 :=
          if_neg (fun hy => hnd.1 (huy.symm ▸ hy))
        omega
    · push_neg at hu
      have hstep : cnt (knnOuter distf V k g u) x y = cnt g x y := by
        unfold knnOuter
        refine knn_inner_nomatch distf u x y _ g ?_
        intro p hp
        exact ⟨fun hc => hu.1 hc.1, fun hc => hu.2 hc.2⟩
      omega

theorem build_knn_inv (distf : Nat → Nat → ℚ) (V k0 : Nat) :
    (build_knn_fixed distf V k0).V = V ∧
      ∀ r ∈ (build_knn_fixed distf V k0).recs,
        r.src < V ∧ r.dst < V ∧ r.src ≠ r.dst := by
  rw [build_knn_fixed_eq]
  refine foldl_graph_inv
    (fun g => g.V = V ∧ ∀ r ∈ g.recs, r.src < V ∧ r.dst < V ∧ r.src ≠ r.dst)
    (knnOuter distf V (kclamp V k0)) ?_ (List.range V) { V := V, recs := [] }
    ⟨rfl, fun r hr => absurd hr (List.not_mem_nil r)⟩
  intro g u hg
  unfold knnOuter
  refine foldl_graph_inv
    (fun g3 => g3.V = V ∧ ∀ r ∈ g3.recs, r.src < V ∧ r.dst < V ∧ r.src ≠ r.dst)
    (knnStep distf u) ?_ _ g hg
  intro g2 p hg2
  unfold knnStep
  split
  · constructor
    · rw [add_edge_V]
      exact hg2.1
    · intro r hr
      rcases add_edge_mem g2 u p.2 (distf u p.2) r hr with hold | hnew
      · exact hg2.2 r hold
      · rw [hg2.1] at hnew
        exact hnew
  · exact hg2

theorem build_knn_cnt_le (distf : Nat → Nat → ℚ) (V k0 x y : Nat) :
    cnt (build_knn_fixed distf V k0) x y ≤ 2 := by
  rw [build_knn_fixed_eq]
  have h := knn_outer_le distf V (kclamp V k0) x y (kclamp_le V k0) (List.range V)
    { V := V, recs := [] } (List.nodup_range V)
  have h0 : cnt { V := V, recs := [] } x y = 0 := rfl
  rw [h0] at h
  split_ifs at h <;> omega

end EcoRoute

/-- The KNN builder on two mutually nearest nodes (V = 2, k = 1): node 0
adds the undirected edge 0 -- 1 and node 1 adds it again, giving four
records in insertion order. -/
theorem build_knn_2_1_recs :
    (EcoRoute.build_knn_fixed (fun _ _ => 1) 2 1).recs =
      [⟨0, 1, 1⟩, ⟨1, 0, 1⟩, ⟨1, 0, 1⟩, ⟨0, 1, 1⟩] := by
  have hmin0 : EcoRoute.minIdxFrom [(EcoRoute.INFq, 0), ((1 : ℚ), 1)] 0 = 1 := by
    show (List.range' 1 1).foldl _ 0 = 1
    have hr : List.range' 1 1 = [1] := rfl
    rw [hr, List.foldl_cons, List.foldl_nil]
    norm_num [EcoRoute.INFq]
  have hmin1 : EcoRoute.minIdxFrom [((1 : ℚ), 0), (EcoRoute.INFq, 1)] 0 = 0 := by
    show (List.range' 1 1).foldl _ 0 = 0
    have hr : List.range' 1 1 = [1] := rfl
    rw [hr, List.foldl_cons, List.foldl_nil]
    norm_num [EcoRoute.INFq]
  have hsel0 : EcoRoute.selectK 1 [(EcoRoute.INFq, 0), ((1 : ℚ), 1)] =
      [((1 : ℚ), 1), (EcoRoute.INFq, 0)] := by
    show EcoRoute.swapL [(EcoRoute.INFq, 0), ((1 : ℚ), 1)] 0
      (EcoRoute.minIdxFrom [(EcoRoute.INFq, 0), ((1 : ℚ), 1)] 0) = _
    rw [hmin0]
    rfl
  have hsel1 : EcoRoute.selectK 1 [((1 : ℚ), 0), (EcoRoute.INFq, 1)] =
      [((1 : ℚ), 0), (EcoRoute.INFq, 1)] := by
    show EcoRoute.swapL [((1 : ℚ), 0), (EcoRoute.INFq, 1)] 0
      (EcoRoute.minIdxFrom [((1 : ℚ), 0), (EcoRoute.INFq, 1)] 0) = _
    rw [hmin1]
    rfl
  have hsel0n := hsel0
  have hsel1n := hsel1
  norm_num at hsel0n hsel1n
  show ((List.range 2).foldl _ { V := 2, recs := [] } : EcoRoute.Graph).recs = _
  have hr2 : List.range 2 = [0, 1] := rfl
  rw [hr2, List.foldl_cons, List.foldl_cons, List.foldl_nil]
  norm_num [hsel0n, hsel1n, EcoRoute.add_edge]
  norm_num [show List.range 1 = [0] from rfl, List.foldl_cons, hsel0n, hsel1n]

/-- C7: the sparse (KNN) builder indeed records no self-loop and keeps every
endpoint in range, but an ordered pair of nodes can carry TWO adjacency
records, not at most one: when two nodes each select the other as nearest
neighbour, each endpoint's iteration calls add_edge, and every add_edge call
pushes one record per direction, so each direction ends up represented twice.
The correct per-pair bound, proved here, is two records. -/
theorem knn_graph_shape (distf : Nat → Nat → ℚ) (V k0 : Nat) :
    (∀ r ∈ (EcoRoute.build_knn_fixed distf V k0).recs,
        r.src ≠ r.dst ∧ r.src < V ∧ r.dst < V) ∧
    (∀ x y : Nat, EcoRoute.cnt (EcoRoute.build_knn_fixed distf V k0) x y ≤ 2) := by
  constructor
  · intro r hr
    have h := (EcoRoute.build_knn_inv distf V k0).2 r hr
    exact ⟨h.2.2, h.1, h.2.1⟩
  · intro x y
    exact EcoRoute.build_knn_cnt_le distf V k0 x y

/-- C7 counterexample: two nodes, k = 1 — each node selects the other, so
add_edge runs twice and the ordered pair (0, 1) receives two adjacency
records, refuting "at most one adjacency record for any ordered pair". -/
theorem mutual_knn_pair_double_record :
    EcoRoute.cnt (EcoRoute.build_knn_fixed (fun _ _ => 1) 2 1) 0 1 = 2 := by
  show (((EcoRoute.build_knn_fixed (fun _ _ => 1) 2 1).recs).filter
      (fun r => r.src == 0 && r.dst == 1)).length = 2
  rw [build_knn_2_1_recs]
  rfl

namespace EcoRoute

theorem ordIdx_lt_length (l : List Nat) (v : Nat) (hv : v ∈ l) :
    ordIdx l v < l.length := by
  induction l with
  | nil => cases hv
  | cons a l ih =>
    unfold ordIdx
    by_cases h : a = v
    · rw [if_pos h]
      simp
    · rw [if_neg h]
      have : v ∈ l := by
        rcases List.mem_cons.mp hv with h1 | h1
        · exact absurd h1.symm h
        · exact h1
      have := ih this
      simp
      omega

theorem ordIdx_append_left (l l2 : List Nat) (v : Nat) (hv : v ∈ l) :
    ordIdx (l ++ l2) v = ordIdx l v := by
  induction l with
  | nil => cases hv
  | cons a l ih =>
    show ordIdx (a :: (l ++ l2)) v = _
    unfold ordIdx
    by_cases h : a = v
    · rw [if_pos h, if_pos h]
    · rw [if_neg h, if_neg h]
      have : v ∈ l := by
        rcases List.mem_cons.mp hv with h1 | h1
        · exact absurd h1.symm h
        · exact h1
      rw [ih this]

theorem ordIdx_append_self (l : List Nat) (u : Nat) (hu : u ∉ l) :
    ordIdx (l ++ [u]) u = l.length := by
  induction l with
  | nil =>
    show ordIdx [u] u = 0
    unfold ordIdx
    rw [if_pos rfl]
  | cons a l ih =>
    show ordIdx (a :: (l ++ [u])) u = l.length + 1
    unfold ordIdx
    have ha : a ≠ u := fun h => hu (h ▸ List.mem_cons_self a l)
    rw [if_neg ha, ih (fun h => hu (List.mem_cons_of_mem a h))]

theorem mem_adjOf_iff (g : Graph) (u : Nat) (vw : Nat × ℚ) :
    vw ∈ adjOf g u ↔ ∃ r ∈ g.recs, r.src = u ∧ vw = (r.dst, r.wt) := by
  unfold adjOf
  rw [List.mem_map]
  constructor
  · rintro ⟨r, hr, hvw⟩
    rw [List.mem_reverse, List.mem_filter] at hr
    exact ⟨r, hr.1, by simpa using hr.2, hvw.symm⟩
  · rintro ⟨r, hr, hsrc, hvw⟩
    refine ⟨r, ?_, hvw.symm⟩
    rw [List.mem_reverse, List.mem_filter]
    exact ⟨hr, by simpa using hsrc⟩

theorem skipMatch_symm (skip : Option (Nat × Nat)) (a b : Nat) :
    skipMatch skip a b = skipMatch skip b a := by
  unfold skipMatch
  cases skip with
  | none => rfl
  | some p =>
    rcases p with ⟨x, y⟩
    show (decide (a = x) && decide (b = y) || (decide (a = y) && decide (b = x))) =
      (decide (b = x) && decide (a = y) || (decide (b = y) && decide (a = x)))
    by_cases h1 : a = x <;> by_cases h2 : b = y <;> by_cases h3 : a = y <;>
      by_cases h4 : b = x <;> simp [h1, h2, h3, h4]

theorem skipMatch_none_false (a b : Nat) : skipMatch none a b = false := rfl

theorem skipMatch_some_iff (su sv a b : Nat) :
    skipMatch (some (su, sv)) a b = true ↔ (a = su ∧ b = sv) ∨ (a = sv ∧ b = su) := by
  show ((a == su && b == sv) || (a == sv && b == su)) = true ↔ _
  rw [Bool.or_eq_true, Bool.and_eq_true, Bool.and_eq_true]
  simp [beq_iff_eq]

theorem hvCost_nonneg (hv : Nat → Nat → ℚ) (hhv : ∀ a b, 0 ≤ hv a b) :
    ∀ l : List Nat, 0 ≤ hvCost hv l := by
  intro l
  induction l with
  | nil => exact le_refl 0
  | cons a l ih =>
    cases l with
    | nil => exact le_refl 0
    | cons b l2 =>
      show 0 ≤ hv a b + hvCost hv (b :: l2)
      have := hhv a b
      have := ih
      linarith

theorem hvCost_tail_le (hv : Nat → Nat → ℚ) (hhv : ∀ a b, 0 ≤ hv a b)
    (l : List Nat) : hvCost hv l.tail ≤ hvCost hv l := by
  cases l with
  | nil => exact le_refl 0
  | cons a l =>
    cases l with
    | nil => exact le_refl 0
    | cons b l2 =>
      show hvCost hv (b :: l2) ≤ hv a b + hvCost hv (b :: l2)
      have := hhv a b
      linarith

theorem hvCost_drop_le (hv : Nat → Nat → ℚ) (hhv : ∀ a b, 0 ≤ hv a b)
    (l : List Nat) : ∀ r : Nat, hvCost hv (l.drop r) ≤ hvCost hv l := by
  intro r
  induction r with
  | zero => exact le_refl _
  | succ r ih =>
    have h1 : l.drop (r + 1) = (l.drop r).tail := (List.tail_drop l r).symm
    rw [h1]
    exact le_trans (hvCost_tail_le hv hhv (l.drop r)) ih

theorem hvCost_take_le (hv : Nat → Nat → ℚ) (hhv : ∀ a b, 0 ≤ hv a b) :
    ∀ (l : List Nat) (k : Nat), hvCost hv (l.take k) ≤ hvCost hv l := by
  intro l
  induction l with
  | nil => intro k; rw [List.take_nil]
  | cons a l ih =>
    intro k
    cases k with
    | zero =>
      show hvCost hv [] ≤ _
      exact hvCost_nonneg hv hhv _
    | succ k =>
      rw [List.take_succ_cons]
      cases l with
      | nil =>
        rw [List.take_nil]
      | cons b l2 =>
        cases k with
        | zero =>
          show (0 : ℚ) ≤ hv a b + hvCost hv (b :: l2)
          have h1 := hhv a b
          have h2 := hvCost_nonneg hv hhv (b :: l2)
          linarith
        | succ k =>
          rw [List.take_succ_cons]
          show hv a b + hvCost hv (b :: List.take k l2) ≤ hv a b + hvCost hv (b :: l2)
          have h3 : hvCost hv (List.take (k + 1) (b :: l2)) ≤ hvCost hv (b :: l2) := ih (k + 1)
          rw [List.take_succ_cons] at h3
          linarith

theorem hvCost_append_head (hv : Nat → Nat → ℚ) :
    ∀ (p : List Nat) (c : Nat) (q : List Nat), p.getLast? = some c →
      hvCost hv (p ++ q) = hvCost hv p + hvCost hv (c :: q) := by
  intro p
  induction p with
  | nil => intro c q h; cases h
  | cons a p ih =>
    intro c q h
    cases p with
    | nil =>
      have hc : a = c := by
        have : (some a : Option Nat) = some c := h
        exact Option.some.inj this
      subst hc
      show hvCost hv (a :: q) = 0 + hvCost hv (a :: q)
      rw [zero_add]
    | cons b p2 =>
      have hlast : (b :: p2).getLast? = some c := by
        rw [List.getLast?_cons_cons] at h
        exact h
      have hih := ih c q hlast
      show hvCost hv (a :: b :: (p2 ++ q)) = hvCost hv (a :: b :: p2) + hvCost hv (c :: q)
      show hv a b + hvCost hv (b :: (p2 ++ q)) = (hv a b + hvCost hv (b :: p2)) + _
      have h2 : hvCost hv (b :: (p2 ++ q)) = hvCost hv (b :: p2) + hvCost hv (c :: q) := hih
      linarith

theorem hvCost_append_last (hv : Nat → Nat → ℚ) (p : List Nat) (c u : Nat)
    (h : p.getLast? = some c) :
    hvCost hv (p ++ [u]) = hvCost hv p + hv c u := by
  rw [hvCost_append_head hv p c [u] h]
  show hvCost hv p + (hv c u + hvCost hv [u]) = hvCost hv p + hv c u
  show hvCost hv p + (hv c u + 0) = hvCost hv p + hv c u
  rw [add_zero]

end EcoRoute
namespace EcoRoute

theorem minQList_go_spec (st : DState) :
    ∀ (l : List Nat) (acc : Option (Nat × ℚ)),
      (∀ b db, acc = some (b, db) → st.used b = false ∧ st.dist b = some db) →
      ∀ res,
        l.foldl
          (fun acc i =>
            if st.used i then acc
            else
              match st.dist i with
              | none => acc
              | some d =>
                match acc with
                | none => some (i, d)
                | some (bi, best) => if d < best then some (i, d) else some (bi, best))
          acc = res →
        (res = none → acc = none ∧ ∀ i ∈ l, st.used i = true ∨ st.dist i = none) ∧
        (∀ u du, res = some (u, du) → st.used u = false ∧ st.dist u = some du ∧
          (acc = some (u, du) ∨ u ∈ l) ∧
          (∀ i ∈ l, st.used i = false → ∀ di, st.dist i = some di → du ≤ di) ∧
          (∀ b db, acc = some (b, db) → du ≤ db)) := by
  intro l
  induction l with
  | nil =>
    intro acc hacc res hres
    rw [List.foldl_nil] at hres
    subst hres
    constructor
    · intro h
      exact ⟨h, fun i hi => absurd hi (List.not_mem_nil i)⟩
    · intro u du h
      have h2 := hacc u du h
      exact ⟨h2.1, h2.2, Or.inl h, fun i hi => absurd hi (List.not_mem_nil i),
        fun b db hb => by
          rw [h] at hb
          have : u = b ∧ du = db := by
            have := Option.some.inj hb
            exact ⟨congrArg Prod.fst this, congrArg Prod.snd this⟩
          rw [this.2]⟩
  | cons i l ih =>
    intro acc hacc res hres
    rw [List.foldl_cons] at hres
    by_cases hui : st.used i = true
    · simp only [hui, if_true] at hres
      have hmain := ih acc hacc res hres
      constructor
      · intro h
        have h2 := hmain.1 h
        exact ⟨h2.1, fun j hj => by
          rcases List.mem_cons.mp hj with rfl | hj2
          · exact Or.inl hui
          · exact h2.2 j hj2⟩
      · intro u du h
        have h2 := hmain.2 u du h
        refine ⟨h2.1, h2.2.1, ?_, ?_, h2.2.2.2.2⟩
        · rcases h2.2.2.1 with ha | hm
          · exact Or.inl ha
          · exact Or.inr (List.mem_cons_of_mem i hm)
        · intro j hj hju dj hdj
          rcases List.mem_cons.mp hj with rfl | hj2
          · rw [hui] at hju
            cases hju
          · exact h2.2.2.2.1 j hj2 hju dj hdj
    · have hui2 : st.used i = false := by
        rw [Bool.not_eq_true] at hui
        exact hui
      simp only [hui2, Bool.false_eq_true, if_false] at hres
      rcases hdi : st.dist i with _ | d
      · simp only [hdi] at hres
        have hmain := ih acc hacc res hres
        constructor
        · intro h
          have h2 := hmain.1 h
          exact ⟨h2.1, fun j hj => by
            rcases List.mem_cons.mp hj with rfl | hj2
            · exact Or.inr hdi
            · exact h2.2 j hj2⟩
        · intro u du h
          have h2 := hmain.2 u du h
          refine ⟨h2.1, h2.2.1, ?_, ?_, h2.2.2.2.2⟩
          · rcases h2.2.2.1 with ha | hm
            · exact Or.inl ha
            · exact Or.inr (List.mem_cons_of_mem i hm)
          · intro j hj hju dj hdj
            rcases List.mem_cons.mp hj with rfl | hj2
            · rw [hdi] at hdj
              cases hdj
            · exact h2.2.2.2.1 j hj2 hju dj hdj
      · simp only [hdi] at hres
        rcases hacc2 : acc with _ | ⟨bi, best⟩
        · subst hacc2
          simp only [] at hres
          have hacc1 : ∀ b db, (some (i, d) : Option (Nat × ℚ)) = some (b, db) →
              st.used b = false ∧ st.dist b = some db := by
            intro b db hb
            have h2 := Option.some.inj hb
            have hb1 : i = b := congrArg Prod.fst h2
            have hb2 : d = db := congrArg Prod.snd h2
            rw [← hb1, ← hb2]
            exact ⟨hui2, hdi⟩
          have hmain := ih (some (i, d)) hacc1 res hres
          constructor
          · intro h
            have h2 := hmain.1 h
            cases h2.1
          · intro u du h
            have h2 := hmain.2 u du h
            refine ⟨h2.1, h2.2.1, ?_, ?_, ?_⟩
            · rcases h2.2.2.1 with ha | hm
              · have h3 := Option.some.inj ha
                have h4 : i = u := congrArg Prod.fst h3
                exact Or.inr (h4 ▸ List.mem_cons_self i l)
              · exact Or.inr (List.mem_cons_of_mem i hm)
            · intro j hj hju dj hdj
              rcases List.mem_cons.mp hj with rfl | hj2
              · have h4 := h2.2.2.2.2 j d rfl
                rw [hdi] at hdj
                have : d = dj := Option.some.inj hdj
                rw [← this]
                exact h4
              · exact h2.2.2.2.1 j hj2 hju dj hdj
            · intro b db hb
              cases hb
        · subst hacc2
          by_cases hlt : d < best
          · simp only [if_pos hlt] at hres
            have hacc1 : ∀ b db, (some (i, d) : Option (Nat × ℚ)) = some (b, db) →
                st.used b = false ∧ st.dist b = some db := by
              intro b db hb
              have h2 := Option.some.inj hb
              have hb1 : i = b := congrArg Prod.fst h2
              have hb2 : d = db := congrArg Prod.snd h2
              rw [← hb1, ← hb2]
              exact ⟨hui2, hdi⟩
            have hmain := ih (some (i, d)) hacc1 res hres
            constructor
            · intro h
              have h2 := hmain.1 h
              cases h2.1
            · intro u du h
              have h2 := hmain.2 u du h
              refine ⟨h2.1, h2.2.1, ?_, ?_, ?_⟩
              · rcases h2.2.2.1 with ha | hm
                · have h3 := Option.some.inj ha
                  have : i = u := congrArg Prod.fst h3
                  exact Or.inr (this ▸ List.mem_cons_self i l)
                · exact Or.inr (List.mem_cons_of_mem i hm)
              · intro j hj hju dj hdj
                rcases List.mem_cons.mp hj with rfl | hj2
                · have h4 := h2.2.2.2.2 j d rfl
                  rw [hdi] at hdj
                  have : d = dj := Option.some.inj hdj
                  rw [← this]
                  exact h4
                · exact h2.2.2.2.1 j hj2 hju dj hdj
              · intro b db hb
                have h3 := Option.some.inj hb
                have hdb : best = db := congrArg Prod.snd h3
                have h4 := h2.2.2.2.2 i d rfl
                rw [← hdb]
                linarith
          · simp only [if_neg hlt] at hres
            have hmain := ih (some (bi, best)) hacc res hres
            have hbest : best ≤ d := le_of_not_lt hlt
            constructor
            · intro h
              have h2 := hmain.1 h
              cases h2.1
            · intro u du h
              have h2 := hmain.2 u du h
              refine ⟨h2.1, h2.2.1, ?_, ?_, h2.2.2.2.2⟩
              · rcases h2.2.2.1 with ha | hm
                · exact Or.inl ha
                · exact Or.inr (List.mem_cons_of_mem i hm)
              · intro j hj hju dj hdj
                rcases List.mem_cons.mp hj with rfl | hj2
                · have h4 := h2.2.2.2.2 bi best rfl
                  rw [hdi] at hdj
                  have : d = dj := Option.some.inj hdj
                  rw [← this]
                  linarith
                · exact h2.2.2.2.1 j hj2 hju dj hdj

theorem minQ_some_spec (V : Nat) (st : DState) (u : Nat) (h : minQ V st = some u) :
    st.used u = false ∧ u < V ∧ ∃ du, st.dist u = some du ∧
      ∀ y, y < V → st.used y = false → ∀ dy, st.dist y = some dy → du ≤ dy := by
  unfold minQ at h
  rcases hres : minQList st (List.range V) with _ | ⟨u2, du⟩
  · rw [hres] at h
    cases h
  · rw [hres] at h
    have hu2 : u2 = u := Option.some.inj h
    rw [hu2] at hres
    have hspec := (minQList_go_spec st (List.range V) none
      (fun b db hb => by cases hb) (some (u, du)) hres).2 u du rfl
    refine ⟨hspec.1, ?_, du, hspec.2.1, ?_⟩
    · rcases hspec.2.2.1 with ha | hm
      · cases ha
      · exact List.mem_range.mp hm
    · intro y hy hyu dy hdy
      exact hspec.2.2.2.1 y (List.mem_range.mpr hy) hyu dy hdy

theorem minQ_none_spec (V : Nat) (st : DState) (h : minQ V st = none) :
    ∀ y, y < V → st.used y = true ∨ st.dist y = none := by
  unfold minQ at h
  rcases hres : minQList st (List.range V) with _ | p
  · have hspec := (minQList_go_spec st (List.range V) none
      (fun b db hb => by cases hb) none hres).1 rfl
    intro y hy
    exact hspec.2 y (List.mem_range.mpr hy)
  · rw [hres] at h
    cases h

theorem minQList_dinit_after (s : Nat) :
    ∀ l : List Nat, l.foldl
        (fun acc i =>
          if (dinit s).used i then acc
          else
            match (dinit s).dist i with
            | none => acc
            | some d =>
              match acc with
              | none => some (i, d)
              | some (bi, best) => if d < best then some (i, d) else some (bi, best))
        (some (s, 0)) = some (s, 0) := by
  intro l
  induction l with
  | nil => rfl
  | cons i l ih =>
    rw [List.foldl_cons]
    have h1 : (dinit s).used i = false := rfl
    by_cases hi : i = s
    · have h2 : (dinit s).dist i = some 0 := by
        show (if i = s then some (0 : ℚ) else none) = some 0
        rw [if_pos hi]
      simp only [h1, Bool.false_eq_true, if_false, h2]
      rw [if_neg (lt_irrefl (0 : ℚ))]
      exact ih
    · have h2 : (dinit s).dist i = none := by
        show (if i = s then some (0 : ℚ) else none) = none
        rw [if_neg hi]
      simp only [h1, Bool.false_eq_true, if_false, h2]
      exact ih

theorem minQ_dinit (V s : Nat) (hs : s < V) : minQ V (dinit s) = some s := by
  unfold minQ
  have hmain : ∀ l : List Nat, s ∈ l → minQList (dinit s) l = some (s, 0) := by
    intro l
    induction l with
    | nil => intro h; cases h
    | cons i l ih =>
      intro hmem
      unfold minQList
      rw [List.foldl_cons]
      have h1 : (dinit s).used i = false := rfl
      by_cases hi : i = s
      · have h2 : (dinit s).dist i = some 0 := by
          show (if i = s then some (0 : ℚ) else none) = some 0
          rw [if_pos hi]
        simp only [h1, Bool.false_eq_true, if_false, h2]
        rw [hi]
        have h3 := minQList_dinit_after s l
        exact h3
      · have h2 : (dinit s).dist i = none := by
          show (if i = s then some (0 : ℚ) else none) = none
          rw [if_neg hi]
        simp only [h1, Bool.false_eq_true, if_false, h2]
        have hmem2 : s ∈ l := by
          rcases List.mem_cons.mp hmem with h3 | h3
          · exact absurd h3.symm hi
          · exact h3
        have h3 := ih hmem2
        unfold minQList at h3
        exact h3
  rw [hmain (List.range V) (List.mem_range.mpr hs)]
  rfl

end EcoRoute
namespace EcoRoute

theorem upd_eq {α : Type} (f : Nat → α) (x : Nat) (a : α) : upd f x a x = a := by
  unfold upd
  rw [if_pos rfl]

theorem upd_ne {α : Type} (f : Nat → α) (x : Nat) (a : α) (y : Nat) (h : y ≠ x) :
    upd f x a y = f y := by
  unfold upd
  rw [if_neg h]

theorem relaxStep_of_skip (skip : Option (Nat × Nat)) (u : Nat) (st : DState)
    (vw : Nat × ℚ) (h : skipMatch skip u vw.1 = true) :
    relaxStep skip u st vw = st := by
  unfold relaxStep
  rw [if_pos h]

theorem relaxStep_of_noskip (skip : Option (Nat × Nat)) (u : Nat) (st : DState)
    (vw : Nat × ℚ) (du : ℚ) (h : skipMatch skip u vw.1 = false)
    (hdu : st.dist u = some du) :
    relaxStep skip u st vw =
      (if (match st.dist vw.1 with
           | none => true
           | some dv => decide (du + vw.2 < dv)) then
        { dist := upd st.dist vw.1 (some (du + vw.2))
          used := st.used
          parent := upd st.parent vw.1 (some u) }
      else st) := by
  unfold relaxStep
  rw [if_neg (fun hc => by rw [h] at hc; cases hc), hdu]

theorem relax_fold_spec (g : Graph) (skip : Option (Nat × Nat)) (hv : Nat → Nat → ℚ)
    (u : Nat) (du : ℚ)
    (H1 : ∀ r ∈ g.recs, r.wt = hv r.src r.dst)
    (Hrec : ∀ r ∈ g.recs, r.src < g.V ∧ r.dst < g.V ∧ r.src ≠ r.dst ∧ 0 ≤ r.wt) :
    ∀ (l : List (Nat × ℚ)) (st0 : DState),
      (∀ vw ∈ l, ∃ r ∈ g.recs, r.src = u ∧ vw = (r.dst, r.wt)) →
      st0.dist u = some du →
      ∀ st1, st1 = l.foldl (relaxStep skip u) st0 →
      (st1.used = st0.used) ∧
      (st1.dist u = some du) ∧
      (∀ v, (st1.dist v = st0.dist v ∧ st1.parent v = st0.parent v) ∨
        (st1.dist v = some (du + hv u v) ∧ st1.parent v = some u ∧
          (∃ r ∈ g.recs, r.src = u ∧ r.dst = v) ∧ skipMatch skip u v = false ∧
          (∀ d0, st0.dist v = some d0 → du + hv u v < d0))) ∧
      (∀ vw ∈ l, skipMatch skip u vw.1 = false →
        ∃ dv, st1.dist vw.1 = some dv ∧ dv ≤ du + vw.2) := by
  intro l
  induction l with
  | nil =>
    intro st0 hl hdu st1 hst1
    rw [List.foldl_nil] at hst1
    subst hst1
    exact ⟨rfl, hdu, fun v => Or.inl ⟨rfl, rfl⟩,
      fun vw hvw => absurd hvw (List.not_mem_nil vw)⟩
  | cons vw l ih =>
    intro st0 hl hdu st1 hst1
    rw [List.foldl_cons] at hst1
    obtain ⟨r, hrmem, hrsrc, hrvw⟩ := hl vw (List.mem_cons_self vw l)
    have hv1 : vw.1 = r.dst := by rw [hrvw]
    have hv2 : vw.2 = r.wt := by rw [hrvw]
    have hvwu : vw.1 ≠ u := by
      rw [hv1, ← hrsrc]
      exact ((Hrec r hrmem).2.2.1).symm
    have hwhv : vw.2 = hv u vw.1 := by
      rw [hv2, hv1, H1 r hrmem, hrsrc]
    by_cases hsk : skipMatch skip u vw.1 = true
    · rw [relaxStep_of_skip skip u st0 vw hsk] at hst1
      have hmain := ih st0 (fun q hq => hl q (List.mem_cons_of_mem vw hq)) hdu st1 hst1
      refine ⟨hmain.1, hmain.2.1, hmain.2.2.1, ?_⟩
      intro q hq hqsk
      rcases List.mem_cons.mp hq with rfl | hq2
      · rw [hqsk] at hsk
        cases hsk
      · exact hmain.2.2.2 q hq2 hqsk
    · have hsk2 : skipMatch skip u vw.1 = false := by
        rw [Bool.not_eq_true] at hsk
        exact hsk
      rw [relaxStep_of_noskip skip u st0 vw du hsk2 hdu] at hst1
      rcases hdv : st0.dist vw.1 with _ | dv
      · rw [hdv] at hst1
        rw [if_pos rfl] at hst1
        set stA : DState := { dist := upd st0.dist vw.1 (some (du + vw.2)), used := st0.used, parent := upd st0.parent vw.1 (some u) } with hstAdef
        have hA1 : stA.dist = upd st0.dist vw.1 (some (du + vw.2)) := rfl
        have hA2 : stA.parent = upd st0.parent vw.1 (some u) := rfl
        have hduA : stA.dist u = some du := by
          rw [hA1, upd_ne _ _ _ u (fun h => hvwu h.symm)]
          exact hdu
        have hmain := ih stA (fun q hq => hl q (List.mem_cons_of_mem vw hq)) hduA st1 hst1
        refine ⟨hmain.1, hmain.2.1, ?_, ?_⟩
        · intro v
          rcases hmain.2.2.1 v with ⟨he1, he2⟩ | hupd
          · rw [hA1] at he1
            rw [hA2] at he2
            by_cases hveq : v = vw.1
            · subst hveq
              rw [upd_eq] at he1
              rw [upd_eq] at he2
              refine Or.inr ⟨by rw [he1, hwhv], he2,
                ⟨r, hrmem, hrsrc, hv1.symm⟩, hsk2, ?_⟩
              intro d0 hd0
              rw [hdv] at hd0
              cases hd0
            · rw [upd_ne _ _ _ v hveq] at he1
              rw [upd_ne _ _ _ v hveq] at he2
              exact Or.inl ⟨he1, he2⟩
          · refine Or.inr ⟨hupd.1, hupd.2.1, hupd.2.2.1, hupd.2.2.2.1, ?_⟩
            intro d0 hd0
            by_cases hveq : v = vw.1
            · subst hveq
              rw [hdv] at hd0
              cases hd0
            · refine hupd.2.2.2.2 d0 ?_
              rw [hA1, upd_ne _ _ _ v hveq]
              exact hd0
        · intro q hq hqsk
          rcases List.mem_cons.mp hq with rfl | hq2
          · rcases hmain.2.2.1 q.1 with ⟨he1, _⟩ | hupd
            · rw [hA1, upd_eq] at he1
              exact ⟨du + q.2, he1, le_refl _⟩
            · refine ⟨du + hv u q.1, hupd.1, ?_⟩
              rw [hwhv]
          · exact hmain.2.2.2 q hq2 hqsk
      · rw [hdv] at hst1
        by_cases hlt : du + vw.2 < dv
        · rw [if_pos (by rw [decide_eq_true_eq]; exact hlt)] at hst1
          set stA : DState := { dist := upd st0.dist vw.1 (some (du + vw.2)), used := st0.used, parent := upd st0.parent vw.1 (some u) } with hstAdef
          have hA1 : stA.dist = upd st0.dist vw.1 (some (du + vw.2)) := rfl
          have hA2 : stA.parent = upd st0.parent vw.1 (some u) := rfl
          have hduA : stA.dist u = some du := by
            rw [hA1, upd_ne _ _ _ u (fun h => hvwu h.symm)]
            exact hdu
          have hmain := ih stA (fun q hq => hl q (List.mem_cons_of_mem vw hq)) hduA st1 hst1
          refine ⟨hmain.1, hmain.2.1, ?_, ?_⟩
          · intro v
            rcases hmain.2.2.1 v with ⟨he1, he2⟩ | hupd
            · rw [hA1] at he1
              rw [hA2] at he2
              by_cases hveq : v = vw.1
              · subst hveq
                rw [upd_eq] at he1
                rw [upd_eq] at he2
                refine Or.inr ⟨by rw [he1, hwhv], he2,
                  ⟨r, hrmem, hrsrc, hv1.symm⟩, hsk2, ?_⟩
                intro d0 hd0
                rw [hdv] at hd0
                have hd0e : dv = d0 := Option.some.inj hd0
                rw [← hwhv, ← hd0e]
                exact hlt
              · rw [upd_ne _ _ _ v hveq] at he1
                rw [upd_ne _ _ _ v hveq] at he2
                exact Or.inl ⟨he1, he2⟩
            · refine Or.inr ⟨hupd.1, hupd.2.1, hupd.2.2.1, hupd.2.2.2.1, ?_⟩
              intro d0 hd0
              by_cases hveq : v = vw.1
              · subst hveq
                rw [hdv] at hd0
                have hd0e : dv = d0 := Option.some.inj hd0
                have h5 := hupd.2.2.2.2 (du + vw.2) (by rw [hA1, upd_eq])
                rw [← hwhv] at h5
                linarith
              · refine hupd.2.2.2.2 d0 ?_
                rw [hA1, upd_ne _ _ _ v hveq]
                exact hd0
          · intro q hq hqsk
            rcases List.mem_cons.mp hq with rfl | hq2
            · rcases hmain.2.2.1 q.1 with ⟨he1, _⟩ | hupd
              · rw [hA1, upd_eq] at he1
                exact ⟨du + q.2, he1, le_refl _⟩
              · refine ⟨du + hv u q.1, hupd.1, ?_⟩
                rw [hwhv]
            · exact hmain.2.2.2 q hq2 hqsk
        · rw [if_neg (by rw [decide_eq_true_eq]; exact hlt)] at hst1
          have hmain := ih st0 (fun q hq => hl q (List.mem_cons_of_mem vw hq)) hdu st1 hst1
          refine ⟨hmain.1, hmain.2.1, hmain.2.2.1, ?_⟩
          intro q hq hqsk
          rcases List.mem_cons.mp hq with rfl | hq2
          · have hdvle : dv ≤ du + q.2 := le_of_not_lt hlt
            rcases hmain.2.2.1 q.1 with ⟨he1, _⟩ | hupd
            · refine ⟨dv, ?_, hdvle⟩
              rw [he1, hdv]
            · refine ⟨du + hv u q.1, hupd.1, ?_⟩
              rw [hwhv]
          · exact hmain.2.2.2 q hq2 hqsk

end EcoRoute
namespace EcoRoute

theorem dinv_init (g : Graph) (skip : Option (Nat × Nat)) (hv : Nat → Nat → ℚ)
    (s : Nat) (hs : s < g.V) : DInv g skip hv s (dinit s) [] := by
  refine ⟨List.nodup_nil, fun u hu => absurd hu (List.not_mem_nil u), ?_, Or.inl rfl,
    fun _ => rfl, ?_, ?_, ?_, fun x hx => absurd hx (List.not_mem_nil x),
    fun x hx => absurd hx (List.not_mem_nil x),
    fun x hx => absurd hx (List.not_mem_nil x), ?_, ?_, ?_⟩
  · intro v
    constructor
    · intro h
      exact absurd h Bool.false_ne_true
    · intro h
      exact absurd h (List.not_mem_nil v)
  · show (if s = s then some (0 : ℚ) else none) = some 0
    rw [if_pos rfl]
  · intro v d hd
    by_cases hv2 : v = s
    · rw [hv2]
      exact hs
    · exfalso
      have hd2 : (if v = s then some (0 : ℚ) else none) = some d := hd
      rw [if_neg hv2] at hd2
      cases hd2
  · intro v d hd
    by_cases hv2 : v = s
    · have hd2 : (if v = s then some (0 : ℚ) else none) = some d := hd
      rw [if_pos hv2] at hd2
      have := Option.some.inj hd2
      rw [← this]
    · exfalso
      have hd2 : (if v = s then some (0 : ℚ) else none) = some d := hd
      rw [if_neg hv2] at hd2
      cases hd2
  · intro v u hp
    cases hp
  · intro v u hp
    cases hp
  · intro v d hd hp
    by_cases hv2 : v = s
    · exact hv2
    · exfalso
      have hd2 : (if v = s then some (0 : ℚ) else none) = some d := hd
      rw [if_neg hv2] at hd2
      cases hd2

theorem dloop_step (g : Graph) (skip : Option (Nat × Nat)) (hv : Nat → Nat → ℚ)
    (s : Nat)
    (Hrec : ∀ r ∈ g.recs, r.src < g.V ∧ r.dst < g.V ∧ r.src ≠ r.dst ∧ 0 ≤ r.wt)
    (H1 : ∀ r ∈ g.recs, r.wt = hv r.src r.dst)
    (hhv : ∀ a b, 0 ≤ hv a b) (hs : s < g.V)
    (st : DState) (ord : List Nat) (u : Nat)
    (inv : DInv g skip hv s st ord) (hmin : minQ g.V st = some u) :
    DInv g skip hv s (relaxAll g skip u { st with used := upd st.used u true })
      (ord ++ [u]) := by
  obtain ⟨huused, huV, du, hdu, hminimal⟩ := minQ_some_spec g.V st u hmin
  have hunotord : u ∉ ord := by
    intro h
    have h2 := (inv.used_iff u).mpr h
    rw [huused] at h2
    exact Bool.false_ne_true h2
  have hdu0 : 0 ≤ du := inv.nonneg u du hdu
  set stm : DState := { st with used := upd st.used u true } with hstm
  set st1 : DState := relaxAll g skip u stm with hst1def
  have hfold := relax_fold_spec g skip hv u du H1 Hrec (adjOf g u) stm
    (fun vw hvw => (mem_adjOf_iff g u vw).mp hvw) hdu st1 rfl
  have hused : st1.used = upd st.used u true := hfold.1
  have hdu1 : st1.dist u = some du := hfold.2.1
  have hevol := hfold.2.2.1
  have hrelaxu := hfold.2.2.2
  have hK1 : ∀ x ∈ ord, st1.dist x = st.dist x ∧ st1.parent x = st.parent x := by
    intro x hx
    rcases hevol x with ⟨h1, h2⟩ | hupd
    · exact ⟨h1, h2⟩
    · exfalso
      obtain ⟨dx, hdx⟩ := inv.settled_fin x hx
      have himp := hupd.2.2.2.2 dx hdx
      have hfr := inv.frontier x hx dx hdx u du huused hdu
      have := hhv u x
      linarith
  have hK3 : ∀ v d0, st.dist v = some d0 → ∃ d1, st1.dist v = some d1 ∧ d1 ≤ d0 := by
    intro v d0 hd0
    rcases hevol v with ⟨h1, _⟩ | hupd
    · exact ⟨d0, by rw [h1]; exact hd0, le_refl _⟩
    · exact ⟨du + hv u v, hupd.1, le_of_lt (hupd.2.2.2.2 d0 hd0)⟩
  refine ⟨?_, ?_, ?_, ?_, ?_, ?_, ?_, ?_, ?_, ?_, ?_, ?_, ?_, ?_⟩
  · rw [List.nodup_append]
    refine ⟨inv.nodup, List.nodup_singleton u, ?_⟩
    intro a ha hb
    rw [List.mem_singleton] at hb
    subst hb
    exact hunotord ha
  · intro x hx
    rcases List.mem_append.mp hx with h1 | h1
    · exact inv.mem_lt x h1
    · rw [List.mem_singleton] at h1
      rw [h1]
      exact huV
  · intro v
    rw [hused]
    by_cases hvu : v = u
    · subst hvu
      rw [upd_eq]
      constructor
      · intro _
        exact List.mem_append.mpr (Or.inr (List.mem_singleton.mpr rfl))
      · intro _
        rfl
    · rw [upd_ne _ _ _ v hvu]
      rw [inv.used_iff v]
      constructor
      · intro h
        exact List.mem_append.mpr (Or.inl h)
      · intro h
        rcases List.mem_append.mp h with h1 | h1
        · exact h1
        · rw [List.mem_singleton] at h1
          exact absurd h1 hvu
  · rcases inv.s_mem with hord | hsin
    · have hst : st = dinit s := inv.empty_init hord
      rw [hst, minQ_dinit g.V s hs] at hmin
      have hsu : s = u := Option.some.inj hmin
      exact Or.inr (List.mem_append.mpr (Or.inr (hsu ▸ List.mem_singleton.mpr rfl)))
    · exact Or.inr (List.mem_append.mpr (Or.inl hsin))
  · intro h
    exact absurd (List.append_eq_nil.mp h).2 (List.cons_ne_nil u [])
  · rcases hevol s with ⟨h1, _⟩ | hupd
    · rw [h1]
      exact inv.dist_s
    · exfalso
      have himp := hupd.2.2.2.2 0 inv.dist_s
      have := hhv u s
      linarith
  · intro v d hd
    rcases hevol v with ⟨h1, _⟩ | hupd
    · rw [h1] at hd
      exact inv.dist_lt v d hd
    · obtain ⟨r, hrmem, hrsrc, hrdst⟩ := hupd.2.2.1
      rw [← hrdst]
      exact (Hrec r hrmem).2.1
  · intro v d hd
    rcases hevol v with ⟨h1, _⟩ | hupd
    · rw [h1] at hd
      exact inv.nonneg v d hd
    · rw [hupd.1] at hd
      have hde := Option.some.inj hd
      rw [← hde]
      have := hhv u v
      linarith
  · intro x hx dx hdx y dy hyu hdy
    have hyu2 : st.used y = false := by
      rw [hused] at hyu
      by_cases hyeq : y = u
      · subst hyeq
        rw [upd_eq] at hyu
        cases hyu
      · rw [upd_ne _ _ _ y hyeq] at hyu
        exact hyu
    have hyne : y ≠ u := by
      intro h
      subst h
      rw [hused, upd_eq] at hyu
      cases hyu
    rcases List.mem_append.mp hx with hxo | hxu
    · have hdx2 : st.dist x = some dx := by
        rw [← (hK1 x hxo).1]
        exact hdx
      rcases hevol y with ⟨h1, _⟩ | hupd
      · rw [h1] at hdy
        exact inv.frontier x hxo dx hdx2 y dy hyu2 hdy
      · rw [hupd.1] at hdy
        have hde := Option.some.inj hdy
        have hfr := inv.frontier x hxo dx hdx2 u du huused hdu
        have := hhv u y
        rw [← hde]
        linarith
    · rw [List.mem_singleton] at hxu
      rw [hxu] at hdx
      have hdxe : dx = du := by
        rw [hdu1] at hdx
        exact (Option.some.inj hdx).symm
      rw [hdxe]
      rcases hevol y with ⟨h1, _⟩ | hupd
      · rw [h1] at hdy
        exact hminimal y (inv.dist_lt y dy hdy) hyu2 dy hdy
      · rw [hupd.1] at hdy
        have hde := Option.some.inj hdy
        have hy2 := hhv u y
        rw [← hde]
        linarith
  · intro x hx
    rcases List.mem_append.mp hx with hxo | hxu
    · obtain ⟨dx, hdx⟩ := inv.settled_fin x hxo
      exact ⟨dx, by rw [(hK1 x hxo).1]; exact hdx⟩
    · rw [List.mem_singleton] at hxu
      rw [hxu]
      exact ⟨du, hdu1⟩
  · intro x hx vw hvw hsk dx hdx
    rcases List.mem_append.mp hx with hxo | hxu
    · have hdx2 : st.dist x = some dx := by
        rw [← (hK1 x hxo).1]
        exact hdx
      obtain ⟨dv0, hdv0, hdv0le⟩ := inv.relaxed x hxo vw hvw hsk dx hdx2
      obtain ⟨d1, hd1, hd1le⟩ := hK3 vw.1 dv0 hdv0
      exact ⟨d1, hd1, le_trans hd1le hdv0le⟩
    · rw [List.mem_singleton] at hxu
      rw [hxu] at hvw hsk hdx
      have hdxe : dx = du := by
        rw [hdu1] at hdx
        exact (Option.some.inj hdx).symm
      rw [hdxe]
      exact hrelaxu vw hvw hsk
  · intro v u0 hp
    rcases hevol v with ⟨h1, h2⟩ | hupd
    · rw [h2] at hp
      obtain ⟨hu0ord, hrec, hsk, du0, hdu0x, hdvx⟩ := inv.parent_spec v u0 hp
      refine ⟨List.mem_append.mpr (Or.inl hu0ord), hrec, hsk, du0, ?_, ?_⟩
      · rw [(hK1 u0 hu0ord).1]
        exact hdu0x
      · rw [h1]
        exact hdvx
    · have hu0 : u0 = u := by
        rw [hupd.2.1] at hp
        exact (Option.some.inj hp).symm
      subst hu0
      exact ⟨List.mem_append.mpr (Or.inr (List.mem_singleton.mpr rfl)),
        hupd.2.2.1, hupd.2.2.2.1, du, hdu1, hupd.1⟩
  · intro v u0 hp hvmem
    rcases hevol v with ⟨h1, h2⟩ | hupd
    · rw [h2] at hp
      obtain ⟨hu0ord, _, _, _⟩ := inv.parent_spec v u0 hp
      rcases List.mem_append.mp hvmem with hvo | hvu
      · have := inv.parent_ord v u0 hp hvo
        rw [ordIdx_append_left ord [u] u0 hu0ord, ordIdx_append_left ord [u] v hvo]
        exact this
      · rw [List.mem_singleton] at hvu
        subst hvu
        rw [ordIdx_append_self ord v hunotord, ordIdx_append_left ord [v] u0 hu0ord]
        exact ordIdx_lt_length ord u0 hu0ord
    · exfalso
      rcases List.mem_append.mp hvmem with hvo | hvu
      · obtain ⟨dv0, hdv0⟩ := inv.settled_fin v hvo
        have himp := hupd.2.2.2.2 dv0 hdv0
        have h1 := (hK1 v hvo).1
        rw [hupd.1] at h1
        rw [hdv0] at h1
        have := Option.some.inj h1
        linarith
      · rw [List.mem_singleton] at hvu
        subst hvu
        obtain ⟨r, hrmem, hrsrc, hrdst⟩ := hupd.2.2.1
        exact (Hrec r hrmem).2.2.1 (hrsrc.trans hrdst.symm)
  · intro v d hd hp
    rcases hevol v with ⟨h1, h2⟩ | hupd
    · rw [h1] at hd
      rw [h2] at hp
      exact inv.no_parent v d hd hp
    · rw [hupd.2.1] at hp
      cases hp

end EcoRoute
namespace EcoRoute

theorem all_lt_mem_of_card (ord : List Nat) (V : Nat) (hnd : ord.Nodup)
    (hlt : ∀ u ∈ ord, u < V) (hlen : V ≤ ord.length) : ∀ v, v < V → v ∈ ord := by
  intro v hv
  have hsub : ord.toFinset ⊆ Finset.range V := by
    intro a ha
    rw [List.mem_toFinset] at ha
    rw [Finset.mem_range]
    exact hlt a ha
  have hcard : (Finset.range V).card ≤ ord.toFinset.card := by
    rw [Finset.card_range, List.toFinset_card_of_nodup hnd]
    exact hlen
  have heq : ord.toFinset = Finset.range V :=
    Finset.eq_of_subset_of_card_le hsub hcard
  rw [← List.mem_toFinset, heq, Finset.mem_range]
  exact hv

theorem ord_full_minQ_none (g : Graph) (skip : Option (Nat × Nat))
    (hv : Nat → Nat → ℚ) (s : Nat) (st : DState) (ord : List Nat)
    (inv : DInv g skip hv s st ord) (hlen : g.V ≤ ord.length) :
    minQ g.V st = none := by
  rcases hm : minQ g.V st with _ | u
  · rfl
  · exfalso
    obtain ⟨huused, huV, _, _, _⟩ := minQ_some_spec g.V st u hm
    have hmem := all_lt_mem_of_card ord g.V inv.nodup inv.mem_lt hlen u huV
    have h2 := (inv.used_iff u).mpr hmem
    rw [huused] at h2
    exact Bool.false_ne_true h2

theorem dloop_run (g : Graph) (skip : Option (Nat × Nat)) (hv : Nat → Nat → ℚ)
    (s t : Nat)
    (Hrec : ∀ r ∈ g.recs, r.src < g.V ∧ r.dst < g.V ∧ r.src ≠ r.dst ∧ 0 ≤ r.wt)
    (H1 : ∀ r ∈ g.recs, r.wt = hv r.src r.dst)
    (hhv : ∀ a b, 0 ≤ hv a b) (hs : s < g.V) :
    ∀ (fuel : Nat) (st : DState) (ord : List Nat),
      DInv g skip hv s st ord → g.V ≤ fuel + ord.length → t ∉ ord →
      (∃ stPre ordPre, DInv g skip hv s stPre ordPre ∧ t ∉ ordPre ∧
        minQ g.V stPre = some t ∧
        dloop g skip t fuel st = { stPre with used := upd stPre.used t true }) ∨
      (∃ ordF, DInv g skip hv s (dloop g skip t fuel st) ordF ∧
        minQ g.V (dloop g skip t fuel st) = none ∧ t ∉ ordF) := by
  intro fuel
  induction fuel with
  | zero =>
    intro st ord inv hfuel htord
    right
    have hd : dloop g skip t 0 st = st := rfl
    rw [hd]
    refine ⟨ord, inv, ?_, htord⟩
    exact ord_full_minQ_none g skip hv s st ord inv (by omega)
  | succ fuel ih =>
    intro st ord inv hfuel htord
    rcases hm : minQ g.V st with _ | u
    · right
      have hdl : dloop g skip t (fuel + 1) st = st := by
        unfold dloop
        rw [hm]
      rw [hdl]
      exact ⟨ord, inv, hm, htord⟩
    · by_cases hut : u = t
      · left
        have hdl : dloop g skip t (fuel + 1) st =
            { st with used := upd st.used u true } := by
          unfold dloop
          rw [hm]
          show (if u = t then ({ st with used := upd st.used u true } : DState)
            else dloop g skip t fuel
              (relaxAll g skip u { st with used := upd st.used u true })) =
            { st with used := upd st.used u true }
          rw [if_pos hut]
        rw [hut] at hm hdl
        rw [hdl]
        exact ⟨st, ord, inv, htord, hm, rfl⟩
      · have hdl : dloop g skip t (fuel + 1) st =
            dloop g skip t fuel
              (relaxAll g skip u { st with used := upd st.used u true }) := by
          conv_lhs => unfold dloop
          rw [hm]
          show (if u = t then ({ st with used := upd st.used u true } : DState)
            else dloop g skip t fuel
              (relaxAll g skip u { st with used := upd st.used u true })) = _
          rw [if_neg hut]
        have hinv2 := dloop_step g skip hv s Hrec H1 hhv hs st ord u inv hm
        have hlen2 : g.V ≤ fuel + (ord ++ [u]).length := by
          rw [List.length_append]
          show g.V ≤ fuel + (ord.length + [u].length)
          show g.V ≤ fuel + (ord.length + 1)
          omega
        have htord2 : t ∉ ord ++ [u] := by
          intro h
          rcases List.mem_append.mp h with h1 | h1
          · exact htord h1
          · rw [List.mem_singleton] at h1
            exact hut h1.symm
        have hrec := ih (relaxAll g skip u { st with used := upd st.used u true })
          (ord ++ [u]) hinv2 hlen2 htord2
        rw [hdl]
        exact hrec

end EcoRoute
namespace EcoRoute

theorem opt_at_selection (g : Graph) (skip : Option (Nat × Nat)) (hv : Nat → Nat → ℚ)
    (s t : Nat)
    (H1 : ∀ r ∈ g.recs, r.wt = hv r.src r.dst)
    (hhv : ∀ a b, 0 ≤ hv a b) (hs : s < g.V)
    (stPre : DState) (ordPre : List Nat)
    (inv : DInv g skip hv s stPre ordPre) (htord : t ∉ ordPre)
    (hmin : minQ g.V stPre = some t) (dt : ℚ) (hdt : stPre.dist t = some dt) :
    ∀ Q : List Nat, List.Chain' (edgeOk g skip) Q → Q.head? = some s →
      Q.getLast? = some t → dt ≤ hvCost hv Q := by
  obtain ⟨htused, htV, dt2, hdt2, hminimal⟩ := minQ_some_spec g.V stPre t hmin
  have hdte : dt2 = dt := by
    rw [hdt] at hdt2
    exact (Option.some.inj hdt2).symm
  rw [hdte] at hminimal
  have aux : ∀ Q : List Nat, ∀ a ∈ ordPre, ∀ da, stPre.dist a = some da →
      List.Chain' (edgeOk g skip) (a :: Q) → (a :: Q).getLast? = some t →
      dt ≤ da + hvCost hv (a :: Q) := by
    intro Q
    induction Q with
    | nil =>
      intro a ha da hda hchain hlast
      exfalso
      have h2 : ([a] : List Nat).getLast? = some a := rfl
      rw [h2] at hlast
      have hat : a = t := Option.some.inj hlast
      rw [hat] at ha
      exact htord ha
    | cons b Q2 ih =>
      intro a ha da hda hchain hlast
      have hedge : edgeOk g skip a b := (List.chain'_cons.mp hchain).1
      have hchain2 : List.Chain' (edgeOk g skip) (b :: Q2) := (List.chain'_cons.mp hchain).2
      obtain ⟨⟨r, hrmem, hrsrc, hrdst⟩, hsk⟩ := hedge
      have hadj : ((r.dst, r.wt) : Nat × ℚ) ∈ adjOf g a := by
        rw [mem_adjOf_iff]
        exact ⟨r, hrmem, hrsrc, rfl⟩
      have hskvw : skipMatch skip a ((r.dst, r.wt) : Nat × ℚ).1 = false := by
        show skipMatch skip a r.dst = false
        rw [hrdst]
        exact hsk
      obtain ⟨db, hdb, hdble⟩ := inv.relaxed a ha ((r.dst, r.wt) : Nat × ℚ) hadj hskvw da hda
      have hdb2 : stPre.dist b = some db := by
        have h3 : stPre.dist r.dst = some db := hdb
        rw [hrdst] at h3
        exact h3
      have hdble2 : db ≤ da + r.wt := hdble
      have hwt : r.wt = hv a b := by
        rw [H1 r hrmem, hrsrc, hrdst]
      have hcost : hvCost hv (a :: b :: Q2) = hv a b + hvCost hv (b :: Q2) := rfl
      by_cases hb : b ∈ ordPre
      · have hlast2 : (b :: Q2).getLast? = some t := by
          rw [List.getLast?_cons_cons] at hlast
          exact hlast
        have hih := ih b hb db hdb2 hchain2 hlast2
        rw [hcost]
        linarith
      · have hbused : stPre.used b = false := by
          cases hbu : stPre.used b
          · rfl
          · exact absurd ((inv.used_iff b).mp hbu) hb
        have hmin2 := hminimal b (inv.dist_lt b db hdb2) hbused db hdb2
        have hnn : 0 ≤ hvCost hv (b :: Q2) := hvCost_nonneg hv hhv _
        rw [hcost]
        linarith
  intro Q hchain hhead hlast
  rcases Q with _ | ⟨q0, Q0⟩
  · cases hhead
  · have hq0 : q0 = s := by
      have h2 : (q0 :: Q0).head? = some q0 := rfl
      rw [h2] at hhead
      exact Option.some.inj hhead
    rw [hq0] at hchain hlast ⊢
    rcases inv.s_mem with hord | hsin
    · have hst := inv.empty_init hord
      rw [hst, minQ_dinit g.V s hs] at hmin
      have hts : s = t := Option.some.inj hmin
      have hdt0 : dt = 0 := by
        rw [hst] at hdt
        rw [← hts] at hdt
        have h4 : (dinit s).dist s = some 0 := by
          show (if s = s then some (0 : ℚ) else none) = some 0
          rw [if_pos rfl]
        rw [h4] at hdt
        exact (Option.some.inj hdt).symm
      rw [hdt0]
      exact hvCost_nonneg hv hhv _
    · have hds : stPre.dist s = some 0 := inv.dist_s
      have haux := aux Q0 s hsin 0 hds hchain hlast
      linarith

theorem caseB_no_path (g : Graph) (skip : Option (Nat × Nat)) (hv : Nat → Nat → ℚ)
    (s t : Nat)
    (H1 : ∀ r ∈ g.recs, r.wt = hv r.src r.dst)
    (hs : s < g.V)
    (stF : DState) (ordF : List Nat)
    (inv : DInv g skip hv s stF ordF) (hminN : minQ g.V stF = none)
    (htord : t ∉ ordF) :
    ∀ Q : List Nat, List.Chain' (edgeOk g skip) Q → Q.head? = some s →
      Q.getLast? = some t → False := by
  have aux : ∀ Q : List Nat, ∀ a ∈ ordF, List.Chain' (edgeOk g skip) (a :: Q) →
      (a :: Q).getLast? = some t → False := by
    intro Q
    induction Q with
    | nil =>
      intro a ha hchain hlast
      have h2 : ([a] : List Nat).getLast? = some a := rfl
      rw [h2] at hlast
      have hat : a = t := Option.some.inj hlast
      rw [hat] at ha
      exact htord ha
    | cons b Q2 ih =>
      intro a ha hchain hlast
      have hedge : edgeOk g skip a b := (List.chain'_cons.mp hchain).1
      have hchain2 : List.Chain' (edgeOk g skip) (b :: Q2) := (List.chain'_cons.mp hchain).2
      obtain ⟨⟨r, hrmem, hrsrc, hrdst⟩, hsk⟩ := hedge
      have hadj : ((r.dst, r.wt) : Nat × ℚ) ∈ adjOf g a := by
        rw [mem_adjOf_iff]
        exact ⟨r, hrmem, hrsrc, rfl⟩
      have hskvw : skipMatch skip a ((r.dst, r.wt) : Nat × ℚ).1 = false := by
        show skipMatch skip a r.dst = false
        rw [hrdst]
        exact hsk
      obtain ⟨da, hda⟩ := inv.settled_fin a ha
      obtain ⟨db, hdb, _⟩ := inv.relaxed a ha ((r.dst, r.wt) : Nat × ℚ) hadj hskvw da hda
      have hdb2 : stF.dist b = some db := by
        have h3 : stF.dist r.dst = some db := hdb
        rw [hrdst] at h3
        exact h3
      by_cases hb : b ∈ ordF
      · have hlast2 : (b :: Q2).getLast? = some t := by
          rw [List.getLast?_cons_cons] at hlast
          exact hlast
        exact ih b hb hchain2 hlast2
      · have hbused : stF.used b = false := by
          cases hbu : stF.used b
          · rfl
          · exact absurd ((inv.used_iff b).mp hbu) hb
        rcases minQ_none_spec g.V stF hminN b (inv.dist_lt b db hdb2) with h4 | h4
        · rw [hbused] at h4
          exact Bool.false_ne_true h4
        · rw [h4] at hdb2
          cases hdb2
  intro Q hchain hhead hlast
  rcases Q with _ | ⟨q0, Q0⟩
  · cases hhead
  · have hq0 : q0 = s := by
      have h2 : (q0 :: Q0).head? = some q0 := rfl
      rw [h2] at hhead
      exact Option.some.inj hhead
    rw [hq0] at hchain hlast
    rcases inv.s_mem with hord | hsin
    · have hst := inv.empty_init hord
      rw [hst, minQ_dinit g.V s hs] at hminN
      cases hminN
    · exact aux Q0 s hsin hchain hlast

end EcoRoute
namespace EcoRoute

theorem chain_extract (g : Graph) (skip : Option (Nat × Nat)) (hv : Nat → Nat → ℚ)
    (s : Nat) (stPre : DState) (ordPre : List Nat)
    (inv : DInv g skip hv s stPre ordPre) :
    ∀ (n : Nat) (u : Nat), u ∈ ordPre → ordIdx ordPre u < n →
      ∀ du, stPre.dist u = some du →
      ∃ C : List Nat, chainAux stPre.parent n u = C ∧
        C.head? = some u ∧ C.getLast? = some s ∧ C.Nodup ∧
        (∀ v ∈ C, v ∈ ordPre ∧ ordIdx ordPre v ≤ ordIdx ordPre u) ∧
        List.Chain' (fun a b => stPre.parent a = some b ∧ edgeOk g skip b a) C ∧
        hvCost hv C.reverse = du := by
  intro n
  induction n with
  | zero =>
    intro u hu hidx
    exact absurd hidx (Nat.not_lt_zero _)
  | succ n ih =>
    intro u hu hidx du hdu
    rcases hp : stPre.parent u with _ | u2
    · have hC : chainAux stPre.parent (n + 1) u = [u] := by
        unfold chainAux
        rw [hp]
      have hus : u = s := inv.no_parent u du hdu hp
      refine ⟨[u], hC, rfl, by rw [hus]; rfl, List.nodup_singleton u, ?_,
        List.chain'_singleton u, ?_⟩
      · intro v hvm
        rw [List.mem_singleton] at hvm
        rw [hvm]
        exact ⟨hu, le_refl _⟩
      · show hvCost hv [u] = du
        rw [hus] at hdu
        rw [inv.dist_s] at hdu
        exact Option.some.inj hdu
    · obtain ⟨hu2ord, hrec, hsk, du2, hdu2, hdveq⟩ := inv.parent_spec u u2 hp
      have hdue : du = du2 + hv u2 u := by
        rw [hdu] at hdveq
        exact Option.some.inj hdveq
      have hidxlt := inv.parent_ord u u2 hp hu
      have hidx2 : ordIdx ordPre u2 < n := by omega
      obtain ⟨C2, hC2, hC2head, hC2last, hC2nodup, hC2mem, hC2chain, hC2cost⟩ :=
        ih u2 hu2ord hidx2 du2 hdu2
      have hC : chainAux stPre.parent (n + 1) u = u :: C2 := by
        unfold chainAux
        rw [hp]
        show u :: chainAux stPre.parent n u2 = u :: C2
        rw [hC2]
      have hC2ne : C2 ≠ [] := by
        intro h
        rw [h] at hC2head
        cases hC2head
      have hunotC2 : u ∉ C2 := by
        intro h
        have h2 := (hC2mem u h).2
        omega
      refine ⟨u :: C2, hC, rfl, ?_, ?_, ?_, ?_, ?_⟩
      · rcases C2 with _ | ⟨c, C2t⟩
        · exact absurd rfl hC2ne
        · rw [List.getLast?_cons_cons]
          exact hC2last
      · rw [List.nodup_cons]
        exact ⟨hunotC2, hC2nodup⟩
      · intro v hvm
        rcases List.mem_cons.mp hvm with rfl | hvm2
        · exact ⟨hu, le_refl _⟩
        · have h2 := hC2mem v hvm2
          exact ⟨h2.1, by omega⟩
      · rcases hC2 : C2 with _ | ⟨c, C2t⟩
        · exact absurd hC2 hC2ne
        · rw [List.chain'_cons]
          have hcu2 : c = u2 := by
            rw [hC2] at hC2head
            exact Option.some.inj hC2head
        -- wait: hC2head : C2.head? = some u2; with C2 = c :: C2t: head? = some c
          refine ⟨?_, by rw [← hC2]; exact hC2chain⟩
          rw [hcu2]
          exact ⟨hp, hrec, hsk⟩
      · show hvCost hv (u :: C2).reverse = du
        rw [List.reverse_cons]
        have hrevlast : C2.reverse.getLast? = some u2 := by
          rw [List.getLast?_reverse]
          exact hC2head
        rw [hvCost_append_last hv C2.reverse u2 u hrevlast, hC2cost, hdue]

theorem dijkstra_reaches (g : Graph) (skip : Option (Nat × Nat)) (hv : Nat → Nat → ℚ)
    (s t : Nat)
    (Hrec : ∀ r ∈ g.recs, r.src < g.V ∧ r.dst < g.V ∧ r.src ≠ r.dst ∧ 0 ≤ r.wt)
    (H1 : ∀ r ∈ g.recs, r.wt = hv r.src r.dst)
    (hhv : ∀ a b, 0 ≤ hv a b) (hs : s < g.V)
    (Q : List Nat) (hQ : List.Chain' (edgeOk g skip) Q)
    (hhead : Q.head? = some s) (hlast : Q.getLast? = some t) :
    ∃ dt, (dijkstra_skip_edge g skip s t).dist t = some dt ∧ dt ≤ hvCost hv Q := by
  have hrun := dloop_run g skip hv s t Hrec H1 hhv hs g.V (dinit s) []
    (dinv_init g skip hv s hs) (by show g.V ≤ g.V + 0; omega) (List.not_mem_nil t)
  rcases hrun with ⟨stPre, ordPre, inv, htord, hminT, heq⟩ | ⟨ordF, invF, hminN, htordF⟩
  · obtain ⟨_, _, dt, hdt, _⟩ := minQ_some_spec g.V stPre t hminT
    have hfinal : (dijkstra_skip_edge g skip s t).dist t = some dt := by
      show (dloop g skip t g.V (dinit s)).dist t = some dt
      rw [heq]
      exact hdt
    exact ⟨dt, hfinal,
      opt_at_selection g skip hv s t H1 hhv hs stPre ordPre inv htord hminT dt hdt
        Q hQ hhead hlast⟩
  · exact absurd hlast (fun hl =>
      caseB_no_path g skip hv s t H1 hs (dloop g skip t g.V (dinit s)) ordF invF
        hminN htordF Q hQ hhead hl)

theorem ordPre_len_le (g : Graph) (skip : Option (Nat × Nat)) (hv : Nat → Nat → ℚ)
    (s t : Nat) (stPre : DState) (ordPre : List Nat)
    (inv : DInv g skip hv s stPre ordPre) (ht : t < g.V) (htord : t ∉ ordPre) :
    ordPre.length ≤ g.V - 1 := by
  have hsub : ordPre.toFinset ⊆ (Finset.range g.V).erase t := by
    intro a ha
    rw [List.mem_toFinset] at ha
    rw [Finset.mem_erase, Finset.mem_range]
    exact ⟨fun h => htord (h ▸ ha), inv.mem_lt a ha⟩
  have hcard := Finset.card_le_card hsub
  rw [List.toFinset_card_of_nodup inv.nodup,
    Finset.card_erase_of_mem (Finset.mem_range.mpr ht), Finset.card_range] at hcard
  exact hcard

theorem dijkstra_path_spec (g : Graph) (skip : Option (Nat × Nat)) (hv : Nat → Nat → ℚ)
    (s t : Nat)
    (Hrec : ∀ r ∈ g.recs, r.src < g.V ∧ r.dst < g.V ∧ r.src ≠ r.dst ∧ 0 ≤ r.wt)
    (H1 : ∀ r ∈ g.recs, r.wt = hv r.src r.dst)
    (hhv : ∀ a b, 0 ≤ hv a b) (hs : s < g.V) (ht : t < g.V)
    (dt : ℚ) (hdt : (dijkstra_skip_edge g skip s t).dist t = some dt) :
    ∃ L : List Nat, (chainAux (dijkstra_skip_edge g skip s t).parent g.V t).reverse = L ∧
      L.head? = some s ∧ L.getLast? = some t ∧ L.Nodup ∧
      List.Chain' (edgeOk g skip) L ∧ hvCost hv L = dt ∧ (∀ v ∈ L, v < g.V) := by
  have hrun := dloop_run g skip hv s t Hrec H1 hhv hs g.V (dinit s) []
    (dinv_init g skip hv s hs) (by show g.V ≤ g.V + 0; omega) (List.not_mem_nil t)
  rcases hrun with ⟨stPre, ordPre, inv, htord, hminT, heq⟩ | ⟨ordF, invF, hminN, htordF⟩
  · have hdistF : (dijkstra_skip_edge g skip s t).dist = stPre.dist := by
      show (dloop g skip t g.V (dinit s)).dist = stPre.dist
      rw [heq]
    have hparF : (dijkstra_skip_edge g skip s t).parent = stPre.parent := by
      show (dloop g skip t g.V (dinit s)).parent = stPre.parent
      rw [heq]
    have hdt2 : stPre.dist t = some dt := by
      rw [← hdistF]
      exact hdt
    rw [hparF]
    rcases hp : stPre.parent t with _ | u2
    · have hts : t = s := inv.no_parent t dt hdt2 hp
      have hCt : chainAux stPre.parent g.V t = [t] := by
        rcases g.V with _ | m
        · rfl
        · unfold chainAux
          rw [hp]
      rw [hCt]
      have hdt0 : dt = 0 := by
        rw [hts, inv.dist_s] at hdt2
        exact (Option.some.inj hdt2).symm
      refine ⟨[t], rfl, by rw [hts]; rfl, rfl, List.nodup_singleton t,
        List.chain'_singleton t, by rw [hdt0]; rfl, ?_⟩
      intro v hvm
      rw [List.mem_singleton] at hvm
      rw [hvm]
      exact ht
    · obtain ⟨hu2ord, hrec, hsk, du2, hdu2, hdveq⟩ := inv.parent_spec t u2 hp
      have hdte : dt = du2 + hv u2 t := by
        rw [hdt2] at hdveq
        exact Option.some.inj hdveq
      obtain ⟨m, hm⟩ : ∃ m, g.V = m + 1 := by
        rcases hV : g.V with _ | m
        · rw [hV] at ht
          exact absurd ht (Nat.not_lt_zero t)
        · exact ⟨m, rfl⟩
      have hlen := ordPre_len_le g skip hv s t stPre ordPre inv ht htord
      have hidx2 : ordIdx ordPre u2 < m := by
        have h2 := ordIdx_lt_length ordPre u2 hu2ord
        omega
      obtain ⟨C2, hC2, hC2head, hC2last, hC2nodup, hC2mem, hC2chain, hC2cost⟩ :=
        chain_extract g skip hv s stPre ordPre inv m u2 hu2ord hidx2 du2 hdu2
      have hC : chainAux stPre.parent g.V t = t :: C2 := by
        rw [hm]
        unfold chainAux
        rw [hp]
        show t :: chainAux stPre.parent m u2 = t :: C2
        rw [hC2]
      rw [hC]
      have hC2ne : C2 ≠ [] := by
        intro h
        rw [h] at hC2head
        cases hC2head
      have htnotC2 : t ∉ C2 := fun h => htord (hC2mem t h).1
      refine ⟨(t :: C2).reverse, rfl, ?_, ?_, ?_, ?_, ?_, ?_⟩
      · rw [List.head?_reverse]
        rcases C2 with _ | ⟨c, C2t⟩
        · exact absurd rfl hC2ne
        · rw [List.getLast?_cons_cons]
          exact hC2last
      · rw [List.getLast?_reverse]
        rfl
      · rw [List.nodup_reverse, List.nodup_cons]
        exact ⟨htnotC2, hC2nodup⟩
      · rw [List.chain'_reverse]
        have hchainC : List.Chain'
            (fun a b => stPre.parent a = some b ∧ edgeOk g skip b a) (t :: C2) := by
          rcases hC2e : C2 with _ | ⟨c, C2t⟩
          · exact absurd hC2e hC2ne
          · rw [List.chain'_cons]
            have hcu2 : c = u2 := by
              rw [hC2e] at hC2head
              exact Option.some.inj hC2head
            refine ⟨?_, by rw [← hC2e]; exact hC2chain⟩
            rw [hcu2]
            exact ⟨hp, hrec, hsk⟩
        refine List.Chain'.imp ?_ hchainC
        intro a b hab
        show edgeOk g skip b a
        exact hab.2
      · rw [List.reverse_cons]
        have hrevlast : C2.reverse.getLast? = some u2 := by
          rw [List.getLast?_reverse]
          exact hC2head
        rw [hvCost_append_last hv C2.reverse u2 t hrevlast, hC2cost, hdte]
      · intro v hvm
        rw [List.mem_reverse] at hvm
        rcases List.mem_cons.mp hvm with rfl | hvm2
        · exact ht
        · exact inv.mem_lt v (hC2mem v hvm2).1
  · exfalso
    have htused : (dloop g skip t g.V (dinit s)).used t = false := by
      cases hbu : (dloop g skip t g.V (dinit s)).used t
      · rfl
      · exact absurd ((invF.used_iff t).mp hbu) htordF
    rcases minQ_none_spec g.V _ hminN t ht with h4 | h4
    · rw [htused] at h4
      exact Bool.false_ne_true h4
    · have hdt3 : (dijkstra_skip_edge g skip s t).dist t = none := h4
      rw [hdt3] at hdt
      cases hdt

end EcoRoute
namespace EcoRoute

theorem yenLoop_eq_yenA (g : Graph) (hv : Nat → Nat → ℚ) (t : Nat) (best : List Nat)
    (m : Nat) : yenLoop g hv t best m = yenA g hv t best m := rfl

theorem equal_paths_iff (a b : Path) : equal_paths a b = true ↔ a.nodes = b.nodes := by
  unfold equal_paths
  exact beq_iff_eq

theorem take_getLast (l : List Nat) (i : Nat) (h : i < l.length) :
    (l.take (i + 1)).getLast? = some (l.getD i 0) := by
  have hlen : (l.take (i + 1)).length = i + 1 := by
    rw [List.length_take]
    omega
  rw [List.getLast?_eq_getElem?, hlen]
  have h2 : i + 1 - 1 = i := by omega
  rw [h2]
  have h3 : i < (l.take (i + 1)).length := by omega
  rw [List.getElem?_eq_getElem h3, List.getElem_take, List.getD_eq_getElem l 0 h]

theorem yenA_succ (g : Graph) (hv : Nat → Nat → ℚ) (t : Nat) (best : List Nat)
    (k : Nat) :
    yenA g hv t best (k + 1) = yenAccum g hv t best (yenA g hv t best k) k := by
  unfold yenA
  rw [List.range_succ, List.foldl_append, List.foldl_cons, List.foldl_nil]

theorem yenAccum_prefix (g : Graph) (hv : Nat → Nat → ℚ) (t : Nat) (best : List Nat)
    (A : List Path) (i : Nat) : A <+: yenAccum g hv t best A i := by
  unfold yenAccum
  rcases hc : spurCandidate g hv t best i with _ | cand
  · exact List.prefix_refl A
  · show A <+: (if (A.any fun p => equal_paths p cand) = false ∧ A.length < 64
      then A ++ [cand] else A)
    by_cases hcond : (A.any fun p => equal_paths p cand) = false ∧ A.length < 64
    · rw [if_pos hcond]
      exact List.prefix_append A [cand]
    · rw [if_neg hcond]

theorem yenA_prefix_le (g : Graph) (hv : Nat → Nat → ℚ) (t : Nat) (best : List Nat)
    (k k2 : Nat) (h : k ≤ k2) : yenA g hv t best k <+: yenA g hv t best k2 := by
  induction k2 with
  | zero =>
    have hk : k = 0 := by omega
    rw [hk]
  | succ k2 ih =>
    by_cases hk : k = k2 + 1
    · rw [hk]
    · have h2 : k ≤ k2 := by omega
      refine (ih h2).trans ?_
      rw [yenA_succ]
      exact yenAccum_prefix g hv t best (yenA g hv t best k2) k2

theorem yenA_entry (g : Graph) (hv : Nat → Nat → ℚ) (t : Nat) (best : List Nat) :
    ∀ (k p : Nat), p < (yenA g hv t best k).length →
      ∃ i, i < k ∧
        spurCandidate g hv t best i = some ((yenA g hv t best k).getD p ⟨[], 0⟩) ∧
        (yenA g hv t best i).length = p ∧ p < 64 := by
  intro k
  induction k with
  | zero =>
    intro p hp
    exact absurd hp (by
      show ¬p < ([] : List Path).length
      show ¬p < 0
      omega)
  | succ k ih =>
    intro p hp
    rw [yenA_succ] at hp ⊢
    rcases hc : spurCandidate g hv t best k with _ | cand
    · have heq : yenAccum g hv t best (yenA g hv t best k) k = yenA g hv t best k := by
        unfold yenAccum
        rw [hc]
      rw [heq] at hp ⊢
      obtain ⟨i, hik, hsc, hlen, hcap⟩ := ih p hp
      exact ⟨i, by omega, hsc, hlen, hcap⟩
    · by_cases hcond : ((yenA g hv t best k).any fun q => equal_paths q cand) = false ∧
          (yenA g hv t best k).length < 64
      · have heq : yenAccum g hv t best (yenA g hv t best k) k =
            yenA g hv t best k ++ [cand] := by
          unfold yenAccum
          rw [hc]
          show (if ((yenA g hv t best k).any fun q => equal_paths q cand) = false ∧
              (yenA g hv t best k).length < 64
            then yenA g hv t best k ++ [cand] else yenA g hv t best k) = _
          rw [if_pos hcond]
        rw [heq] at hp ⊢
        rw [List.length_append] at hp
        by_cases hplt : p < (yenA g hv t best k).length
        · rw [List.getD_append _ _ _ p hplt]
          obtain ⟨i, hik, hsc, hlen, hcap⟩ := ih p hplt
          exact ⟨i, by omega, hsc, hlen, hcap⟩
        · have hpe : p = (yenA g hv t best k).length := by
            show p = (yenA g hv t best k).length
            have h1 : ([cand] : List Path).length = 1 := rfl
            omega
          have hgd : (yenA g hv t best k ++ [cand]).getD p ⟨[], 0⟩ = cand := by
            rw [List.getD_eq_getElem _ _ (by rw [List.length_append]; omega)]
            exact List.getElem_concat_length _ cand p hpe _
          rw [hgd]
          exact ⟨k, by omega, hc, hpe.symm, by omega⟩
      · have heq : yenAccum g hv t best (yenA g hv t best k) k = yenA g hv t best k := by
          unfold yenAccum
          rw [hc]
          show (if ((yenA g hv t best k).any fun q => equal_paths q cand) = false ∧
              (yenA g hv t best k).length < 64
            then yenA g hv t best k ++ [cand] else yenA g hv t best k) = _
          rw [if_neg hcond]
        rw [heq] at hp ⊢
        obtain ⟨i, hik, hsc, hlen, hcap⟩ := ih p hp
        exact ⟨i, by omega, hsc, hlen, hcap⟩

theorem yenA_cover (g : Graph) (hv : Nat → Nat → ℚ) (t : Nat) (best : List Nat)
    (mfin i j p : Nat) (c_j : Path)
    (him : i ≤ mfin) (hji : j < i)
    (hleni : (yenA g hv t best i).length = p) (hcap : p < 64)
    (hscj : spurCandidate g hv t best j = some c_j) :
    ∃ p2, p2 < p ∧ ((yenA g hv t best mfin).getD p2 ⟨[], 0⟩).nodes = c_j.nodes := by
  have hAj_le : (yenA g hv t best j).length ≤ p := by
    have hpre := yenA_prefix_le g hv t best j i (by omega)
    have := hpre.length_le
    omega
  cases hany : (yenA g hv t best j).any (fun q => equal_paths q c_j)
  · have hcond : ((yenA g hv t best j).any fun q => equal_paths q c_j) = false ∧
        (yenA g hv t best j).length < 64 := ⟨hany, by omega⟩
    have heq : yenA g hv t best (j + 1) = yenA g hv t best j ++ [c_j] := by
      rw [yenA_succ]
      unfold yenAccum
      rw [hscj]
      show (if ((yenA g hv t best j).any fun q => equal_paths q c_j) = false ∧
          (yenA g hv t best j).length < 64
        then yenA g hv t best j ++ [c_j] else yenA g hv t best j) = _
      rw [if_pos hcond]
    have hlt : (yenA g hv t best j).length < p := by
      have hpre := yenA_prefix_le g hv t best (j + 1) i (by omega)
      have hl2 := hpre.length_le
      rw [heq, List.length_append] at hl2
      have h1 : ([c_j] : List Path).length = 1 := rfl
      omega
    have hlt1 : (yenA g hv t best j).length < (yenA g hv t best (j + 1)).length := by
      rw [heq, List.length_append]
      have h1 : ([c_j] : List Path).length = 1 := rfl
      omega
    have hpre2 := yenA_prefix_le g hv t best (j + 1) mfin (by omega)
    have hltm : (yenA g hv t best j).length < (yenA g hv t best mfin).length := by
      have := hpre2.length_le
      omega
    refine ⟨(yenA g hv t best j).length, hlt, ?_⟩
    rw [List.getD_eq_getElem _ _ hltm, ← List.IsPrefix.getElem hpre2 hlt1]
    have hgetc : (yenA g hv t best (j + 1))[(yenA g hv t best j).length] = c_j := by
      have hq1 : (yenA g hv t best (j + 1))[(yenA g hv t best j).length]? = some c_j := by
        rw [heq, List.getElem?_append_right (le_refl (yenA g hv t best j).length),
          Nat.sub_self, List.getElem?_cons_zero]
      rw [List.getElem?_eq_getElem hlt1] at hq1
      exact Option.some.inj hq1
    rw [hgetc]
  · obtain ⟨q, hqmem, hqeq⟩ := List.any_eq_true.mp hany
    obtain ⟨p2, hp2lt, hp2get⟩ := List.mem_iff_getElem.mp hqmem
    have hqnodes : q.nodes = c_j.nodes := (equal_paths_iff q c_j).mp hqeq
    have hpre2 := yenA_prefix_le g hv t best j mfin (by omega)
    have hltm : p2 < (yenA g hv t best mfin).length := by
      have := hpre2.length_le
      omega
    refine ⟨p2, by omega, ?_⟩
    rw [List.getD_eq_getElem _ _ hltm, ← List.IsPrefix.getElem hpre2 hp2lt, hp2get,
      hqnodes]

theorem bestIdx_aux (A : List Path) :
    ∀ (n i acc : Nat), acc < i →
      (∀ q, q < acc → (A.getD acc ⟨[], 0⟩).cost < (A.getD q ⟨[], 0⟩).cost) →
      (∀ q, q < i → (A.getD acc ⟨[], 0⟩).cost ≤ (A.getD q ⟨[], 0⟩).cost) →
      ∀ res, (List.range' i n).foldl
        (fun besti j =>
          if (A.getD j ⟨[], 0⟩).cost < (A.getD besti ⟨[], 0⟩).cost then j else besti)
        acc = res →
      res < i + n ∧
      (∀ q, q < res → (A.getD res ⟨[], 0⟩).cost < (A.getD q ⟨[], 0⟩).cost) ∧
      (∀ q, q < i + n → (A.getD res ⟨[], 0⟩).cost ≤ (A.getD q ⟨[], 0⟩).cost) := by
  intro n
  induction n with
  | zero =>
    intro i acc hai hstrict hle res hres
    have h0 : List.range' i 0 = [] := rfl
    rw [h0, List.foldl_nil] at hres
    subst hres
    exact ⟨by omega, hstrict, fun q hq => hle q (by omega)⟩
  | succ n ih =>
    intro i acc hai hstrict hle res hres
    rw [List.range'_succ, List.foldl_cons] at hres
    by_cases hlt : (A.getD i ⟨[], 0⟩).cost < (A.getD acc ⟨[], 0⟩).cost
    · rw [if_pos hlt] at hres
      have hstrict2 : ∀ q, q < i → (A.getD i ⟨[], 0⟩).cost < (A.getD q ⟨[], 0⟩).cost := by
        intro q hq
        by_cases hq2 : q < acc
        · exact lt_trans hlt (hstrict q hq2)
        · exact lt_of_lt_of_le hlt (hle q hq)
      have hle2 : ∀ q, q < i + 1 → (A.getD i ⟨[], 0⟩).cost ≤ (A.getD q ⟨[], 0⟩).cost := by
        intro q hq
        by_cases hq2 : q < i
        · exact le_of_lt (hstrict2 q hq2)
        · have : q = i := by omega
          rw [this]
      have hmain := ih (i + 1) i (by omega) hstrict2 hle2 res hres
      exact ⟨by omega, hmain.2.1, fun q hq => hmain.2.2 q (by omega)⟩
    · rw [if_neg hlt] at hres
      have hle2 : ∀ q, q < i + 1 → (A.getD acc ⟨[], 0⟩).cost ≤ (A.getD q ⟨[], 0⟩).cost := by
        intro q hq
        by_cases hq2 : q < i
        · exact hle q hq2
        · have : q = i := by omega
          rw [this]
          exact le_of_not_lt hlt
      have hmain := ih (i + 1) acc (by omega) hstrict hle2 res hres
      exact ⟨by omega, hmain.2.1, fun q hq => hmain.2.2 q (by omega)⟩

theorem bestIdx_spec (A : List Path) (hA : A ≠ []) :
    bestIdx A < A.length ∧
    (∀ q, q < A.length →
      (A.getD (bestIdx A) ⟨[], 0⟩).cost ≤ (A.getD q ⟨[], 0⟩).cost) ∧
    (∀ q, q < bestIdx A →
      (A.getD (bestIdx A) ⟨[], 0⟩).cost < (A.getD q ⟨[], 0⟩).cost) := by
  obtain ⟨m, hm⟩ : ∃ m, A.length = m + 1 := by
    rcases A with _ | ⟨a, A2⟩
    · exact absurd rfl hA
    · exact ⟨A2.length, rfl⟩
  unfold bestIdx
  rw [hm, List.range_eq_range', List.range'_succ, List.foldl_cons,
    if_neg (lt_irrefl ((A.getD 0 ⟨[], 0⟩).cost))]
  have h01 : (0 : Nat) + 1 = 1 := rfl
  rw [h01]
  have haux := bestIdx_aux A m 1 0 (by omega)
    (fun q hq => absurd hq (Nat.not_lt_zero q))
    (fun q hq => by
      have hq0 : q = 0 := by omega
      rw [hq0])
    _ rfl
  exact ⟨by omega, fun q hq => haux.2.2 q (by omega), haux.2.1⟩

end EcoRoute
namespace EcoRoute

theorem cost_eq_of_junction (hv : Nat → Nat → ℚ) (pref spur : List Nat) (su : Nat)
    (hpl : pref.getLast? = some su) (hsh : spur.head? = some su) :
    hvCost hv (pref ++ spur.drop 1) = hvCost hv pref + hvCost hv spur := by
  rcases spur with _ | ⟨sh, rest⟩
  · cases hsh
  · have hshe : sh = su := Option.some.inj hsh
    have hdrop : (sh :: rest).drop 1 = rest := rfl
    rw [hdrop, hvCost_append_head hv pref su rest hpl, hshe]

theorem spurCandidate_spec (g : Graph) (hv : Nat → Nat → ℚ) (t : Nat)
    (best : List Nat)
    (Hrec : ∀ r ∈ g.recs, r.src < g.V ∧ r.dst < g.V ∧ r.src ≠ r.dst ∧ 0 ≤ r.wt)
    (H1 : ∀ r ∈ g.recs, r.wt = hv r.src r.dst)
    (hhv : ∀ a b, 0 ≤ hv a b) (ht : t < g.V)
    (i : Nat) (hsuV : best.getD i 0 < g.V)
    (c : Path) (hc : spurCandidate g hv t best i = some c) :
    ∃ (spur : List Nat) (dspur : ℚ),
      (dijkstra_skip_edge g (some (best.getD i 0, best.getD (i + 1) 0))
        (best.getD i 0) t).dist t = some dspur ∧
      spur.head? = some (best.getD i 0) ∧ spur.getLast? = some t ∧ spur.Nodup ∧
      List.Chain' (edgeOk g (some (best.getD i 0, best.getD (i + 1) 0))) spur ∧
      (∀ v ∈ spur, v < g.V) ∧ hvCost hv spur = dspur ∧
      c.nodes = best.take (i + 1) ++ spur.drop 1 ∧
      c.cost = hvCost hv (best.take (i + 1)) + hvCost hv spur := by
  unfold spurCandidate at hc
  simp only [] at hc
  rcases hd : (dijkstra_skip_edge g (some (best.getD i 0, best.getD (i + 1) 0))
      (best.getD i 0) t).dist t with _ | dsp
  · rw [hd] at hc
    cases hc
  · rw [hd] at hc
    have hceq : c = ⟨best.take (i + 1) ++
        ((chainAux (dijkstra_skip_edge g (some (best.getD i 0, best.getD (i + 1) 0))
          (best.getD i 0) t).parent g.V t).reverse).drop 1,
        hvCost hv (best.take (i + 1)) + hvCost hv
          ((chainAux (dijkstra_skip_edge g (some (best.getD i 0, best.getD (i + 1) 0))
            (best.getD i 0) t).parent g.V t).reverse)⟩ := (Option.some.inj hc).symm
    obtain ⟨L, hLdef, hLh, hLl, hLnd, hLchain, hLcost, hLlt⟩ :=
      dijkstra_path_spec g (some (best.getD i 0, best.getD (i + 1) 0)) hv
        (best.getD i 0) t Hrec H1 hhv hsuV ht dsp hd
    refine ⟨L, dsp, rfl, hLh, hLl, hLnd, hLchain, hLlt, hLcost, ?_, ?_⟩
    · rw [hceq]
      show best.take (i + 1) ++ _ = best.take (i + 1) ++ L.drop 1
      rw [hLdef]
    · rw [hceq]
      show hvCost hv (best.take (i + 1)) + _ =
        hvCost hv (best.take (i + 1)) + hvCost hv L
      rw [hLdef]

theorem cand_cost_nodes (g : Graph) (hv : Nat → Nat → ℚ) (t : Nat) (best : List Nat)
    (Hrec : ∀ r ∈ g.recs, r.src < g.V ∧ r.dst < g.V ∧ r.src ≠ r.dst ∧ 0 ≤ r.wt)
    (H1 : ∀ r ∈ g.recs, r.wt = hv r.src r.dst)
    (hhv : ∀ a b, 0 ≤ hv a b) (ht : t < g.V)
    (i : Nat) (hi : i < best.length) (hsuV : best.getD i 0 < g.V)
    (c : Path) (hc : spurCandidate g hv t best i = some c) :
    c.cost = hvCost hv c.nodes := by
  obtain ⟨spur, dspur, hd, hsh, hsl, hsnd, hschain, hslt, hscost, hcnodes, hccost⟩ :=
    spurCandidate_spec g hv t best Hrec H1 hhv ht i hsuV c hc
  rw [hccost, hcnodes]
  exact (cost_eq_of_junction hv (best.take (i + 1)) spur (best.getD i 0)
    (take_getLast best i hi) hsh).symm

end EcoRoute
namespace EcoRoute

theorem yen_alt_master (g : Graph) (hv : Nat → Nat → ℚ) (s t : Nat)
    (Hrec : ∀ r ∈ g.recs, r.src < g.V ∧ r.dst < g.V ∧ r.src ≠ r.dst ∧ 0 ≤ r.wt)
    (H1 : ∀ r ∈ g.recs, r.wt = hv r.src r.dst)
    (hhv : ∀ a b, 0 ≤ hv a b) (hs : s < g.V) (ht : t < g.V)
    (best : List Nat)
    (hbh : best.head? = some s) (hbl : best.getLast? = some t)
    (hbnd : best.Nodup) (hbchain : List.Chain' (edgeOk g none) best)
    (hblt : ∀ v ∈ best, v < g.V)
    (A : List Path) (hA : A = yenA g hv t best (best.length - 1))
    (hAne : A ≠ []) :
    (A.getD (bestIdx A) ⟨[], 0⟩).nodes.Nodup ∧
    (A.getD (bestIdx A) ⟨[], 0⟩).nodes ≠ best := by
  have hbest_spec := bestIdx_spec A hAne
  have hAlen : A.length = (yenA g hv t best (best.length - 1)).length := by rw [hA]
  obtain ⟨i, him, hsc, hleni, hcap⟩ := yenA_entry g hv t best (best.length - 1)
    (bestIdx A) (by rw [← hAlen]; exact hbest_spec.1)
  rw [← hA] at hsc
  obtain ⟨alt, halt⟩ : ∃ alt, A.getD (bestIdx A) ⟨[], 0⟩ = alt := ⟨_, rfl⟩
  rw [halt] at hsc ⊢
  have hiL : i < best.length := by omega
  have hi1L : i + 1 < best.length := by omega
  have hgdV : ∀ i0, i0 < best.length → best.getD i0 0 < g.V := by
    intro i0 h
    refine hblt _ ?_
    rw [List.getD_eq_getElem best 0 h]
    exact List.getElem_mem h
  obtain ⟨spur, dspur, hdspur, hsh, hsl, hsnd, hschain, hslt, hscost, hcnodes, hccost⟩ :=
    spurCandidate_spec g hv t best Hrec H1 hhv ht i (hgdV i hiL) alt hsc
  have hbl1 : best.length - 1 < best.length := by omega
  have hblast : best[best.length - 1] = t := by
    rw [List.getLast?_eq_getElem?, List.getElem?_eq_getElem hbl1] at hbl
    exact Option.some.inj hbl
  have hsut : best.getD i 0 ≠ t := by
    intro h
    rw [List.getD_eq_getElem best 0 hiL] at h
    rw [← hblast] at h
    have := (List.Nodup.getElem_inj_iff hbnd).mp h
    omega
  obtain ⟨sh, rest, hspur_eq⟩ : ∃ sh rest, spur = sh :: rest := by
    rcases spur with _ | ⟨sh, rest⟩
    · cases hsh
    · exact ⟨sh, rest, rfl⟩
  have hshe : sh = best.getD i 0 := by
    rw [hspur_eq] at hsh
    exact Option.some.inj hsh
  have hrest_ne : rest ≠ [] := by
    intro h
    rw [hspur_eq, h] at hsl
    have h1 : sh = t := Option.some.inj hsl
    exact hsut (hshe ▸ h1)
  obtain ⟨r1, rest2, hrest_eq⟩ : ∃ r1 rest2, rest = r1 :: rest2 := by
    rcases rest with _ | ⟨r1, rest2⟩
    · exact absurd rfl hrest_ne
    · exact ⟨r1, rest2, rfl⟩
  have hedge0 : edgeOk g (some (best.getD i 0, best.getD (i + 1) 0)) (best.getD i 0) r1 := by
    rw [hspur_eq, hrest_eq] at hschain
    have h2 := (List.chain'_cons.mp hschain).1
    rw [hshe] at h2
    exact h2
  have hr1sv : r1 ≠ best.getD (i + 1) 0 := by
    intro h
    have hskF := hedge0.2
    rw [h] at hskF
    have hT : skipMatch (some (best.getD i 0, best.getD (i + 1) 0))
        (best.getD i 0) (best.getD (i + 1) 0) = true :=
      (skipMatch_some_iff _ _ _ _).mpr (Or.inl ⟨rfl, rfl⟩)
    rw [hT] at hskF
    cases hskF
  have hlenpref : (best.take (i + 1)).length = i + 1 := by
    rw [List.length_take]
    omega
  have hC2 : alt.nodes ≠ best := by
    intro heqn
    have hdrop1 : (sh :: r1 :: rest2).drop 1 = r1 :: rest2 := rfl
    have hcn2 : alt.nodes = best.take (i + 1) ++ (r1 :: rest2) := by
      rw [hcnodes, hspur_eq, hrest_eq, hdrop1]
    have h1q : alt.nodes[i + 1]? = some r1 := by
      rw [hcn2, List.getElem?_append_right (by omega : (best.take (i + 1)).length ≤ i + 1)]
      rw [hlenpref]
      have h00 : i + 1 - (i + 1) = 0 := by omega
      rw [h00]
      exact List.getElem?_cons_zero
    have h2q : alt.nodes[i + 1]? = some (best.getD (i + 1) 0) := by
      rw [heqn, List.getElem?_eq_getElem hi1L, List.getD_eq_getElem best 0 hi1L]
    rw [h1q] at h2q
    exact hr1sv (Option.some.inj h2q)
  refine ⟨?_, hC2⟩
  by_contra hnd
  have hprefnd : (best.take (i + 1)).Nodup :=
    List.Nodup.sublist (List.take_sublist (i + 1) best) hbnd
  have hdropnd : (spur.drop 1).Nodup :=
    List.Nodup.sublist (List.drop_sublist 1 spur) hsnd
  have hz : ∃ z, z ∈ best.take (i + 1) ∧ z ∈ spur.drop 1 := by
    by_contra hno
    push_neg at hno
    apply hnd
    rw [hcnodes, List.nodup_append]
    exact ⟨hprefnd, hdropnd, fun a ha hb => (hno a ha hb).elim⟩
  obtain ⟨z, hzpref, hzdrop⟩ := hz
  obtain ⟨q0, hq0lt, hq0get⟩ := List.mem_iff_getElem.mp hzdrop
  have hq0len : (spur.drop 1).length = spur.length - 1 := by
    rw [List.length_drop]
  have hr0lt : 1 + q0 < spur.length := by omega
  have hr0q : spur[1 + q0]? = some z := by
    rw [← List.getElem?_drop, List.getElem?_eq_getElem hq0lt, hq0get]
  have hr0get : spur.getD (1 + q0) 0 = z := by
    rw [List.getD_eq_getElem spur 0 hr0lt]
    rw [List.getElem?_eq_getElem hr0lt] at hr0q
    exact Option.some.inj hr0q
  have hPr0 : 1 ≤ 1 + q0 ∧ spur.getD (1 + q0) 0 ∈ best.take (i + 1) := by
    refine ⟨by omega, ?_⟩
    rw [hr0get]
    exact hzpref
  have hr0le : 1 + q0 ≤ spur.length - 1 := by omega
  have hPr : 1 ≤ Nat.findGreatest
        (fun q => 1 ≤ q ∧ spur.getD q 0 ∈ best.take (i + 1)) (spur.length - 1) ∧
      spur.getD (Nat.findGreatest
        (fun q => 1 ≤ q ∧ spur.getD q 0 ∈ best.take (i + 1)) (spur.length - 1)) 0 ∈
        best.take (i + 1) :=
    @Nat.findGreatest_spec (1 + q0)
      (fun q => 1 ≤ q ∧ spur.getD q 0 ∈ best.take (i + 1)) _
      (spur.length - 1) hr0le hPr0
  obtain ⟨r, hrdef⟩ : ∃ r, Nat.findGreatest
      (fun q => 1 ≤ q ∧ spur.getD q 0 ∈ best.take (i + 1)) (spur.length - 1) = r :=
    ⟨_, rfl⟩
  rw [hrdef] at hPr
  have hr_le : r ≤ spur.length - 1 := by
    rw [← hrdef]
    exact Nat.findGreatest_le _
  have hr_max : ∀ q, r < q → q ≤ spur.length - 1 →
      ¬(1 ≤ q ∧ spur.getD q 0 ∈ best.take (i + 1)) := by
    intro q h1 h2
    rw [← hrdef] at h1
    exact Nat.findGreatest_is_greatest h1 h2
  have hspurlen2 : 2 ≤ spur.length := by
    rw [hspur_eq, hrest_eq]
    show 2 ≤ rest2.length + 1 + 1
    omega
  have hrlt : r < spur.length := by omega
  have hzr : spur.getD r 0 ∈ best.take (i + 1) := hPr.2
  obtain ⟨j, hjlt, hjget⟩ := List.mem_take_iff_getElem.mp hzr
  have hjlen : j < best.length := lt_of_lt_of_le hjlt (min_le_right _ _)
  have hji1 : j < i + 1 := lt_of_lt_of_le hjlt (min_le_left _ _)
  have hbj : best.getD j 0 = spur.getD r 0 := by
    rw [List.getD_eq_getElem best 0 hjlen]
    exact hjget
  have hrne0 : spur.getD r 0 ≠ best.getD i 0 := by
    intro h
    have h0lt : (0 : Nat) < spur.length := by omega
    have hsu0q : spur[0]? = some (best.getD i 0) := by
      rw [hspur_eq, List.getElem?_cons_zero, hshe]
    have hq : spur[r]? = spur[0]? := by
      rw [List.getElem?_eq_getElem hrlt, hsu0q, ← h, List.getD_eq_getElem spur 0 hrlt]
    rw [List.getElem?_eq_getElem hrlt, List.getElem?_eq_getElem h0lt] at hq
    have := (List.Nodup.getElem_inj_iff hsnd).mp (Option.some.inj hq)
    omega
  have hjii : j < i := by
    by_cases h : j = i
    · exfalso
      apply hrne0
      rw [← hbj, h]
    · omega
  have htpref : t ∉ best.take (i + 1) := by
    intro hmem
    obtain ⟨jt, hjtlt, hjtget⟩ := List.mem_take_iff_getElem.mp hmem
    have hjtlen : jt < best.length := lt_of_lt_of_le hjtlt (min_le_right _ _)
    have hjti : jt < i + 1 := lt_of_lt_of_le hjtlt (min_le_left _ _)
    rw [← hblast] at hjtget
    have := (List.Nodup.getElem_inj_iff hbnd).mp hjtget
    omega
  have hrltl : r < spur.length - 1 := by
    by_cases h : r = spur.length - 1
    · exfalso
      apply htpref
      have hslast : spur.getD (spur.length - 1) 0 = t := by
        rw [List.getLast?_eq_getElem?, List.getElem?_eq_getElem (by omega :
          spur.length - 1 < spur.length)] at hsl
        rw [List.getD_eq_getElem spur 0 (by omega)]
        exact Option.some.inj hsl
      rw [← hslast, ← h]
      exact hzr
    · omega
  have hQlen : (spur.drop r).length = spur.length - r := List.length_drop r spur
  have hQhead : (spur.drop r).head? = some (best.getD j 0) := by
    rw [List.head?_drop, List.getElem?_eq_getElem hrlt]
    rw [hbj, List.getD_eq_getElem spur 0 hrlt]
  have hQne : spur.drop r ≠ [] := by
    intro h
    have := congrArg List.length h
    rw [hQlen] at this
    have h2 : (([] : List Nat)).length = 0 := rfl
    omega
  have hQlast : (spur.drop r).getLast? = some t := by
    obtain ⟨w, hw⟩ : ∃ w, (spur.drop r).getLast? = some w := by
      rcases hQe : spur.drop r with _ | ⟨a, l2⟩
      · exact absurd hQe hQne
      · exact ⟨(a :: l2).getLast (List.cons_ne_nil a l2),
          List.getLast?_eq_getLast _ _⟩
    have hsp : spur.getLast? = some w := by
      have happ := List.take_append_drop r spur
      rw [← happ, List.getLast?_append, hw]
      rfl
    rw [hsp] at hsl
    rw [hw]
    exact hsl
  have hQchain_old : List.Chain' (edgeOk g (some (best.getD i 0, best.getD (i + 1) 0)))
      (spur.drop r) := hschain.drop r
  have hbjmem : best.getD j 0 ∈ best.take (i + 1) := by
    rw [hbj]
    exact hzr
  have hbj1mem : best.getD (j + 1) 0 ∈ best.take (i + 1) := by
    rw [List.mem_take_iff_getElem]
    exact ⟨j + 1, (by rw [lt_min_iff]; exact ⟨by omega, by omega⟩),
      (List.getD_eq_getElem best 0 (by omega)).symm⟩
  have hQchain : List.Chain' (edgeOk g (some (best.getD j 0, best.getD (j + 1) 0)))
      (spur.drop r) := by
    rw [List.chain'_iff_get] at hQchain_old ⊢
    intro k hk
    have hold := hQchain_old k hk
    simp only [List.get_eq_getElem] at hold ⊢
    have hk1 : k + 1 < (spur.drop r).length := by omega
    have hrk1 : r + (k + 1) < spur.length := by
      rw [hQlen] at hk1
      omega
    have hk0 : k < (spur.drop r).length := by omega
    have hget2 : (spur.drop r)[k + 1] = spur[r + (k + 1)] := by
      have hq : (spur.drop r)[k + 1]? = spur[r + (k + 1)]? := List.getElem?_drop spur r (k + 1)
      rw [List.getElem?_eq_getElem hk1, List.getElem?_eq_getElem hrk1] at hq
      exact Option.some.inj hq
    have hnotpref : spur[r + (k + 1)] ∉ best.take (i + 1) := by
      intro hmem
      refine hr_max (r + (k + 1)) (by omega) (by omega) ⟨by omega, ?_⟩
      rw [List.getD_eq_getElem spur 0 hrk1]
      exact hmem
    refine ⟨hold.1, ?_⟩
    cases hsm : skipMatch (some (best.getD j 0, best.getD (j + 1) 0))
        ((spur.drop r)[k]) ((spur.drop r)[k + 1])
    · rfl
    · exfalso
      rcases (skipMatch_some_iff _ _ _ _).mp hsm with ⟨h1, h2⟩ | ⟨h1, h2⟩
      · apply hnotpref
        rw [← hget2, h2]
        exact hbj1mem
      · apply hnotpref
        rw [← hget2, h2]
        exact hbjmem
  obtain ⟨dtj, hdtj, hdtjle⟩ := dijkstra_reaches g
    (some (best.getD j 0, best.getD (j + 1) 0)) hv (best.getD j 0) t Hrec H1 hhv
    (hgdV j hjlen) (spur.drop r) hQchain hQhead hQlast
  rcases hscjQ : spurCandidate g hv t best j with _ | c_j
  · exfalso
    unfold spurCandidate at hscjQ
    simp only [] at hscjQ
    rw [hdtj] at hscjQ
    cases hscjQ
  · obtain ⟨spurJ, dspurJ, hdJ, hshJ, hslJ, hsndJ, hschainJ, hsltJ, hscostJ,
      hcnodesJ, hccostJ⟩ :=
      spurCandidate_spec g hv t best Hrec H1 hhv ht j (hgdV j hjlen) c_j hscjQ
    have hdsp_eq : dspurJ = dtj := by
      rw [hdtj] at hdJ
      exact (Option.some.inj hdJ).symm
    have hcj_le : c_j.cost ≤ alt.cost := by
      rw [hccostJ, hccost]
      have e1 : hvCost hv spurJ = dtj := by rw [hscostJ, hdsp_eq]
      have e3 : hvCost hv (spur.drop r) ≤ hvCost hv spur := hvCost_drop_le hv hhv spur r
      have e4 : hvCost hv (best.take (j + 1)) ≤ hvCost hv (best.take (i + 1)) := by
        have h5 := hvCost_take_le hv hhv (best.take (i + 1)) (j + 1)
        rw [List.take_take, min_eq_left (by omega : j + 1 ≤ i + 1)] at h5
        exact h5
      rw [e1]
      linarith
    obtain ⟨p2, hp2lt, hp2nodes⟩ := yenA_cover g hv t best (best.length - 1) i j
      (bestIdx A) c_j (by omega) hjii hleni hcap hscjQ
    rw [← hA] at hp2nodes
    have hp2A : p2 < A.length := by
      have := hbest_spec.1
      omega
    obtain ⟨i2, hi2m, hsc2, _, _⟩ := yenA_entry g hv t best (best.length - 1) p2
      (by rw [← hAlen]; exact hp2A)
    rw [← hA] at hsc2
    have hcost_p2 : (A.getD p2 ⟨[], 0⟩).cost = hvCost hv ((A.getD p2 ⟨[], 0⟩).nodes) :=
      cand_cost_nodes g hv t best Hrec H1 hhv ht i2 (by omega)
        (hgdV i2 (by omega)) _ hsc2
    have hcost_cjn : c_j.cost = hvCost hv c_j.nodes :=
      cand_cost_nodes g hv t best Hrec H1 hhv ht j hjlen (hgdV j hjlen) c_j hscjQ
    have hstrict := hbest_spec.2.2 p2 hp2lt
    rw [halt] at hstrict
    have hfin : alt.cost < alt.cost := by
      calc alt.cost < (A.getD p2 ⟨[], 0⟩).cost := hstrict
        _ = hvCost hv ((A.getD p2 ⟨[], 0⟩).nodes) := hcost_p2
        _ = hvCost hv c_j.nodes := by rw [hp2nodes]
        _ = c_j.cost := hcost_cjn.symm
        _ ≤ alt.cost := hcj_le
    exact absurd hfin (lt_irrefl _)

end EcoRoute

/-- C1: every path returned by yen_k2_paths is loop-free.  Both the best
Dijkstra path and the selected minimum-cost alternate are sequences of
distinct node indices: the best path is a parent-chain of the verified
Dijkstra run, and a spur candidate that revisits a prefix node is always
strictly dominated by the candidate generated at the revisited position, so
the first-minimum cost scan can never select a looping candidate.  The
hypotheses state that the graph records are exactly as add_edge/build_knn
create them (endpoints in range, no self loops, nonnegative haversine
weights consistent with hv). -/
theorem yen_paths_loop_free (g : EcoRoute.Graph) (hv : Nat → Nat → ℚ) (s t : Nat)
    (hs : s < g.V) (ht : t < g.V)
    (Hrec : ∀ r ∈ g.recs, r.src < g.V ∧ r.dst < g.V ∧ r.src ≠ r.dst ∧ 0 ≤ r.wt)
    (H1 : ∀ r ∈ g.recs, r.wt = hv r.src r.dst)
    (hhv : ∀ a b, 0 ≤ hv a b) :
    ∀ p ∈ EcoRoute.yen_k2_paths g hv s t, p.nodes.Nodup := by
  intro p hp
  unfold EcoRoute.yen_k2_paths at hp
  simp only [] at hp
  rcases hd : (EcoRoute.ecodijkstra g s t).dist t with _ | bc
  · rw [hd] at hp
    simp only [] at hp
    cases hp
  · rw [hd] at hp
    simp only [] at hp
    have hd2 : (EcoRoute.dijkstra_skip_edge g none s t).dist t = some bc := hd
    obtain ⟨best, hbestdef, hbh, hbl, hbnd, hbchain, hbcost, hblt⟩ :=
      EcoRoute.dijkstra_path_spec g none hv s t Hrec H1 hhv hs ht bc hd2
    have hbestdef2 : (EcoRoute.chainAux (EcoRoute.ecodijkstra g s t).parent g.V
        t).reverse = best := hbestdef
    rw [hbestdef2] at hp
    by_cases hA0 : (EcoRoute.yenLoop g hv t best (best.length - 1)).length = 0
    · rw [if_pos hA0] at hp
      rcases List.mem_singleton.mp hp with rfl
      exact hbnd
    · rw [if_neg hA0] at hp
      rcases List.mem_cons.mp hp with rfl | hp2
      · exact hbnd
      · rcases List.mem_singleton.mp hp2 with rfl
        have hmaster := EcoRoute.yen_alt_master g hv s t Hrec H1 hhv hs ht best
          hbh hbl hbnd hbchain hblt
          (EcoRoute.yenLoop g hv t best (best.length - 1))
          (EcoRoute.yenLoop_eq_yenA g hv t best (best.length - 1))
          (fun h => hA0 (by rw [h]; rfl))
        exact hmaster.1

/-- Witness for C1: the theorem applied to the concrete two-place graph that
add_edge builds for one undirected segment, with unit haversine; all
hypotheses discharged at this input. -/
theorem yen_paths_loop_free_witness :
    (0 : Nat) < (⟨2, [⟨0, 1, 1⟩, ⟨1, 0, 1⟩]⟩ : EcoRoute.Graph).V ∧
    (1 : Nat) < (⟨2, [⟨0, 1, 1⟩, ⟨1, 0, 1⟩]⟩ : EcoRoute.Graph).V ∧
    ∀ p ∈ EcoRoute.yen_k2_paths ⟨2, [⟨0, 1, 1⟩, ⟨1, 0, 1⟩]⟩ (fun _ _ => 1) 0 1,
      p.nodes.Nodup := by
  refine ⟨by decide, by decide, ?_⟩
  refine yen_paths_loop_free ⟨2, [⟨0, 1, 1⟩, ⟨1, 0, 1⟩]⟩ (fun _ _ => 1) 0 1
    (by decide) (by decide) ?_ ?_ ?_
  · intro r hr
    rcases List.mem_cons.mp hr with rfl | hr2
    · exact ⟨by decide, by decide, by decide, by norm_num⟩
    · rcases List.mem_singleton.mp hr2 with rfl
      exact ⟨by decide, by decide, by decide, by norm_num⟩
  · intro r hr
    rcases List.mem_cons.mp hr with rfl | hr2
    · rfl
    · rcases List.mem_singleton.mp hr2 with rfl
      rfl
  · intro a b
    norm_num

/-- C2: yen_k2_paths never returns two identical node sequences.  When an
alternate is returned it came from a spur iteration i whose Dijkstra rerun
was forbidden to relax the undirected edge (best[i], best[i+1]); the spur
therefore leaves best[i] towards a node different from best[i+1], so the
alternate differs from the best path at position i+1 (or in length). -/
theorem yen_two_paths_distinct (g : EcoRoute.Graph) (hv : Nat → Nat → ℚ) (s t : Nat)
    (hs : s < g.V) (ht : t < g.V)
    (Hrec : ∀ r ∈ g.recs, r.src < g.V ∧ r.dst < g.V ∧ r.src ≠ r.dst ∧ 0 ≤ r.wt)
    (H1 : ∀ r ∈ g.recs, r.wt = hv r.src r.dst)
    (hhv : ∀ a b, 0 ≤ hv a b) :
    (EcoRoute.yen_k2_paths g hv s t).Pairwise (fun p q => p.nodes ≠ q.nodes) := by
  unfold EcoRoute.yen_k2_paths
  simp only []
  rcases hd : (EcoRoute.ecodijkstra g s t).dist t with _ | bc
  · exact List.Pairwise.nil
  · have hd2 : (EcoRoute.dijkstra_skip_edge g none s t).dist t = some bc := hd
    obtain ⟨best, hbestdef, hbh, hbl, hbnd, hbchain, hbcost, hblt⟩ :=
      EcoRoute.dijkstra_path_spec g none hv s t Hrec H1 hhv hs ht bc hd2
    have hbestdef2 : (EcoRoute.chainAux (EcoRoute.ecodijkstra g s t).parent g.V
        t).reverse = best := hbestdef
    simp only []
    rw [hbestdef2]
    by_cases hA0 : (EcoRoute.yenLoop g hv t best (best.length - 1)).length = 0
    · rw [if_pos hA0]
      exact List.pairwise_singleton _ _
    · rw [if_neg hA0]
      have hmaster := EcoRoute.yen_alt_master g hv s t Hrec H1 hhv hs ht best
        hbh hbl hbnd hbchain hblt
        (EcoRoute.yenLoop g hv t best (best.length - 1))
        (EcoRoute.yenLoop_eq_yenA g hv t best (best.length - 1))
        (fun h => hA0 (by rw [h]; rfl))
      refine List.Pairwise.cons ?_ (List.pairwise_singleton _ _)
      intro q hq
      rcases List.mem_singleton.mp hq with rfl
      exact fun h => hmaster.2 h.symm

/-- Witness for C2: the theorem applied to the concrete two-place graph,
all hypotheses discharged at this input. -/
theorem yen_two_paths_distinct_witness :
    (0 : Nat) < (⟨2, [⟨0, 1, 1⟩, ⟨1, 0, 1⟩]⟩ : EcoRoute.Graph).V ∧
    (1 : Nat) < (⟨2, [⟨0, 1, 1⟩, ⟨1, 0, 1⟩]⟩ : EcoRoute.Graph).V ∧
    (EcoRoute.yen_k2_paths ⟨2, [⟨0, 1, 1⟩, ⟨1, 0, 1⟩]⟩ (fun _ _ => 1) 0 1).Pairwise
      (fun p q => p.nodes ≠ q.nodes) := by
  refine ⟨by decide, by decide, ?_⟩
  refine yen_two_paths_distinct ⟨2, [⟨0, 1, 1⟩, ⟨1, 0, 1⟩]⟩ (fun _ _ => 1) 0 1
    (by decide) (by decide) ?_ ?_ ?_
  · intro r hr
    rcases List.mem_cons.mp hr with rfl | hr2
    · exact ⟨by decide, by decide, by decide, by norm_num⟩
    · rcases List.mem_singleton.mp hr2 with rfl
      exact ⟨by decide, by decide, by decide, by norm_num⟩
  · intro r hr
    rcases List.mem_cons.mp hr with rfl | hr2
    · rfl
    · rcases List.mem_singleton.mp hr2 with rfl
      rfl
  · intro a b
    norm_num
